import Mathlib

/-!
brig: copy-on-write overlay (`store/overlay.go`).

A shallow embedding of the interval index and the overlay layer of
`store/overlay.go`, followed by theorems about them.

Modelling conventions.

* `int64` / `int` values are `Int`; offsets are assumed to stay far away from
  the 64-bit boundary, so `+` never wraps.
* A `[]byte` is a `List Byte` in the definitions of `store`: the bytes the
  slice shows, with capacity equal to length.  This is what the code does as
  long as no two slices share a backing array; `store.heap` has the same code
  over slice headers and explicit backing arrays, and `store.heap.run_value`
  and `store.heap.Read_value` link the two.  A slice expression whose bounds
  are out of range panics in Go; where such a panic is reachable the model
  returns `none`.
* The only implementation of the `Interval` interface is `*Modification`, so the
  index stores `Modification`s directly.
-/

namespace store

/-- A byte value. -/
abbrev Byte := Nat

/-- Go: `type Modification struct { offset int64; data []byte }`. -/
structure Modification where
  offset : Int
  data : List Byte
deriving DecidableEq, Repr

/-- Go: `func (n *Modification) Range() (int64, int64)`. -/
def Modification.Range (n : Modification) : Int × Int :=
  (n.offset, n.offset + (n.data.length : Int))

/-- Contents of `other.data` as seen through the slice header of `other` after
`append(other.data[:k], src...)`: the append reuses the backing array of
`other.data` whenever the result fits into it, and then overwrites the bytes
from index `k` on.  If the result does not fit, a new array is allocated and
`other.data` keeps its bytes. -/
def appendInto (od : List Byte) (k : Nat) (src : List Byte) : List Byte :=
  if k + src.length ≤ od.length then
    od.take k ++ src ++ od.drop (k + src.length)
  else od

/-- Go: `func (n *Modification) Merge(i Interval)`.  Returns the receiver after
the call; `other` is dead afterwards (its data is set to nil). -/
def Modification.Merge (n other : Modification) : Modification :=
  let oMin := other.Range.1
  let oMax := other.Range.2
  let nMin := n.Range.1
  let nMax := n.Range.2
  if nMin > oMax ∨ oMin > nMax then n
  else
    -- Prepend non-overlapping data from `other`:
    let k := (nMin - oMin).toNat
    let n1 : Modification :=
      if nMin > oMin then ⟨other.offset, other.data.take k ++ n.data⟩ else n
    let od : List Byte :=
      if nMin > oMin then appendInto other.data k n.data else other.data
    -- Append non-overlapping data from `other`:
    if nMax < oMax then
      ⟨n1.offset, n1.data ++ od.drop (oMax - nMax - 1).toNat⟩
    else n1

/-- Go: `type IntervalIndex struct { r []Interval; Max int64 }`.  The slice `r`
is nil exactly when it is empty: `Add` never produces an empty non-nil slice. -/
structure IntervalIndex where
  r : List Modification
  Max : Int
deriving DecidableEq, Repr

/-- Go: `cut(a, i, j)` deletes `a[i:j]`, for `i ≤ j ≤ len(a)`, the only way
`Add` calls it (`idxHi_le_idxLo`). -/
def cut (a : List Modification) (i j : Nat) : List Modification :=
  a.take i ++ a.drop j

/-- Go: `insert(a, i, x)` squeezes `x` in at index `i`. -/
def insert (a : List Modification) (i : Nat) (x : Modification) : List Modification :=
  a.take i ++ x :: a.drop i

/-- Loop of Go's `sort.Search`: `for i < j { h := (i+j)/2; if !f(h) { i = h+1 }
else { j = h } }; return i`.  The first argument bounds the number of
iterations. -/
def searchLoop (f : Nat → Bool) : Nat → Nat → Nat → Nat
  | 0, i, _ => i
  | fuel + 1, i, j =>
    if i < j then
      let h := (i + j) / 2
      if !f h then searchLoop f fuel (h + 1) j else searchLoop f fuel i h
    else i

/-- Go: `sort.Search(n, f)`.  Every iteration shrinks `j - i`, so `n`
iterations always suffice (`searchLoop_fuel`). -/
def Search (n : Nat) (f : Nat → Bool) : Nat :=
  searchLoop f n 0 n

/-- Element `ivl.r[i]`; the default is never used, every index handed out by
`Search` is below the length. -/
def elemAt (r : List Modification) (i : Nat) : Modification :=
  r.getD i ⟨0, []⟩

/-- Go: `func (ivl *IntervalIndex) Add(n Interval)`.  The guard `Max < Min`
cannot fire for a `Modification` (`Range_le`). -/
def IntervalIndex.Add (ivl : IntervalIndex) (n : Modification) : IntervalIndex :=
  let Min := n.Range.1
  let Max := n.Range.2
  -- Initial case: Add as single element.
  if ivl.r = [] then ⟨[n], Max⟩
  else
    -- Find the lowest fitting interval:
    let minIdx := Search ivl.r.length (fun i => decide (Min ≤ (elemAt ivl.r i).Range.2))
    -- Find the highest fitting interval:
    let maxIdx := Search ivl.r.length (fun i => decide (Max ≤ (elemAt ivl.r i).Range.1))
    -- Remember biggest offset:
    let newMax := if Max > ivl.Max then Max else ivl.Max
    -- New interval is bigger than all others:
    if minIdx ≥ ivl.r.length then ⟨ivl.r ++ [n], newMax⟩
    -- New range fits nicely in; just insert it in between:
    else if minIdx = maxIdx then ⟨insert ivl.r minIdx n, newMax⟩
    else
      -- Something in between. Merge to continuous interval:
      let merged := ((ivl.r.take maxIdx).drop minIdx).foldl Modification.Merge n
      -- Delete old unmerged intervals and substitute with merged:
      ⟨cut (ivl.r.set minIdx merged) (minIdx + 1) maxIdx, newMax⟩

/-- Go: `func (ivl *IntervalIndex) Overlays(start, end int64) []Interval`.
`ivl.r[lo:hi]` panics when `lo > hi`. -/
def IntervalIndex.Overlays (ivl : IntervalIndex) (start stop : Int) :
    Option (List Modification) :=
  let lo := Search ivl.r.length (fun i => decide (start ≤ (elemAt ivl.r i).Range.2))
  let hi := Search ivl.r.length (fun i => decide (stop ≤ (elemAt ivl.r i).Range.1))
  if lo ≤ hi then some ((ivl.r.take hi).drop lo) else none

/-- Go: `func min(a, b int64) int64`. -/
def min (a b : Int) : Int := if a < b then a else b

/-- Go: `func max(a, b int64) int64`. -/
def max (a b : Int) : Int := if a < b then b else a

/-- The fresh index `&IntervalIndex{}`. -/
def IntervalIndex.empty : IntervalIndex := ⟨[], 0⟩

/-- Adds the intervals of `ms` to `ivl`, first to last. -/
def IntervalIndex.AddAll (ivl : IntervalIndex) (ms : List Modification) : IntervalIndex :=
  ms.foldl IntervalIndex.Add ivl

/-! ## The overlay layer -/

/-- Errors the layer and its base stream hand out. -/
inductive IOError where
  | EOF
  | SeekEndUnsupported
  | InvalidWhence
  | NegativePosition
deriving DecidableEq, Repr

/-- Go: `os.SEEK_SET`. -/
def SEEK_SET : Int := 0

/-- Go: `os.SEEK_CUR`. -/
def SEEK_CUR : Int := 1

/-- Go: `os.SEEK_END`. -/
def SEEK_END : Int := 2

/-- The base stream `r io.ReadSeeker` of a layer: an in-memory reader over the
bytes `s` with read index `i`, behaving like Go's `bytes.Reader`. -/
structure Reader where
  s : List Byte
  i : Nat
deriving DecidableEq, Repr

/-- Go: `bytes.Reader.Read`: EOF once the index is at the end, otherwise
`copy(b, r.s[r.i:])`.  Returns the reader, the buffer, `n` and the error. -/
def Reader.Read (r : Reader) (b : List Byte) : Reader × List Byte × Int × Option IOError :=
  if r.i ≥ r.s.length then (r, b, 0, some IOError.EOF)
  else
    let src := r.s.drop r.i
    let n := Nat.min b.length src.length
    (⟨r.s, r.i + n⟩, src.take n ++ b.drop n, (n : Int), none)

/-- Go: `bytes.Reader.Seek`. -/
def Reader.Seek (r : Reader) (offset whence : Int) : Reader × Int × Option IOError :=
  if whence = SEEK_SET ∨ whence = SEEK_CUR ∨ whence = SEEK_END then
    let abs : Int :=
      if whence = SEEK_SET then offset
      else if whence = SEEK_CUR then (r.i : Int) + offset
      else (r.s.length : Int) + offset
    if abs < 0 then (r, 0, some IOError.NegativePosition)
    else (⟨r.s, abs.toNat⟩, abs, none)
  else (r, 0, some IOError.InvalidWhence)

/-- Go: `type Layer struct { index *IntervalIndex; r io.ReadSeeker; pos, limit int64 }`. -/
structure Layer where
  index : IntervalIndex
  r : Reader
  pos : Int
  limit : Int
deriving DecidableEq, Repr

/-- Go: `func NewLayer(r io.ReadSeeker) *Layer`. -/
def NewLayer (r : Reader) : Layer :=
  { index := IntervalIndex.empty, r := r, pos := 0, limit := -1 }

/-- Go: `func (l *Layer) Write(buf []byte) (int, error)`, on the bytes of `buf`:
the layer keeps the slice `buf` itself, so this is the call for a buffer whose
backing array nothing else refers to (`heap.Layer.Write` is the call for any
slice). -/
def Layer.Write (l : Layer) (buf : List Byte) : Layer × Int × Option IOError :=
  let index := l.index.Add ⟨l.pos, buf⟩
  let pos := l.pos + (buf.length : Int)
  let limit := if l.limit ≥ 0 ∧ pos > l.limit then pos else l.limit
  ({ index := index, r := l.r, pos := pos, limit := limit }, (buf.length : Int), none)

/-- One iteration of the loop over the overlaying chunks in `Layer.Read`: copies
the part of `mod` that lies in `[pos, pos+len(buf))` into `buf` and raises `n`.
`buf[bufLo:bufLo+overlap]` panics when `overlap` is negative; the other bounds
hold by construction of `a` and `b`. -/
def overlayChunk (pos : Int) (st : List Byte × Int) (mod : Modification) :
    Option (List Byte × Int) :=
  let buf := st.1
  let n := st.2
  let lo := mod.Range.1
  let hi := mod.Range.2
  let a := max lo pos
  let b := min hi (pos + (buf.length : Int))
  let overlap := b - a
  let chunkLo := a - lo
  let bufLo := a - pos
  if overlap < 0 then none
  else
    let src := (mod.data.drop chunkLo.toNat).take overlap.toNat
    let buf1 := buf.take bufLo.toNat ++ src ++ buf.drop (bufLo + overlap).toNat
    some (buf1, if bufLo + overlap > n then bufLo + overlap else n)

/-- The loop `for _, chunk := range l.index.Overlays(...)` of `Layer.Read`. -/
def overlayChunks (pos : Int) : List Modification → List Byte × Int → Option (List Byte × Int)
  | [], st => some st
  | mod :: rest, st =>
    match overlayChunk pos st mod with
    | none => none
    | some st1 => overlayChunks pos rest st1

/-- What a call of `Layer.Read` leaves behind: the layer, the caller's buffer,
and the two return values. -/
structure ReadResult where
  layer : Layer
  buf : List Byte
  n : Int
  err : Option IOError
deriving DecidableEq, Repr

/-- Go: `func (l *Layer) Read(buf []byte) (int, error)`; `none` is a panic. -/
def Layer.Read (l : Layer) (buf : List Byte) : Option ReadResult :=
  -- Check for the truncation limit:
  if l.limit ≥ 0 ∧ l.limit - l.pos ≤ 0 then some ⟨l, buf, 0, some IOError.EOF⟩
  else
    -- Truncate buf, so we don't read too much:
    let m : Nat :=
      if l.limit ≥ 0 ∧ l.limit - l.pos < (buf.length : Int) then (l.limit - l.pos).toNat
      else buf.length
    let base := l.r.Read (buf.take m)
    let r1 := base.1
    let b1 := base.2.1
    let n := base.2.2.1
    let err := base.2.2.2
    let extending : Bool := decide (err = some IOError.EOF ∧ l.pos < l.index.Max)
    -- Empty `buf` so caller gets defined results ('@' is byte 64):
    let b2 := if extending then b1.take n.toNat ++ List.replicate (b1.length - n.toNat) 64 else b1
    let err2 := if extending then none else err
    match err2 with
    | some e => some ⟨{ l with r := r1 }, b2 ++ buf.drop m, 0, some e⟩
    | none =>
      match l.index.Overlays l.pos (l.pos + (m : Int)) with
      | none => none
      | some chunks =>
        match overlayChunks l.pos chunks (b2, n) with
        | none => none
        | some out =>
          some ⟨{ l with r := r1, pos := l.pos + out.2 }, out.1 ++ buf.drop m, out.2, none⟩

/-- Go: `func (l *Layer) Seek(offset int64, whence int) (int64, error)`. -/
def Layer.Seek (l : Layer) (offset whence : Int) : Layer × Int × Option IOError :=
  if whence = SEEK_END then (l, 0, some IOError.SeekEndUnsupported)
  else
    let newPos :=
      if whence = SEEK_CUR then l.pos + offset
      else if whence = SEEK_SET then offset
      else l.pos
    -- Check if we hit the truncate limit:
    let limit := if l.limit ≥ 0 ∧ l.limit < newPos then newPos else l.limit
    let base := l.r.Seek offset whence
    ({ index := l.index, r := base.1, pos := newPos, limit := limit }, base.2.1, base.2.2)

/-- Go: `func (l *Layer) Truncate(size int64)`. -/
def Layer.Truncate (l : Layer) (size : Int) : Layer :=
  { l with limit := size }

/-- Go: `func (l *Layer) Limit() int64`. -/
def Layer.Limit (l : Layer) : Int := l.limit

/-- Go: `func (l *Layer) MinSize() int64`. -/
def Layer.MinSize (l : Layer) : Int :=
  if l.limit < 0 ∨ l.index.Max < l.limit then l.index.Max else l.limit

/-- Reads until an error shows up, with buffers of `m` bytes; gives the bytes
delivered and the error that ended the loop (`none` if the iteration bound was
reached first). -/
def Layer.readAll (m : Nat) : Nat → Layer → Option (List Byte × Option IOError)
  | 0, _ => some ([], none)
  | fuel + 1, l =>
    match l.Read (List.replicate m 0) with
    | none => none
    | some res =>
      match res.err with
      | some e => some ([], some e)
      | none =>
        match Layer.readAll m fuel res.layer with
        | none => none
        | some rest => some (res.buf.take res.n.toNat ++ rest.1, rest.2)

/-- An operation on a layer or on a plain buffer. -/
inductive Op where
  | Write (w : List Byte)
  | Seek (offset whence : Int)
  | Truncate (size : Int)
deriving DecidableEq, Repr

/-- Runs one operation on the layer, dropping the return values. -/
def Layer.step (l : Layer) : Op → Layer
  | Op.Write w => (l.Write w).1
  | Op.Seek offset whence => (l.Seek offset whence).1
  | Op.Truncate size => l.Truncate size

/-- Runs the operations on the layer, first to last. -/
def Layer.run (l : Layer) (ops : List Op) : Layer :=
  ops.foldl Layer.step l

/-- Reads the layer from offset 0 up to `MinSize()`: `Seek(0, SEEK_SET)` and one
`Read` into a buffer of `MinSize()` bytes; gives the bytes delivered. -/
def Layer.readBack (l : Layer) : Option (List Byte) :=
  let l1 := (l.Seek 0 SEEK_SET).1
  match l1.Read (List.replicate l.MinSize.toNat 0) with
  | none => none
  | some res => some (res.buf.take res.n.toNat)

/-! ## Vocabulary of the statements -/

/-- The byte an interval holds for the absolute offset `b`, if `b` lies in its
range. -/
def Modification.byteAt (m : Modification) (b : Int) : Option Byte :=
  if m.Range.1 ≤ b ∧ b < m.Range.2 then m.data[(b - m.offset).toNat]? else none

/-- The byte the index stores for offset `b`: that of the first stored interval
whose range contains `b`. -/
def IntervalIndex.byteAt (ivl : IntervalIndex) (b : Int) : Option Byte :=
  ivl.r.findSome? (fun m => m.byteAt b)

/-- Last write wins: the byte at `b` of the most recently added interval (the
last in `ms`) whose range contains `b`. -/
def lastWrite (ms : List Modification) (b : Int) : Option Byte :=
  ms.reverse.findSome? (fun m => m.byteAt b)

/-- The interval `i` ends no later than `j` begins. -/
def Before (i j : Modification) : Prop := i.Range.2 ≤ j.Range.1

instance (i j : Modification) : Decidable (Before i j) := by
  unfold Before; infer_instance

instance : IsTrans Modification Before :=
  ⟨by
    intro a b c h1 h2
    unfold Before at *
    simp only [Modification.Range] at *
    omega⟩

/-- The index the lower search of `Add` and `Overlays` comes up with: on a
sorted list, the first interval that ends at or after `x`. -/
def idxHi (r : List Modification) (x : Int) : Nat :=
  Search r.length (fun i => decide (x ≤ (elemAt r i).Range.2))

/-- The index the upper search of `Add` and `Overlays` comes up with: on a
sorted list, the first interval that begins at or after `x`. -/
def idxLo (r : List Modification) (x : Int) : Nat :=
  Search r.length (fun i => decide (x ≤ (elemAt r i).Range.1))

/-- The relation `rel` holds between every two adjacent elements of the list. -/
def adjacent (rel : Modification → Modification → Bool) : List Modification → Bool
  | i :: j :: rest => rel i j && adjacent rel (j :: rest)
  | _ => true

/-- Sorted and disjoint: every stored interval ends no later than its successor
begins. -/
def IntervalIndex.Disjoint (ivl : IntervalIndex) : Prop :=
  adjacent (fun i j => decide (Before i j)) ivl.r = true

instance (ivl : IntervalIndex) : Decidable ivl.Disjoint := by
  unfold IntervalIndex.Disjoint; infer_instance

/-- The write-wins merge rule in the words of the specification: the result
covers `[min(N.lo, O.lo), max(N.hi, O.hi))`; it holds the bytes of `O` for the
offsets before `N.lo`, then the payload of `N`, then the bytes of `O` for the
offsets from `N.hi` up to `O.hi`. -/
def mergeSpec (N O : Modification) : Modification :=
  ⟨Min.min N.Range.1 O.Range.1,
    O.data.take (N.Range.1 - O.Range.1).toNat ++ N.data
      ++ O.data.drop (N.Range.2 - O.Range.1).toNat⟩

/-- The length of `buf` in `Layer.Read` after the truncation check. -/
def Layer.window (l : Layer) (buf : List Byte) : Nat :=
  if l.limit ≥ 0 ∧ l.limit - l.pos < (buf.length : Int) then (l.limit - l.pos).toNat
  else buf.length

/-- Whether `Layer.Read` forgets about the EOF of the base stream. -/
def Layer.extending (l : Layer) (buf : List Byte) : Bool :=
  decide ((l.r.Read (buf.take (l.window buf))).2.2.2 = some IOError.EOF ∧ l.pos < l.index.Max)

/-- The window of the buffer in `Layer.Read` after the read from the base stream
and the fill with `'@'`, before the overlay pass. -/
def Layer.baseFill (l : Layer) (buf : List Byte) : List Byte :=
  let base := l.r.Read (buf.take (l.window buf))
  if l.extending buf then
    base.2.1.take base.2.2.1.toNat ++ List.replicate (base.2.1.length - base.2.2.1.toNat) 64
  else base.2.1

/-- A plain in-memory buffer with a position: the reference the overlay is
compared with. -/
structure PlainBuffer where
  data : List Byte
  pos : Int
deriving DecidableEq, Repr

/-- Writing to the plain buffer overwrites from `pos` on and extends the buffer
where needed; a gap between the end of the buffer and `pos` is filled with
zero bytes. -/
def PlainBuffer.Write (v : PlainBuffer) (w : List Byte) : PlainBuffer :=
  let padded := v.data ++ List.replicate (v.pos.toNat - v.data.length) 0
  ⟨padded.take v.pos.toNat ++ w ++ padded.drop (v.pos.toNat + w.length),
    v.pos + (w.length : Int)⟩

/-- Seeking in the plain buffer; a seek to a negative position fails and leaves
the position alone. -/
def PlainBuffer.Seek (v : PlainBuffer) (offset whence : Int) : PlainBuffer :=
  let newPos :=
    if whence = SEEK_SET then offset
    else if whence = SEEK_CUR then v.pos + offset
    else if whence = SEEK_END then (v.data.length : Int) + offset
    else v.pos
  if newPos < 0 then v else ⟨v.data, newPos⟩

/-- Truncating the plain buffer to `size` bytes (a negative size does
nothing; a size beyond the end extends with zero bytes). -/
def PlainBuffer.Truncate (v : PlainBuffer) (size : Int) : PlainBuffer :=
  if size < 0 then v
  else ⟨(v.data ++ List.replicate (size.toNat - v.data.length) 0).take size.toNat, v.pos⟩

/-- Runs one operation on the plain buffer. -/
def PlainBuffer.step (v : PlainBuffer) : Op → PlainBuffer
  | Op.Write w => v.Write w
  | Op.Seek offset whence => v.Seek offset whence
  | Op.Truncate size => v.Truncate size

/-- Runs the operations on the plain buffer, first to last. -/
def PlainBuffer.run (v : PlainBuffer) (ops : List Op) : PlainBuffer :=
  ops.foldl PlainBuffer.step v

/-- The overlay round trip for base `B` and operations `ops`: reading the layer
from offset 0 up to `MinSize()` yields the bytes the plain buffer holds there
after the same operations. -/
def RoundTrip (B : List Byte) (ops : List Op) : Prop :=
  ((NewLayer ⟨B, 0⟩).run ops).readBack
    = some (((PlainBuffer.mk B 0).run ops).data.take ((NewLayer ⟨B, 0⟩).run ops).MinSize.toNat)

instance (B : List Byte) (ops : List Op) : Decidable (RoundTrip B ops) := by
  unfold RoundTrip; infer_instance

/-- The offset `x` lies strictly inside a stored interval. -/
def IntervalIndex.endsInside (ivl : IntervalIndex) (x : Int) : Bool :=
  ivl.r.any (fun c => decide (c.Range.1 < x ∧ x < c.Range.2))

/-- The operations the round trip is proved for, checked along the run: `Seek`
with `SEEK_SET` or `SEEK_CUR` to a position that is not negative and, while the
layer is truncated, not beyond the limit; `Truncate` to a size between 0 and the
length of the plain buffer, or to a negative size while the layer is not
truncated; every `Write` begins within or right at the end of the plain buffer
(no gap) and does not end strictly inside an interval the index holds at that
moment. -/
def admissible : Layer → PlainBuffer → List Op → Bool
  | _, _, [] => true
  | l, v, Op.Write w :: rest =>
    decide (v.pos ≤ (v.data.length : Int))
      && !(l.index.endsInside (l.pos + (w.length : Int)))
      && admissible (l.step (Op.Write w)) (v.step (Op.Write w)) rest
  | l, v, Op.Seek offset whence :: rest =>
    decide (whence = SEEK_SET ∨ whence = SEEK_CUR)
      && decide (0 ≤ (if whence = SEEK_SET then offset else v.pos + offset))
      && decide (l.limit < 0 ∨ (if whence = SEEK_SET then offset else v.pos + offset) ≤ l.limit)
      && admissible (l.step (Op.Seek offset whence)) (v.step (Op.Seek offset whence)) rest
  | l, v, Op.Truncate size :: rest =>
    decide ((0 ≤ size ∧ size ≤ (v.data.length : Int)) ∨ (size < 0 ∧ l.limit < 0))
      && admissible (l.step (Op.Truncate size)) (v.step (Op.Truncate size)) rest

/-- The relation between the layer and the plain buffer that the admissible
operations keep up: same position; the limit switched off or equal to the
length of the plain buffer; the index sorted and disjoint; without limit, the
plain buffer as long as the larger of the base and `Max`; every byte of the
plain buffer the byte the index stores for its offset, or else the byte of the
base. -/
structure Simulates (B : List Byte) (l : Layer) (v : PlainBuffer) : Prop where
  disjoint : l.index.Disjoint
  limit : l.limit < 0 ∨ l.limit = (v.data.length : Int)
  pos : l.pos = v.pos
  pos_nonneg : 0 ≤ v.pos
  base : l.r.s = B
  max_nonneg : 0 ≤ l.index.Max
  max_fresh : l.index.r = [] → l.index.Max = 0
  length : l.limit < 0 → (v.data.length : Int) = Max.max (B.length : Int) l.index.Max
  bytes : ∀ j, j < v.data.length → v.data[j]? = (l.index.byteAt (j : Int)).or B[j]?

/-- The stored interval `m` shares at least one offset with `[start, stop)`. -/
def Modification.Meets (m : Modification) (start stop : Int) : Prop :=
  ∃ b : Int, start ≤ b ∧ b < stop ∧ m.Range.1 ≤ b ∧ b < m.Range.2

/-- A call of `Seek`, `Write` or `Read` on a layer, with its arguments. -/
inductive Call where
  | Seek (offset whence : Int)
  | Write (buf : List Byte)
  | Read (buf : List Byte)
deriving DecidableEq, Repr

/-- The layer after a call, dropping the return values (`none` if `Read`
panics). -/
def Layer.call (l : Layer) : Call → Option Layer
  | Call.Seek offset whence => some (l.Seek offset whence).1
  | Call.Write buf => some (l.Write buf).1
  | Call.Read buf => (l.Read buf).map ReadResult.layer

/-- The layer after a sequence of calls, first to last. -/
def Layer.calls : Layer → List Call → Option Layer
  | l, [] => some l
  | l, c :: rest =>
    match l.call c with
    | none => none
    | some l1 => l1.calls rest

/-- The calls are calls of `Seek` and `Read` only, and no `Seek` leaves the layer
at a negative position. -/
def Layer.seeksAndReads : Layer → List Call → Bool
  | _, [] => true
  | _, Call.Write _ :: _ => false
  | l, Call.Seek offset whence :: rest =>
    decide (0 ≤ (l.Seek offset whence).1.pos) && (l.Seek offset whence).1.seeksAndReads rest
  | l, Call.Read buf :: rest =>
    match l.Read buf with
    | none => false
    | some res => res.layer.seeksAndReads rest

/-! ## Slices and their backing arrays

The definitions above take a `[]byte` for the list of its bytes.  That is what
the code does as long as no backing array is shared: `Layer.Write` keeps the
slice of the caller and `Merge` appends in place where the capacity allows it,
so a buffer that is written through afterwards (by a later `Read` into it, or by
an append into the spare capacity of a neighbouring slice) changes what the
index holds.  The definitions of `store.heap` follow the same code with slices
as slice headers over explicit backing arrays.  The base stream keeps its bytes
to itself, as `bytes.Reader` does; an array that `append` allocates is filled
with zero bytes beyond the length, and how much capacity it gets beyond the
length is left to a parameter (`grow`).
-/

namespace heap

/-- A Go slice of bytes `[]byte`: the backing array it points into, the offset
of its first element in that array, its length and its capacity. -/
structure Slice where
  arr : Nat
  off : Nat
  len : Nat
  cap : Nat
deriving DecidableEq, Repr

/-- The backing arrays allocated so far, by number. -/
abbrev Mem := List (List Byte)

/-- The backing array number `a`. -/
def Mem.array (m : Mem) (a : Nat) : List Byte := m.getD a []

/-- The bytes a slice shows. -/
def Mem.bytes (m : Mem) (s : Slice) : List Byte := ((m.array s.arr).drop s.off).take s.len

/-- Overwrites the backing array `a` from index `i` on with `src`; this is what
`copy` and an `append` within the capacity do to memory. -/
def Mem.store (m : Mem) (a i : Nat) (src : List Byte) : Mem :=
  m.set a ((m.array a).take i ++ src ++ (m.array a).drop (i + src.length))

/-- Go: the slice expression `s[lo:hi]`, for `lo ≤ hi ≤ cap(s)`. -/
def Slice.sub (s : Slice) (lo hi : Nat) : Slice :=
  ⟨s.arr, s.off + lo, hi - lo, s.cap - lo⟩

/-- Go: `append(s, t...)`.  If the result fits into the capacity of `s`, the
bytes of `t` are stored behind those of `s` in the backing array of `s`;
otherwise a new backing array is allocated, whose capacity beyond the length
needed is up to the runtime (`grow`, from the old capacity and the length
needed). -/
def append (grow : Nat → Nat → Nat) (m : Mem) (s t : Slice) : Mem × Slice :=
  if s.len + t.len ≤ s.cap then
    (m.store s.arr (s.off + s.len) (m.bytes t), { s with len := s.len + t.len })
  else
    let spare := grow s.cap (s.len + t.len)
    (m ++ [m.bytes s ++ m.bytes t ++ List.replicate spare 0],
      ⟨m.length, 0, s.len + t.len, s.len + t.len + spare⟩)

/-- Go: `type Modification struct { offset int64; data []byte }`. -/
structure Modification where
  offset : Int
  data : Slice
deriving DecidableEq, Repr

/-- Go: `func (n *Modification) Range() (int64, int64)`. -/
def Modification.Range (n : Modification) : Int × Int :=
  (n.offset, n.offset + (n.data.len : Int))

/-- Go: `func (n *Modification) Merge(i Interval)`.  Returns the memory and the
receiver after the call; `other` is dead afterwards (its data is set to nil).
Both slice expressions are within their bounds whenever they are reached. -/
def Modification.Merge (grow : Nat → Nat → Nat) (m : Mem) (n other : Modification) :
    Mem × Modification :=
  let oMin := other.Range.1
  let oMax := other.Range.2
  let nMin := n.Range.1
  let nMax := n.Range.2
  if nMin > oMax ∨ oMin > nMax then (m, n)
  else
    -- Prepend non-overlapping data from `other`:
    let st : Mem × Modification :=
      if nMin > oMin then
        let res := append grow m (other.data.sub 0 (nMin - oMin).toNat) n.data
        (res.1, ⟨other.offset, res.2⟩)
      else (m, n)
    -- Append non-overlapping data from `other`:
    if nMax < oMax then
      let res := append grow st.1 st.2.data
        (other.data.sub (oMax - nMax - 1).toNat other.data.len)
      (res.1, ⟨st.2.offset, res.2⟩)
    else st

/-- Go: `type IntervalIndex struct { r []Interval; Max int64 }`. -/
structure IntervalIndex where
  r : List Modification
  Max : Int
deriving DecidableEq, Repr

/-- Go: `cut(a, i, j)` deletes `a[i:j]`. -/
def cut (a : List Modification) (i j : Nat) : List Modification :=
  a.take i ++ a.drop j

/-- Go: `insert(a, i, x)` squeezes `x` in at index `i`. -/
def insert (a : List Modification) (i : Nat) (x : Modification) : List Modification :=
  a.take i ++ x :: a.drop i

/-- Element `ivl.r[i]`; the default is never used. -/
def elemAt (r : List Modification) (i : Nat) : Modification :=
  r.getD i ⟨0, ⟨0, 0, 0, 0⟩⟩

/-- The loop `for i := minIdx; i < maxIdx; i++ { n.Merge(ivl.r[i]) }` of `Add`
over the intervals `ivl.r[minIdx:maxIdx]`. -/
def mergeAll (grow : Nat → Nat → Nat) (m : Mem) (n : Modification) :
    List Modification → Mem × Modification
  | [] => (m, n)
  | other :: rest =>
    let res := n.Merge grow m other
    mergeAll grow res.1 res.2 rest

/-- Go: `func (ivl *IntervalIndex) Add(n Interval)`. -/
def IntervalIndex.Add (grow : Nat → Nat → Nat) (m : Mem) (ivl : IntervalIndex)
    (n : Modification) : Mem × IntervalIndex :=
  let Min := n.Range.1
  let Max := n.Range.2
  -- Initial case: Add as single element.
  if ivl.r = [] then (m, ⟨[n], Max⟩)
  else
    -- Find the lowest fitting interval:
    let minIdx := Search ivl.r.length (fun i => decide (Min ≤ (elemAt ivl.r i).Range.2))
    -- Find the highest fitting interval:
    let maxIdx := Search ivl.r.length (fun i => decide (Max ≤ (elemAt ivl.r i).Range.1))
    -- Remember biggest offset:
    let newMax := if Max > ivl.Max then Max else ivl.Max
    -- New interval is bigger than all others:
    if minIdx ≥ ivl.r.length then (m, ⟨ivl.r ++ [n], newMax⟩)
    -- New range fits nicely in; just insert it in between:
    else if minIdx = maxIdx then (m, ⟨insert ivl.r minIdx n, newMax⟩)
    else
      -- Something in between. Merge to continuous interval:
      let merged := mergeAll grow m n ((ivl.r.take maxIdx).drop minIdx)
      -- Delete old unmerged intervals and substitute with merged:
      (merged.1, ⟨cut (ivl.r.set minIdx merged.2) (minIdx + 1) maxIdx, newMax⟩)

/-- Go: `func (ivl *IntervalIndex) Overlays(start, end int64) []Interval`.
`ivl.r[lo:hi]` panics when `lo > hi`. -/
def IntervalIndex.Overlays (ivl : IntervalIndex) (start stop : Int) :
    Option (List Modification) :=
  let lo := Search ivl.r.length (fun i => decide (start ≤ (elemAt ivl.r i).Range.2))
  let hi := Search ivl.r.length (fun i => decide (stop ≤ (elemAt ivl.r i).Range.1))
  if lo ≤ hi then some ((ivl.r.take hi).drop lo) else none

/-- Go: `type Layer struct { index *IntervalIndex; r io.ReadSeeker; pos, limit int64 }`. -/
structure Layer where
  index : IntervalIndex
  r : Reader
  pos : Int
  limit : Int
deriving DecidableEq, Repr

/-- Go: `func NewLayer(r io.ReadSeeker) *Layer`. -/
def NewLayer (r : Reader) : Layer :=
  { index := ⟨[], 0⟩, r := r, pos := 0, limit := -1 }

/-- Go: `func (l *Layer) Write(buf []byte) (int, error)`: the index gets
`&Modification{l.pos, buf}`, the slice of the caller, not a copy of it. -/
def Layer.Write (grow : Nat → Nat → Nat) (m : Mem) (l : Layer) (buf : Slice) :
    Mem × Layer × Int × Option IOError :=
  let added := l.index.Add grow m ⟨l.pos, buf⟩
  let pos := l.pos + (buf.len : Int)
  let limit := if l.limit ≥ 0 ∧ pos > l.limit then pos else l.limit
  (added.1, { index := added.2, r := l.r, pos := pos, limit := limit }, (buf.len : Int), none)

/-- Go: `func (l *Layer) Seek(offset int64, whence int) (int64, error)`. -/
def Layer.Seek (l : Layer) (offset whence : Int) : Layer × Int × Option IOError :=
  if whence = SEEK_END then (l, 0, some IOError.SeekEndUnsupported)
  else
    let newPos :=
      if whence = SEEK_CUR then l.pos + offset
      else if whence = SEEK_SET then offset
      else l.pos
    -- Check if we hit the truncate limit:
    let limit := if l.limit ≥ 0 ∧ l.limit < newPos then newPos else l.limit
    let base := l.r.Seek offset whence
    ({ index := l.index, r := base.1, pos := newPos, limit := limit }, base.2.1, base.2.2)

/-- Go: `func (l *Layer) Truncate(size int64)`. -/
def Layer.Truncate (l : Layer) (size : Int) : Layer :=
  { l with limit := size }

/-- Go: `func (l *Layer) MinSize() int64`. -/
def Layer.MinSize (l : Layer) : Int :=
  if l.limit < 0 ∨ l.index.Max < l.limit then l.index.Max else l.limit

/-- One iteration of the loop over the overlaying chunks in `Layer.Read`:
`copy(buf[bufLo:bufLo+overlap], mod.data[chunkLo:chunkLo+overlap])` and the
raise of `n`.  The slice expressions panic when `overlap` is negative; the
other bounds hold by construction of `a` and `b`. -/
def overlayChunk (pos : Int) (buf : Slice) (st : Mem × Int) (mod : Modification) :
    Option (Mem × Int) :=
  let m := st.1
  let n := st.2
  let lo := mod.Range.1
  let hi := mod.Range.2
  let a := max lo pos
  let b := min hi (pos + (buf.len : Int))
  let overlap := b - a
  let chunkLo := a - lo
  let bufLo := a - pos
  if overlap < 0 then none
  else
    let src := m.bytes (mod.data.sub chunkLo.toNat (chunkLo + overlap).toNat)
    some (m.store buf.arr (buf.off + bufLo.toNat) src,
      if bufLo + overlap > n then bufLo + overlap else n)

/-- The loop `for _, chunk := range l.index.Overlays(...)` of `Layer.Read`. -/
def overlayChunks (pos : Int) (buf : Slice) : List Modification → Mem × Int → Option (Mem × Int)
  | [], st => some st
  | mod :: rest, st =>
    match overlayChunk pos buf st mod with
    | none => none
    | some st1 => overlayChunks pos buf rest st1

/-- What a call of `Layer.Read` leaves behind: the memory (with the buffer of the
caller in it), the layer, and the two return values. -/
structure ReadResult where
  mem : Mem
  layer : Layer
  n : Int
  err : Option IOError
deriving DecidableEq, Repr

/-- Go: `func (l *Layer) Read(buf []byte) (int, error)`; `none` is a panic.  The
base stream copies what it delivers to the front of `buf`. -/
def Layer.Read (m : Mem) (l : Layer) (buf : Slice) : Option ReadResult :=
  -- Check for the truncation limit:
  if l.limit ≥ 0 ∧ l.limit - l.pos ≤ 0 then some ⟨m, l, 0, some IOError.EOF⟩
  else
    -- Truncate buf, so we don't read too much:
    let buf1 : Slice :=
      if l.limit ≥ 0 ∧ l.limit - l.pos < (buf.len : Int) then buf.sub 0 (l.limit - l.pos).toNat
      else buf
    let base := l.r.Read (m.bytes buf1)
    let m1 := m.store buf1.arr buf1.off base.2.1
    let r1 := base.1
    let n := base.2.2.1
    let err := base.2.2.2
    let extending : Bool := decide (err = some IOError.EOF ∧ l.pos < l.index.Max)
    -- Empty `buf` so caller gets defined results ('@' is byte 64):
    let m2 :=
      if extending then
        m1.store buf1.arr (buf1.off + n.toNat) (List.replicate (buf1.len - n.toNat) 64)
      else m1
    let err2 := if extending then none else err
    match err2 with
    | some e => some ⟨m2, { l with r := r1 }, 0, some e⟩
    | none =>
      match l.index.Overlays l.pos (l.pos + (buf1.len : Int)) with
      | none => none
      | some chunks =>
        match overlayChunks l.pos buf1 chunks (m2, n) with
        | none => none
        | some out => some ⟨out.1, { l with r := r1, pos := l.pos + out.2 }, out.2, none⟩

/-- An operation on a layer, with the slice the caller hands to `Write`. -/
inductive Op where
  | Write (buf : Slice)
  | Seek (offset whence : Int)
  | Truncate (size : Int)
deriving DecidableEq, Repr

/-- Runs one operation on the layer, dropping the return values. -/
def Layer.step (grow : Nat → Nat → Nat) (st : Mem × Layer) : Op → Mem × Layer
  | Op.Write buf => ((st.2.Write grow st.1 buf).1, (st.2.Write grow st.1 buf).2.1)
  | Op.Seek offset whence => (st.1, (st.2.Seek offset whence).1)
  | Op.Truncate size => (st.1, st.2.Truncate size)

/-- Runs the operations on the layer, first to last. -/
def Layer.run (grow : Nat → Nat → Nat) (st : Mem × Layer) (ops : List Op) : Mem × Layer :=
  ops.foldl (Layer.step grow) st

/-- Reads the layer from offset 0 up to `MinSize()`: `buf := make([]byte,
l.MinSize())`, `Seek(0, SEEK_SET)` and one `Read(buf)`; gives `buf[:n]`. -/
def readBack (st : Mem × Layer) : Option (List Byte) :=
  let size := st.2.MinSize.toNat
  let buf : Slice := ⟨st.1.length, 0, size, size⟩
  let m := st.1 ++ [List.replicate size 0]
  let l1 := (st.2.Seek 0 SEEK_SET).1
  match l1.Read m buf with
  | none => none
  | some res => some ((res.mem.bytes buf).take res.n.toNat)

/-- Reads until an error shows up, every time into the same slice `buf`; gives
the bytes delivered and the error that ended the loop (`none` if the iteration
bound was reached first). -/
def Layer.readAll (buf : Slice) : Nat → Mem × Layer → Option (List Byte × Option IOError)
  | 0, _ => some ([], none)
  | fuel + 1, st =>
    match st.2.Read st.1 buf with
    | none => none
    | some res =>
      match res.err with
      | some e => some ([], some e)
      | none =>
        match Layer.readAll buf fuel (res.mem, res.layer) with
        | none => none
        | some rest => some ((res.mem.bytes buf).take res.n.toNat ++ rest.1, rest.2)

/-- The operation as the value-level model sees it: a write of the bytes the
slice shows. -/
def Op.value (m : Mem) : Op → store.Op
  | Op.Write buf => store.Op.Write (m.bytes buf)
  | Op.Seek offset whence => store.Op.Seek offset whence
  | Op.Truncate size => store.Op.Truncate size

/-- The slice lies within an allocated backing array. -/
def Slice.Valid (m : Mem) (s : Slice) : Prop :=
  s.arr < m.length ∧ s.off + s.cap ≤ (m.array s.arr).length ∧ s.len ≤ s.cap

instance (m : Mem) (s : Slice) : Decidable (s.Valid m) := by
  unfold Slice.Valid; infer_instance

/-- The slices handed to `Write`, in order. -/
def writeBuffers : List Op → List Slice
  | [] => []
  | Op.Write buf :: rest => buf :: writeBuffers rest
  | _ :: rest => writeBuffers rest

/-- Every buffer handed to `Write` lies within an allocated backing array, and
no two of them share a backing array. -/
def privateBuffers (m : Mem) (ops : List Op) : Bool :=
  (writeBuffers ops).all (fun buf => decide (buf.Valid m))
    && decide ((writeBuffers ops).map Slice.arr).Nodup

/-- The interval as the value-level model sees it: the bytes its slice shows. -/
def Modification.value (m : Mem) (x : Modification) : store.Modification :=
  ⟨x.offset, m.bytes x.data⟩

/-- The index as the value-level model sees it. -/
def IntervalIndex.value (m : Mem) (ivl : IntervalIndex) : store.IntervalIndex :=
  ⟨ivl.r.map (Modification.value m), ivl.Max⟩

/-- The layer as the value-level model sees it. -/
def Layer.value (m : Mem) (l : Layer) : store.Layer :=
  ⟨l.index.value m, l.r, l.pos, l.limit⟩

/-- The backing arrays of the intervals of a list. -/
def arrays (r : List Modification) : List Nat := r.map (fun x => x.data.arr)

/-- The state a run with private write buffers keeps up: the stored slices lie
within allocated backing arrays, no two of them in the same one, and the buffers
still to be written lie in further backing arrays, one each. -/
structure Private (m : Mem) (l : Layer) (rest : List Op) : Prop where
  stored : ∀ x ∈ l.index.r, x.data.Valid m
  nodup : (arrays l.index.r).Nodup
  bufs : ∀ b ∈ writeBuffers rest, b.Valid m
  bufs_nodup : ((writeBuffers rest).map Slice.arr).Nodup
  apart : ∀ b ∈ writeBuffers rest, b.arr ∉ arrays l.index.r

/-- The memory `m1` differs from `m` in the backing array of `s` only, and there
not from the end of the window on that `s` shows; no backing array has changed
its length. -/
structure SameOutside (m m1 : Mem) (s : Slice) : Prop where
  length : m1.length = m.length
  other : ∀ a, a ≠ s.arr → m1.array a = m.array a
  size : (m1.array s.arr).length = (m.array s.arr).length
  above : ∀ j, s.off + s.len ≤ j → (m1.array s.arr)[j]? = (m.array s.arr)[j]?

end heap

end store

/-!
brig: changes between commits (`catfs/vcs/change.go`).

Modelling conventions.

* `ChangeType` is `uint8`; masks are naturals, combined with the bitwise
  operators of `Nat`.  All flag constants and their combinations stay below 256.
* The node types, the commits and the linker live in other packages
  (`catfs/nodes`, `catfs/core`).  Nodes are modelled from the specification;
  `Replay` takes the linker as a parameter.
-/

namespace vcs

/-- Go: `type ChangeType uint8`. -/
abbrev ChangeType := Nat

/-- Go: `ChangeTypeNone = ChangeType(0)`. -/
def ChangeTypeNone : ChangeType := 0

/-- Go: `ChangeTypeAdd = ChangeType(1 << iota)`, second line of the constant
block, so `iota = 1`. -/
def ChangeTypeAdd : ChangeType := 1 <<< 1

/-- Go: `ChangeTypeModify` (`iota = 2`). -/
def ChangeTypeModify : ChangeType := 1 <<< 2

/-- Go: `ChangeTypeMove` (`iota = 3`). -/
def ChangeTypeMove : ChangeType := 1 <<< 3

/-- Go: `ChangeTypeRemove` (`iota = 4`). -/
def ChangeTypeRemove : ChangeType := 1 <<< 4

/-- Go: the operator `^x` on a `uint8`. -/
def complement (x : ChangeType) : ChangeType := 255 ^^^ x

/-- Go: `func (ct ChangeType) IsCompatible(ot ChangeType) bool`. -/
def ChangeType.IsCompatible (ct ot : ChangeType) : Bool :=
  let modifyMask := ChangeTypeAdd ||| ChangeTypeModify
  ct &&& modifyMask == 0 || ot &&& modifyMask == 0

/-- Modelled from the spec: the kinds of node a change can carry
(`n.NodeTypeFile`, `n.NodeTypeDirectory`, `n.NodeTypeGhost`). -/
inductive NodeType where
  | File
  | Directory
  | Ghost
deriving DecidableEq, Repr

/-- Modelled from the spec: the node variants of package `catfs/nodes` that
implement `n.ModNode`, which is not part of the sources.  A `File` has a
content hash and a size, a `Ghost` is a tombstone wrapping the previous variant
plus its old path. -/
inductive Node where
  | File (path : String) (hash : Nat) (size : Nat)
  | Directory (path : String)
  | Ghost (old : Node) (path : String)
deriving DecidableEq, Repr

/-- Go: `Path()` of a `n.ModNode`. -/
def Node.Path : Node → String
  | Node.File path _ _ => path
  | Node.Directory path => path
  | Node.Ghost _ path => path

/-- Go: `Type()` of a `n.ModNode`. -/
def Node.Type : Node → NodeType
  | Node.File _ _ _ => NodeType.File
  | Node.Directory _ => NodeType.Directory
  | Node.Ghost _ _ => NodeType.Ghost

/-- Modelled from the spec: a commit (`n.Commit`), of which a change only
carries a reference. -/
structure Commit where
  hash : Nat
deriving DecidableEq, Repr

/-- Go: `type Change struct`. -/
structure Change where
  Mask : ChangeType
  Head : Option Commit
  Next : Option Commit
  Curr : Node
  MovedTo : String
  WasPreviouslyAt : String
deriving DecidableEq, Repr

/-- The loop `for idx := len(changes) - 1; idx >= 0; idx-- { if refPath :=
field(changes[idx]); refPath != "" { result = refPath; break } }` of
`CombineChanges`; the second argument is `idx + 1`.  The result stays `""` when
the loop never breaks. -/
def scanBack (field : Change → String) (changes : List Change) : Nat → String
  | 0 => ""
  | idx + 1 =>
    match changes[idx]? with
    | some change => if field change ≠ "" then field change else scanBack field changes idx
    | none => scanBack field changes idx

/-- Go: `func CombineChanges(changes []*Change) *Change`; `none` is `nil`. -/
def CombineChanges (changes : List Change) : Option Change :=
  match changes with
  | [] => none
  | first :: rest =>
    let last := (first :: rest).getLast (List.cons_ne_nil first rest)
    -- If the node moved, save the original path in MovedTo:
    let pathChanged : Bool := first.Curr.Path != last.Curr.Path
    let isGhost : Bool := first.Curr.Type == NodeType.Ghost
    -- Combine the mask:
    let mask := (first :: rest).foldl (fun m change => m ||| change.Mask) 0
    let moved : Bool := mask &&& ChangeTypeMove != 0
    let movedTo := if moved then scanBack Change.MovedTo (first :: rest) (first :: rest).length else ""
    let wasAt :=
      if moved then scanBack Change.WasPreviouslyAt (first :: rest) (first :: rest).length else ""
    let mask1 := if !pathChanged && !isGhost then mask &&& complement ChangeTypeMove else mask
    let mask2 :=
      if first.Mask &&& ChangeTypeRemove == 0 && !isGhost then mask1 &&& complement ChangeTypeRemove
      else mask1
    some { Mask := mask2, Head := first.Head, Next := first.Next, Curr := first.Curr,
           MovedTo := movedTo, WasPreviouslyAt := wasAt }

/-! ## Replay -/

/-- Errors of `Replay`: `ie.ErrBadNode`, the error for which
`ie.IsNoSuchFileError` holds, or another error handed up by the linker
(wrapping with a message is not modelled). -/
inductive Err where
  | BadNode
  | NoSuchFile
  | Linker (code : Nat)
deriving DecidableEq, Repr

/-- What `lkr.LookupModNode(path)` returns: a node and no error, `nil` and a
no-such-file error, or `nil` and another error. -/
inductive Lookup where
  | found (nd : Node)
  | noSuchFile
  | failed (err : Err)
deriving DecidableEq, Repr

/-- The functions of `catfs/core` that `Replay` calls, over a graph type `G`.
They are not part of the sources and are taken as parameters. -/
structure Linker (G : Type) where
  LookupModNode : G → String → Lookup
  Remove : G → Node → Bool → Bool → Except Err G
  StageFromFileNode : G → Node → Except Err G
  Mkdir : G → String → Bool → Except Err G
  Move : G → Node → String → Except Err G

/-- Outcome of `Replay`: the graph after the atomic scope, an error (the scope
is rolled back), or a panic (method call on a `nil` node). -/
inductive Result (G : Type) where
  | ok (g : G)
  | err (e : Err)
  | panic

/-- First block of `Replay`: `if ch.Mask&(ChangeTypeModify|ChangeTypeAdd) != 0`. -/
def replayContent {G : Type} (lkr : Linker G) (ch : Change) (g : G) : Result G :=
  if ch.Mask &&& (ChangeTypeModify ||| ChangeTypeAdd) != 0 then
    -- If it's a ghost, unpack it first:
    let currNd := match ch.Curr with
      | Node.Ghost old _ => old
      | nd => nd
    -- Check the type of the old node:
    match lkr.LookupModNode g currNd.Path with
    | Lookup.failed e => Result.err e
    | looked =>
      -- If the types are conflicting we have to remove the existing node.
      let removed : Except Err G := match looked with
        | Lookup.found oldNd =>
          if oldNd.Type ≠ currNd.Type then lkr.Remove g oldNd false true else Except.ok g
        | _ => Except.ok g
      match removed with
      | Except.error e => Result.err e
      | Except.ok g1 =>
        match currNd with
        | Node.File _ _ _ =>
          match lkr.StageFromFileNode g1 currNd with
          | Except.error e => Result.err e
          | Except.ok g2 => Result.ok g2
        | Node.Directory path =>
          match lkr.Mkdir g1 path true with
          | Except.error e => Result.err e
          | Except.ok g2 => Result.ok g2
        | Node.Ghost _ _ => Result.err Err.BadNode
  else Result.ok g

/-- The lookup-and-remove at a path that `Replay` does three times:
`oldNd, err := lkr.LookupModNode(path)`, return on an error other than
no-such-file, then `if oldNd.Type() != n.NodeTypeGhost { c.Remove(lkr, oldNd,
true, true) }`.  With `onMissing = none` a missing node leaves `oldNd` nil and
the call of `Type()` panics; the last block of `Replay` returns the
no-such-file error instead (`onMissing = some Err.NoSuchFile`). -/
def removeLive {G : Type} (lkr : Linker G) (path : String) (onMissing : Option Err) (g : G) :
    Result G :=
  match lkr.LookupModNode g path with
  | Lookup.failed e => Result.err e
  | Lookup.noSuchFile =>
    match onMissing with
    | some e => Result.err e
    | none => Result.panic
  | Lookup.found oldNd =>
    if oldNd.Type ≠ NodeType.Ghost then
      match lkr.Remove g oldNd true true with
      | Except.error e => Result.err e
      | Except.ok g1 => Result.ok g1
    else Result.ok g

/-- Second block of `Replay`: `if ch.Mask&ChangeTypeMove != 0`. -/
def replayMove {G : Type} (lkr : Linker G) (ch : Change) (g : G) : Result G :=
  if ch.Mask &&& ChangeTypeMove != 0 then
    let afterOld : Result G :=
      if ch.WasPreviouslyAt ≠ "" then removeLive lkr ch.WasPreviouslyAt none g else Result.ok g
    match afterOld with
    | Result.ok g1 =>
      if ch.MovedTo ≠ "" then
        match lkr.LookupModNode g1 ch.Curr.Path with
        | Lookup.failed e => Result.err e
        | Lookup.noSuchFile => Result.ok g1
        | Lookup.found oldNd =>
          match lkr.Move g1 oldNd ch.MovedTo with
          | Except.error e => Result.err e
          | Except.ok g2 => Result.ok g2
      else Result.ok g1
    | other => other
  else Result.ok g

/-- Third block of `Replay`: `if ch.Mask&ChangeTypeMove != 0 && ch.Curr.Type()
!= n.NodeTypeGhost`. -/
def replayMoveLive {G : Type} (lkr : Linker G) (ch : Change) (g : G) : Result G :=
  if ch.Mask &&& ChangeTypeMove != 0 && ch.Curr.Type != NodeType.Ghost then
    removeLive lkr ch.WasPreviouslyAt none g
  else Result.ok g

/-- Fourth block of `Replay`: `if ch.Mask&ChangeTypeRemove != 0 &&
ch.Curr.Type() == n.NodeTypeGhost`; here every lookup error is returned. -/
def replayRemove {G : Type} (lkr : Linker G) (ch : Change) (g : G) : Result G :=
  if ch.Mask &&& ChangeTypeRemove != 0 && ch.Curr.Type == NodeType.Ghost then
    removeLive lkr ch.Curr.Path (some Err.NoSuchFile) g
  else Result.ok g

/-- Runs `next` on the graph of a successful step. -/
def Result.andThen {G : Type} (r : Result G) (next : G → Result G) : Result G :=
  match r with
  | Result.ok g => next g
  | Result.err e => Result.err e
  | Result.panic => Result.panic

/-- Go: `func (ch *Change) Replay(lkr *c.Linker) error`, the four blocks in
order inside `lkr.Atomic`. -/
def Change.Replay {G : Type} (lkr : Linker G) (ch : Change) (g : G) : Result G :=
  (((replayContent lkr ch g).andThen (replayMove lkr ch)).andThen
    (replayMoveLive lkr ch)).andThen (replayRemove lkr ch)

/-- Replays the changes of a newest-first list one after the other, oldest
first, stopping at the first one that does not succeed. -/
def ReplayAll {G : Type} (lkr : Linker G) (changes : List Change) (g : G) : Result G :=
  changes.reverse.foldl (fun r ch => r.andThen (Change.Replay lkr ch)) (Result.ok g)

/-- The rule for `moved_to` and `was_previously_at` in the words of the
specification: the last non-empty value met when scanning the entries oldest
first, that is the value of the newest entry having one (the list is newest
first); `""` when no entry has one. -/
def newestNonEmpty (field : Change → String) (changes : List Change) : String :=
  ((changes.map field).find? (fun s => s ≠ "")).getD ""

/-- The value of the oldest entry having a non-empty one (the list is newest
first); `""` when no entry has one. -/
def oldestNonEmpty (field : Change → String) (changes : List Change) : String :=
  ((changes.reverse.map field).find? (fun s => s ≠ "")).getD ""

/-- The bitwise OR of the masks of all entries. -/
def orMask (changes : List Change) : ChangeType :=
  changes.foldl (fun m change => m ||| change.Mask) 0

/-! ## A node graph -/

/-- Modelled from the spec: what the node graph holds at a path, one of the
node variants File, Directory and Ghost (the tombstone keeps the node it
replaced).  The graph is flat: parent directories and the children of a
directory are not tracked. -/
inductive Entry where
  | file (hash : Nat) (size : Nat)
  | dir
  | ghost (old : Node)
deriving DecidableEq, Repr

/-- Modelled from the spec: the node graph, a map from paths to what they
hold. -/
abbrev Graph := String → Option Entry

/-- Modelled from the spec: the graph without any node. -/
def Graph.empty : Graph := fun _ => none

/-- Modelled from the spec: the graph with `entry` at `path`. -/
def Graph.put (g : Graph) (path : String) (entry : Entry) : Graph :=
  fun p => if p = path then some entry else g p

/-- Modelled from the spec: the graph without a node at `path`. -/
def Graph.erase (g : Graph) (path : String) : Graph :=
  fun p => if p = path then none else g p

/-- Modelled from the spec: the node an entry at `path` stands for. -/
def Entry.toNode (path : String) : Entry → Node
  | Entry.file hash size => Node.File path hash size
  | Entry.dir => Node.Directory path
  | Entry.ghost old => Node.Ghost old path

/-- Modelled from the spec: what a node leaves in the graph. -/
def Node.toEntry : Node → Entry
  | Node.File _ hash size => Entry.file hash size
  | Node.Directory _ => Entry.dir
  | Node.Ghost old _ => Entry.ghost old

/-- Modelled from the spec: the variant of an entry. -/
def Entry.variant : Entry → NodeType
  | Entry.file _ _ => NodeType.File
  | Entry.dir => NodeType.Directory
  | Entry.ghost _ => NodeType.Ghost

/-- Modelled from the spec: `lookup(path) → node | NotFound`. -/
def Graph.lookup (g : Graph) (path : String) : Lookup :=
  match g path with
  | some entry => Lookup.found (entry.toNode path)
  | none => Lookup.noSuchFile

/-- Modelled from the spec: `stage_file(file_node) → staged_node`: afterwards the
graph holds the file at the path of the node. -/
def Graph.stage_file (g : Graph) (nd : Node) : Except Err Graph :=
  match nd with
  | Node.File path hash size => Except.ok (g.put path (Entry.file hash size))
  | _ => Except.error Err.BadNode

/-- Modelled from the spec: `mkdir(path, create_parents) → dir_node`: ensures
that a directory exists at `path` (idempotent). -/
def Graph.mkdir (g : Graph) (path : String) (_create_parents : Bool) : Except Err Graph :=
  match g path with
  | some Entry.dir => Except.ok g
  | _ => Except.ok (g.put path Entry.dir)

/-- Modelled from the spec: `remove(node, recursive, force_ghost) → (parent,
ghost_node)`: the node is taken out of the graph and, with `force_ghost`, a
tombstone wrapping it is left at its path.  Removing a tombstone changes
nothing (removes are idempotent by contract). -/
def Graph.remove (g : Graph) (nd : Node) (_recursive force_ghost : Bool) : Except Err Graph :=
  match nd with
  | Node.Ghost _ _ => Except.ok g
  | _ => if force_ghost then Except.ok (g.put nd.Path (Entry.ghost nd))
         else Except.ok (g.erase nd.Path)

/-- Modelled from the spec: `move(node, new_path)`: the node is removed from its
path, where a tombstone is left, and put at `new_path`. -/
def Graph.move (g : Graph) (nd : Node) (new_path : String) : Except Err Graph :=
  match g.remove nd true true with
  | Except.ok g1 => Except.ok (g1.put new_path nd.toEntry)
  | Except.error e => Except.error e

/-- Modelled from the spec: the linker over the node graph. -/
def graphLinker : Linker Graph where
  LookupModNode := Graph.lookup
  Remove := Graph.remove
  StageFromFileNode := Graph.stage_file
  Mkdir := Graph.mkdir
  Move := Graph.move

/-- The graph a successful replay leaves. -/
def Result.graph {G : Type} : Result G → Option G
  | Result.ok g => some g
  | _ => none

/-- What can be observed of a replay at `path`: `none` if the replay did not
succeed, otherwise the variant of the node at `path` (`some none` when there is
no node). -/
def Result.variantAt (r : Result Graph) (path : String) : Option (Option NodeType) :=
  r.graph.map (fun g => (g path).map Entry.variant)

/-! ## Serialisation -/

/-- Modelled from the spec: what `n.CapNodeToNode` gives back, a node that is a
`n.ModNode` (File, Directory or Ghost), or a commit. -/
inductive AnyNode where
  | mod (nd : Node)
  | commit (c : Commit)
deriving DecidableEq, Repr

/-- Modelled from the spec: the structured message of a change
(`capnp_patch.Change`), with the fields `curr`, `head`, `next` (node payloads),
`moved_to` and `mask` (a `uint64`).  Setters and getters are field accesses
that do not fail. -/
structure CapChange (Payload : Type) where
  Curr : Payload
  Head : Payload
  Next : Payload
  MovedTo : String
  Mask : Nat

/-- The node payload codec of package `catfs/nodes`, which `toCapnpChange` and
`fromCapnpChange` call and which is not part of the sources: `ToCapnpNode` of a
`n.ModNode`, `ToCapnpNode` of a `*n.Commit` (the receiver may be `nil`),
`FromCapnpNode` into a fresh `n.Commit`, and `n.CapNodeToNode`. -/
structure NodeCodec (Payload : Type) where
  ToCapnpNode : Node → Except Err Payload
  CommitToCapnpNode : Option Commit → Except Err Payload
  CommitFromCapnpNode : Payload → Except Err Commit
  CapNodeToNode : Payload → Except Err AnyNode

/-- Go: `func (ch *Change) toCapnpChange(seg, capCh) error`, giving the message
it fills. -/
def Change.toCapnpChange {Payload : Type} (codec : NodeCodec Payload) (ch : Change) :
    Except Err (CapChange Payload) :=
  match codec.ToCapnpNode ch.Curr with
  | Except.error e => Except.error e
  | Except.ok capCurrNd =>
    match codec.CommitToCapnpNode ch.Head with
    | Except.error e => Except.error e
    | Except.ok capHeadNd =>
      match codec.CommitToCapnpNode ch.Next with
      | Except.error e => Except.error e
      | Except.ok capNextNd =>
        Except.ok { Curr := capCurrNd, Head := capHeadNd, Next := capNextNd,
                    MovedTo := ch.MovedTo, Mask := ch.Mask }

/-- Go: `func (ch *Change) ToCapnp() (*capnp.Message, error)`. -/
def Change.ToCapnp {Payload : Type} (codec : NodeCodec Payload) (ch : Change) :
    Except Err (CapChange Payload) :=
  ch.toCapnpChange codec

/-- Go: `func (ch *Change) fromCapnpChange(capCh capnp_patch.Change) error`,
giving the change after the call.  The mask is converted from `uint64` to
`ChangeType`, a `uint8`. -/
def Change.fromCapnpChange {Payload : Type} (codec : NodeCodec Payload) (ch : Change)
    (capCh : CapChange Payload) : Except Err Change :=
  match codec.CommitFromCapnpNode capCh.Head with
  | Except.error e => Except.error e
  | Except.ok head =>
    match codec.CommitFromCapnpNode capCh.Next with
    | Except.error e => Except.error e
    | Except.ok next =>
      match codec.CapNodeToNode capCh.Curr with
      | Except.error e => Except.error e
      | Except.ok (AnyNode.commit _) => Except.error Err.BadNode
      | Except.ok (AnyNode.mod currModNd) =>
        Except.ok { ch with Head := some head, Next := some next, Curr := currModNd,
                            MovedTo := capCh.MovedTo, Mask := capCh.Mask % 256 }

/-- Go: `func (ch *Change) FromCapnp(msg *capnp.Message) error`. -/
def Change.FromCapnp {Payload : Type} (codec : NodeCodec Payload) (ch : Change)
    (msg : CapChange Payload) : Except Err Change :=
  ch.fromCapnpChange codec msg

/-- A payload codec to run the serialisation on examples: the payload is the
node itself, and a `nil` commit is rejected. -/
def exampleCodec : NodeCodec AnyNode where
  ToCapnpNode := fun nd => Except.ok (AnyNode.mod nd)
  CommitToCapnpNode := fun c =>
    match c with
    | some c => Except.ok (AnyNode.commit c)
    | none => Except.error Err.BadNode
  CommitFromCapnpNode := fun p =>
    match p with
    | AnyNode.commit c => Except.ok c
    | AnyNode.mod _ => Except.error Err.BadNode
  CapNodeToNode := fun p => Except.ok p

end vcs

/-!
brig: authenticated encryption of streams (`bit/file.go`).

Modelling conventions.

* The SHA-1 hasher and the keyed AEAD worker (`cipher.AEAD`) come from libraries
  and are parameters (`Primitives`).  The state of the hasher is the sequence of
  bytes written to it.
* The writer under an `AEADWriter` is the sequence of bytes written to it; the
  `io.ReadSeeker` under an `AEADReader` is a `store.Reader`.
* `Read` of an `AEADReader` takes the length of the destination and gives the
  bytes copied into it.
* `none` is a panic.
-/

namespace bit

open store (Byte)

/-- Go: `maxPackSize = 4 * 1024 * 1024`. -/
def maxPackSize : Nat := 4 * 1024 * 1024

/-- Go: `goodBufSize = maxPackSize + 32`. -/
def goodBufSize : Nat := maxPackSize + 32

/-- Go: `padPackSize = 4`. -/
def padPackSize : Nat := 4

/-- The library primitives behind `aeadCommon`: `Sum` is the SHA-1 digest of
all bytes written to the hasher (`sha1.New()`, `Write`, `Sum(nil)`); the other
fields are the methods of the `cipher.AEAD` made from the key, `Seal` and `Open`
with `dst = nil` and without additional data (`Open` gives `none` when it
returns an error). -/
structure Primitives where
  Sum : List Byte → List Byte
  NonceSize : Nat
  Overhead : Nat
  Seal : List Byte → List Byte → List Byte
  Open : List Byte → List Byte → Option (List Byte)

/-- Errors of the codec. -/
inductive Err where
  | Reader (e : store.IOError)
  | PackSize
  | NonceSize
  | Open
  | SeekEnd
deriving DecidableEq, Repr

/-- Go: `binary.BigEndian.PutUint32(b, v)` for a buffer of at least 4 bytes. -/
def PutUint32 (b : List Byte) (v : Nat) : List Byte :=
  [v / 2 ^ 24 % 256, v / 2 ^ 16 % 256, v / 2 ^ 8 % 256, v % 256] ++ b.drop 4

/-- Go: `binary.BigEndian.Uint32(b)`. -/
def Uint32 (b : List Byte) : Nat :=
  b.getD 0 0 * 2 ^ 24 + b.getD 1 0 * 2 ^ 16 + b.getD 2 0 * 2 ^ 8 + b.getD 3 0

/-- Go: the builtin `copy(dst, src)`, giving `dst` afterwards. -/
def copy (dst src : List Byte) : List Byte :=
  src.take (Nat.min dst.length src.length) ++ dst.drop (Nat.min dst.length src.length)

/-- Go: `type AEADWriter struct`, with the fields of `aeadCommon` (`Hasher`,
`nonce`, `sizeBuf`; the AEAD is in `Primitives`), the bytes written to `Writer`
so far, and the unread bytes of `packBuf`. -/
structure AEADWriter where
  Hasher : List Byte
  nonce : List Byte
  sizeBuf : List Byte
  Writer : List Byte
  packBuf : List Byte
deriving DecidableEq, Repr

/-- Go: `func NewAEADWriter(w io.Writer, key []byte)` with `initAeadCommon`; the
key is in the AEAD of `P`. -/
def NewAEADWriter (P : Primitives) (w : List Byte) : AEADWriter :=
  { Hasher := [], nonce := List.replicate P.NonceSize 0, sizeBuf := List.replicate padPackSize 0,
    Writer := w, packBuf := [] }

/-- Go: `func (w *AEADWriter) flushPack(chunkSize int) (int, error)`.  `Write`
and `Close` call it with `chunkSize ≤ w.packBuf.Len()`; beyond that the slice
`w.packBuf.Bytes()[:chunkSize]` is not modelled.  `hash[w.aead.NonceSize():]`
panics when the nonce is longer than the digest. -/
def AEADWriter.flushPack (P : Primitives) (w : AEADWriter) (chunkSize : Nat) :
    Option (AEADWriter × Nat) :=
  if chunkSize > w.packBuf.length then none
  else
    -- Try to update the checksum as we run:
    let src := w.packBuf.take chunkSize
    let hasher := w.Hasher ++ src
    -- Create a new Nonce for this block:
    let hash := P.Sum hasher
    if P.NonceSize > hash.length then none
    else
      let nonce := copy w.nonce (hash.drop P.NonceSize)
      -- Encrypt the text:
      let encrypted := P.Seal nonce src
      -- Pass it to the underlying writer:
      let sizeBuf := PutUint32 w.sizeBuf (encrypted.length % 2 ^ 32)
      some ({ Hasher := hasher, nonce := nonce, sizeBuf := sizeBuf,
              Writer := w.Writer ++ sizeBuf ++ nonce ++ encrypted,
              packBuf := w.packBuf.drop chunkSize },
            encrypted.length + nonce.length + sizeBuf.length)

/-- Go: `func (w *AEADWriter) Write(p []byte) (int, error)`. -/
def AEADWriter.Write (P : Primitives) (w : AEADWriter) (p : List Byte) :
    Option (AEADWriter × Nat) :=
  let w1 := { w with packBuf := w.packBuf ++ p }
  if w1.packBuf.length < maxPackSize then some (w1, 0)
  else w1.flushPack P maxPackSize

/-- Go: `func (w *AEADWriter) Close() error`. -/
def AEADWriter.Close (P : Primitives) (w : AEADWriter) : Option AEADWriter :=
  (w.flushPack P w.packBuf.length).map Prod.fst

/-- Go: `securedTransfer(reader, writer, encrypt)` into an `AEADWriter`, for a
source that delivers the buffers `chunks` (each read fills up to `goodBufSize`
bytes) and then EOF.  An empty read is skipped. -/
def securedTransfer (P : Primitives) : AEADWriter → List (List Byte) → Option AEADWriter
  | w, [] => some w
  | w, buf :: rest =>
    if buf.length = 0 then securedTransfer P w rest
    else
      match w.Write P buf with
      | none => none
      | some (w1, _) => securedTransfer P w1 rest

/-- Go: `func Encrypt(key []byte, source io.ReadSeeker, dest io.Writer) error`
for a source that delivers `chunks`, giving the bytes written to `dest`
(`layer.Close()` is deferred). -/
def Encrypt (P : Primitives) (chunks : List (List Byte)) : Option (List Byte) :=
  match securedTransfer P (NewAEADWriter P []) chunks with
  | none => none
  | some w => (w.Close P).map AEADWriter.Writer

/-- Go: `type AEADReader struct`, with the fields of `aeadCommon`, the
underlying `Reader` and the unread bytes of `backlog`. -/
structure AEADReader where
  Hasher : List Byte
  nonce : List Byte
  sizeBuf : List Byte
  Reader : store.Reader
  backlog : List Byte
deriving DecidableEq, Repr

/-- Go: `func NewAEADReader(r io.ReadSeeker, key []byte)` with `initAeadCommon`. -/
def NewAEADReader (P : Primitives) (r : store.Reader) : AEADReader :=
  { Hasher := [], nonce := List.replicate P.NonceSize 0, sizeBuf := List.replicate padPackSize 0,
    Reader := r, backlog := [] }

/-- What a call of `AEADReader.Read` leaves behind: the reader, the bytes copied
into `dest` (their number is the `n` returned) and the error. -/
structure ReadResult where
  reader : AEADReader
  data : List Byte
  err : Option Err
deriving DecidableEq, Repr

/-- Go: `func (r *AEADReader) Read(dest []byte) (int, error)` for a destination
of `destLen` bytes. -/
def AEADReader.Read (P : Primitives) (r : AEADReader) (destLen : Nat) : ReadResult :=
  if r.backlog.length > 0 then
    let n := Nat.min destLen r.backlog.length
    ⟨{ r with backlog := r.backlog.drop n }, r.backlog.take n, none⟩
  else
    let size := r.Reader.Read r.sizeBuf
    match size.2.2.2 with
    | some e => ⟨{ r with Reader := size.1, sizeBuf := size.2.1 }, [], some (Err.Reader e)⟩
    | none =>
      let r1 := { r with Reader := size.1, sizeBuf := size.2.1 }
      let packSize := Uint32 r1.sizeBuf
      if packSize > (maxPackSize + P.Overhead % 2 ^ 32) % 2 ^ 32 then ⟨r1, [], some Err.PackSize⟩
      else
        let nonce := r1.Reader.Read r1.nonce
        let r2 := { r1 with Reader := nonce.1, nonce := nonce.2.1 }
        match nonce.2.2.2 with
        | some e => ⟨r2, [], some (Err.Reader e)⟩
        | none =>
          if nonce.2.2.1 ≠ (P.NonceSize : Int) then ⟨r2, [], some Err.NonceSize⟩
          else
            let pack := r2.Reader.Read (List.replicate packSize 0)
            let r3 := { r2 with Reader := pack.1 }
            match pack.2.2.2 with
            | some e => ⟨r3, [], some (Err.Reader e)⟩
            | none =>
              match P.Open r3.nonce (pack.2.1.take pack.2.2.1.toNat) with
              | none => ⟨r3, [], some Err.Open⟩
              | some decrypted =>
                let r4 := { r3 with Hasher := r3.Hasher ++ decrypted }
                -- Log back any parts that do not fit into `dest`.
                if destLen > decrypted.length then ⟨r4, decrypted, none⟩
                else if destLen < decrypted.length then
                  ⟨{ r4 with backlog := r4.backlog ++ decrypted.drop destLen },
                    decrypted.take destLen, none⟩
                else ⟨r4, decrypted.take destLen, none⟩

/-- Go: `func (r *AEADReader) seekPosCoord(offset int64) (int64, int64, int64)`;
the division and the remainder of `int64` truncate towards zero. -/
def seekPosCoord (P : Primitives) (offset : Int) : Int × Int × Int :=
  let blockSize : Int := ((padPackSize + P.Overhead + P.NonceSize : Nat) : Int) + (maxPackSize : Int)
  (offset.tdiv blockSize, offset.tmod blockSize, blockSize)

/-- Go: `func (r *AEADReader) Seek(offset int64, whence int) (int64, error)`,
giving the reader, the position returned and the error.  `make([]byte, 0,
blockOff)` panics for a negative `blockOff`. -/
def AEADReader.Seek (P : Primitives) (r : AEADReader) (offset whence : Int) :
    Option (AEADReader × Int × Option Err) :=
  -- Clear backlog, reading will cause it to be re-read
  let r0 := { r with backlog := [] }
  -- Find out our current pos in the encrypted stream:
  let curr := r0.Reader.Seek 0 store.SEEK_CUR
  match curr.2.2 with
  | some e => some ({ r0 with Reader := curr.1 }, 0, some (Err.Reader e))
  | none =>
    let r1 := { r0 with Reader := curr.1 }
    let currPos := curr.2.1
    if whence = store.SEEK_END then some (r1, 0, some Err.SeekEnd)
    else
      -- Convert offset to relative to blockNum offset
      let offset1 := if whence = store.SEEK_SET then offset - currPos else offset
      -- User wants to know where we are in the decrypted stream:
      let coord := seekPosCoord P (currPos + offset1)
      let blockNum := coord.1
      let blockOff := coord.2.1
      let blockSize := coord.2.2
      if offset1 = 0 then some (r1, blockNum * (maxPackSize : Int) + blockOff, none)
      else
        -- Seek relative to the encrypted stream:
        let enc := r1.Reader.Seek (blockNum * blockSize) store.SEEK_SET
        match enc.2.2 with
        | some e => some ({ r1 with Reader := enc.1 }, 0, some (Err.Reader e))
        | none =>
          let r2 := { r1 with Reader := enc.1 }
          -- Seek to the right position:
          if blockOff < 0 then none
          else
            let res := r2.Read P 0
            match res.err with
            | some e => some (res.reader, 0, some e)
            | none =>
              -- Return new position relative to the decrypted stream:
              let newCoord := seekPosCoord P enc.2.1
              some (res.reader, newCoord.1 * (maxPackSize : Int) + newCoord.2.1, none)

/-- Go: `securedTransfer(reader, writer, encrypt)` out of an `AEADReader`, giving
the bytes written to the destination and the error returned.  Every read is
into a buffer of `goodBufSize` bytes; each iteration of the loop uses one unit
of `fuel` (`none` when it runs out). -/
def securedTransferFrom (P : Primitives) :
    Nat → AEADReader → List Byte → Option (List Byte × Option Err)
  | 0, _, _ => none
  | fuel + 1, r, out =>
    let res := r.Read P goodBufSize
    if res.data.length = 0 then
      match res.err with
      | none => securedTransferFrom P fuel res.reader out
      | some (Err.Reader store.IOError.EOF) => some (out, none)
      | some e => some (out, some e)
    else
      match res.err with
      | some (Err.Reader store.IOError.EOF) => securedTransferFrom P fuel res.reader (out ++ res.data)
      | some e => some (out, some e)
      | none => securedTransferFrom P fuel res.reader (out ++ res.data)

/-- Go: `func Decrypt(key []byte, source io.ReadSeeker, dest io.Writer) error`
for a source holding `source`, giving the bytes written to `dest` and the
error.  Every frame the transfer loop passes takes at least the 4 bytes of a
size field from the source, so the fuel given suffices for a stream of
frames. -/
def Decrypt (P : Primitives) (source : List Byte) : Option (List Byte × Option Err) :=
  securedTransferFrom P (source.length + 1) (NewAEADReader P ⟨source, 0⟩) []

/-- The nonce `flushPack` derives for a block: `copy(w.nonce, hash[NonceSize:])`
for the nonce buffer `nonce` and the bytes `hashed` written to the hasher,
the block included. -/
def blockNonce (P : Primitives) (nonce hashed : List Byte) : List Byte :=
  copy nonce ((P.Sum hashed).drop P.NonceSize)

/-- The frame `flushPack` writes for a block: the size field, the nonce and the
sealed block. -/
def frame (P : Primitives) (nonce block : List Byte) : List Byte :=
  PutUint32 [] ((P.Seal nonce block).length % 2 ^ 32) ++ nonce ++ P.Seal nonce block

/-- The frames of a sequence of blocks, one after the other, for a writer whose
nonce buffer holds `nonce` and whose hasher has seen `hashed`. -/
def frames (P : Primitives) : List Byte → List Byte → List (List Byte) → List Byte
  | _, _, [] => []
  | nonce, hashed, block :: rest =>
    frame P (blockNonce P nonce (hashed ++ block)) block
      ++ frames P (blockNonce P nonce (hashed ++ block)) (hashed ++ block) rest

/-- The blocks an `AEADWriter` with `buf` in its buffer flushes when `chunks` are
written to it and it is closed: a `Write` flushes one block of `maxPackSize`
bytes if the buffer has reached that size, `Close` flushes what is left. -/
def blocksOf : List Byte → List (List Byte) → List (List Byte)
  | buf, [] => [buf]
  | buf, chunk :: rest =>
    if chunk.length = 0 then blocksOf buf rest
    else if (buf ++ chunk).length < maxPackSize then blocksOf (buf ++ chunk) rest
    else (buf ++ chunk).take maxPackSize :: blocksOf ((buf ++ chunk).drop maxPackSize) rest

/-- What the codec assumes of the primitives: the digest has 20 bytes, the nonce
is not longer than the digest and not empty, `Seal` adds a tag of `Overhead`
bytes (not empty, at most 64 KiB), and `Open` undoes `Seal`. -/
structure Primitives.Lawful (P : Primitives) : Prop where
  sum_length : ∀ d, (P.Sum d).length = 20
  nonce_le : P.NonceSize ≤ 20
  nonce_pos : 0 < P.NonceSize
  overhead_pos : 0 < P.Overhead
  overhead_le : P.Overhead ≤ 65536
  seal_length : ∀ nonce plain, (P.Seal nonce plain).length = plain.length + P.Overhead
  open_seal : ∀ nonce plain, P.Open nonce (P.Seal nonce plain) = some plain

/-- Primitives to run the codec on examples: the digest is the 20 bytes
`k, k + 1, ..., k + 19` for `k` bytes hashed, `Seal` appends a tag of 16 zero
bytes and `Open` takes it off again. -/
def examplePrimitives (nonceSize : Nat) : Primitives where
  Sum := fun data => (List.range 20).map (fun i => data.length + i)
  NonceSize := nonceSize
  Overhead := 16
  Seal := fun _ plain => plain ++ List.replicate 16 0
  Open := fun _ sealed =>
    if 16 ≤ sealed.length then some (sealed.take (sealed.length - 16)) else none

end bit

/-!
brig: authenticated connections (`net/authrw.go`).

A reader is the sequence of bytes it still delivers, followed by EOF; a writer
is the sequence of bytes written to it.
-/

namespace net

open store (Byte)

/-- Errors of `readSizePack`: those of `io.ReadFull` and `io.ReadAtLeast` at the
end of the stream, and the oversize error with the size declared. -/
inductive Err where
  | EOF
  | UnexpectedEOF
  | Oversized (size : Nat)
deriving DecidableEq, Repr

/-- Go: `binary.LittleEndian.PutUint64(b, v)` on a fresh buffer of 8 bytes. -/
def PutUint64 (v : Nat) : List Byte :=
  [v % 256, v / 2 ^ 8 % 256, v / 2 ^ 16 % 256, v / 2 ^ 24 % 256,
   v / 2 ^ 32 % 256, v / 2 ^ 40 % 256, v / 2 ^ 48 % 256, v / 2 ^ 56 % 256]

/-- Go: `binary.LittleEndian.Uint64(b)`. -/
def Uint64 (b : List Byte) : Nat :=
  b.getD 0 0 + b.getD 1 0 * 2 ^ 8 + b.getD 2 0 * 2 ^ 16 + b.getD 3 0 * 2 ^ 24
    + b.getD 4 0 * 2 ^ 32 + b.getD 5 0 * 2 ^ 40 + b.getD 6 0 * 2 ^ 48 + b.getD 7 0 * 2 ^ 56

/-- Go: `io.ReadFull(r, buf)` and `io.ReadAtLeast(r, buf, len(buf))` for a
buffer of `n` bytes: the bytes read or the error, and the reader afterwards. -/
def ReadFull (r : List Byte) (n : Nat) : Except Err (List Byte) × List Byte :=
  if n ≤ r.length then (Except.ok (r.take n), r.drop n)
  else if r.length = 0 then (Except.error Err.EOF, [])
  else (Except.error Err.UnexpectedEOF, [])

/-- Go: `func writeSizePack(w io.Writer, data []byte) (int, error)`, giving the
writer afterwards and the number returned. -/
def writeSizePack (w : List Byte) (data : List Byte) : List Byte × Nat :=
  let pack := PutUint64 (data.length % 2 ^ 64)
  (w ++ (pack ++ data), pack.length + data.length)

/-- Go: `func readSizePack(r io.Reader) ([]byte, error)`, giving the result and
the reader afterwards. -/
def readSizePack (r : List Byte) : Except Err (List Byte) × List Byte :=
  match ReadFull r 8 with
  | (Except.error e, r1) => (Except.error e, r1)
  | (Except.ok sizeBuf, r1) =>
    let size := Uint64 sizeBuf
    -- Protect against unreasonable sizes:
    if size > 4096 then (Except.error (Err.Oversized size), r1)
    else ReadFull r1 size

/-- Go: `nonceSize = 62`. -/
def nonceSize : Nat := 62

/-- Go: `aes.BlockSize`. -/
def aesBlockSize : Nat := 16

/-- Errors of the end of `runAuth`. -/
inductive AuthErr where
  | BadNonceSize (size : Nat)
  | BadNonce
deriving DecidableEq, Repr

/-- Go: the loop `for i := range keySource { keySource[i] = nonceFromBob[i] ^
rA[i] }` over `keySource := make([]byte, nonceSize)`; both slices have
`nonceSize` bytes when the loop is reached. -/
def keySource (nonceFromBob rA : List Byte) : List Byte :=
  (List.range nonceSize).map (fun i => nonceFromBob.getD i 0 ^^^ rA.getD i 0)

/-- Go: the end of `func (ath *AuthReadWriter) runAuth() error`, from the check
of the size of the partner's nonce on, for the own nonce `rA`, the nonce
`nonceFromBob` decrypted from the partner's challenge and the response
`hashFromBob` read from the partner; gives the key and the IV handed to
`wrapEncryptedRW`.  `Sum512` is `sha3.Sum512` and `DeriveKey` is
`util.DeriveKey`. -/
def runAuthKeys (Sum512 : List Byte → List Byte)
    (DeriveKey : List Byte → List Byte → Nat → List Byte)
    (rA nonceFromBob hashFromBob : List Byte) : Except AuthErr (List Byte × List Byte) :=
  if nonceFromBob.length ≠ nonceSize then Except.error (AuthErr.BadNonceSize nonceFromBob.length)
  else if hashFromBob ≠ Sum512 rA then Except.error AuthErr.BadNonce
  else
    let keySource := keySource nonceFromBob rA
    let key := DeriveKey keySource (keySource.take (nonceSize / 2)) 32
    let inv := DeriveKey keySource (keySource.drop (nonceSize / 2)) aesBlockSize
    Except.ok (key, inv)

end net

/-!
brig: validators of configuration values (`vendor/github.com/sahib/config/validators.go`).
-/

namespace config

/-- A value of type `interface{}` handed to a validator: an `int64`, or a value
of another dynamic type. -/
inductive Value where
  | int64 (i : Int)
  | int (i : Int)
  | float64 (text : String)
  | string (s : String)
  | bool (b : Bool)
  | nil
deriving DecidableEq, Repr

/-- The errors of `IntRangeValidator`. -/
inductive RangeError where
  | NotInt64
  | LessThan (min : Int)
  | MoreThan (max : Int)
deriving DecidableEq, Repr

/-- Go: `func IntRangeValidator(min, max int64) func(val interface{}) error`;
`none` is the `nil` error. -/
def IntRangeValidator (min max : Int) : Value → Option RangeError
  | Value.int64 i =>
    if i < min then some (RangeError.LessThan min)
    else if i > max then some (RangeError.MoreThan max)
    else none
  | _ => some RangeError.NotInt64

end config

/-!
brig: path checks of the gateway (`gateway/endpoints/util.go`, `remove.go`).

The functions `path.Clean` and `path.Dir` of the Go standard library are
modelled after their documentation.  The folders of the user, which
`folderCacheForUser` gets from the session and the user database, are a
parameter.
-/

namespace endpoints

/-- The elements of a path between its slashes. -/
def elements : List Char → List (List Char)
  | [] => [[]]
  | c :: cs =>
    if c = '/' then [] :: elements cs
    else
      match elements cs with
      | first :: rest => (c :: first) :: rest
      | [] => [[c]]

/-- One step of `path.Clean` over the elements of a path, with the elements kept
so far in reverse order: empty elements and `.` are dropped, `..` takes back
the last element kept, is dropped at the root, and is kept in front of a path
that is not rooted. -/
def cleanStep (rooted : Bool) (kept : List (List Char)) (element : List Char) :
    List (List Char) :=
  if element = [] ∨ element = ['.'] then kept
  else if element = ['.', '.'] then
    match kept with
    | last :: before => if last = ['.', '.'] then element :: kept else before
    | [] => if rooted then [] else [element]
  else element :: kept

/-- Go: `path.Clean` of the standard library. -/
def Clean (path : String) : String :=
  if path.data = [] then "."
  else
    let rooted := path.data.head? == some '/'
    let kept := ((elements path.data).foldl (cleanStep rooted) []).reverse
    let out := (if rooted then ['/'] else []) ++ List.intercalate ['/'] kept
    if out = [] then "." else String.mk out

/-- Go: `path.Dir` of the standard library: everything up to and including the
last slash, cleaned. -/
def Dir (path : String) : String :=
  Clean (String.mk ((path.data.reverse.dropWhile (fun c => c ≠ '/')).reverse))

/-- Go: `func prefixRoot(nodePath string) string`. -/
def prefixRoot (nodePath : String) : String :=
  if ['/'].isPrefixOf nodePath.data then nodePath else "/" ++ nodePath

/-- Go: `func buildFolderCache(folders []string) map[string]bool`; the keys of
the map (every value is `true`). -/
def buildFolderCache (folders : List String) : List String :=
  folders.map (fun folder => prefixRoot (Clean folder))

/-- The loop `for curr != ""` of `validatePath`; each iteration uses one unit of
`fuel` (`none` when it runs out). -/
def validateLoop (folderCache : List String) : Nat → String → Option Bool
  | 0, _ => none
  | fuel + 1, curr =>
    if curr = "" then some false
    else if curr ∈ folderCache then some true
    else
      let next := Dir curr
      -- We've gone up too much:
      if curr = "/" ∧ next = curr then some false
      else validateLoop folderCache fuel next

/-- Go: `func (s *State) validatePath(nodePath string, w, r) bool` for a user
with the folders `folders` (`none` when `folderCacheForUser` fails).  Every
iteration of the loop but the last shortens `curr`. -/
def validatePath (folders : Option (List String)) (nodePath : String) : Option Bool :=
  match folders with
  | none => some false
  | some folders =>
    validateLoop (buildFolderCache folders) ((prefixRoot nodePath).length + 1)
      (prefixRoot nodePath)

/-- Go: `func (rh *RemoveHandler) ServeHTTP(w, r)` for a user with the right to
edit and a request with `paths`: `none` if the request is answered with "path
forbidden", otherwise the paths handed to `rh.fs.Remove`, in order (if every
`Remove` succeeds). -/
def RemoveHandler.ServeHTTP (folders : Option (List String)) (paths : List String) :
    Option (List String) :=
  if paths.all (fun path => validatePath folders (prefixRoot path) == some true) then
    some (paths.map prefixRoot)
  else none

/-- The claim of the path check in the words of the specification: the path is
equal to or lies below one of the allowed folders. -/
def withinFolders (folders : List String) (path : String) : Bool :=
  folders.any (fun folder =>
    path == folder || folder == "/" || (folder.data ++ ['/']).isPrefixOf path.data)

end endpoints

/-! # Theorems -/

namespace store

/-! ## Basic facts -/

theorem Range_le (n : Modification) : n.Range.1 ≤ n.Range.2 := by
  simp [Modification.Range]

theorem max_eq (a b : Int) : max a b = Max.max a b := by
  unfold max; split <;> omega

theorem min_eq (a b : Int) : min a b = Min.min a b := by
  unfold min; split <;> omega

/-! ## Binary search -/

theorem elemAt_eq (r : List Modification) (k : Nat) (h : k < r.length) :
    elemAt r k = r[k] := by
  simp [elemAt, List.getD_eq_getElem?_getD, List.getElem?_eq_getElem h]

/-- With a predicate that never switches back from true to false below `n`,
the loop narrows `[i, j]` down to the first index at which `f` holds. -/
theorem searchLoop_first (f : Nat → Bool) (n : Nat)
    (mono : ∀ a b, a ≤ b → b < n → f a = true → f b = true) :
    ∀ fuel i j, j - i ≤ fuel → i ≤ j → j ≤ n →
      (∀ k, k < i → f k = false) → (∀ k, j ≤ k → k < n → f k = true) →
      i ≤ searchLoop f fuel i j ∧ searchLoop f fuel i j ≤ j ∧
      (∀ k, k < searchLoop f fuel i j → f k = false) ∧
      (∀ k, searchLoop f fuel i j ≤ k → k < n → f k = true) := by
  intro fuel
  induction fuel with
  | zero =>
    intro i j hf hij hjn hlo hhi
    have : i = j := by omega
    subst this
    simp only [searchLoop]
    exact ⟨le_refl _, le_refl _, hlo, hhi⟩
  | succ fuel ih =>
    intro i j hf hij hjn hlo hhi
    simp only [searchLoop]
    by_cases hlt : i < j
    · simp only [hlt, if_true]
      have hh1 : i ≤ (i + j) / 2 := by omega
      have hh2 : (i + j) / 2 < j := by omega
      cases hfh : f ((i + j) / 2) with
      | false =>
        simp only [Bool.not_false, if_true]
        have hlo2 : ∀ k, k < (i + j) / 2 + 1 → f k = false := by
          intro k hk
          cases hfk : f k with
          | false => rfl
          | true =>
            have := mono k ((i + j) / 2) (by omega) (by omega) hfk
            rw [hfh] at this; exact absurd this (by simp)
        obtain ⟨h1, h2, h3, h4⟩ := ih ((i + j) / 2 + 1) j (by omega) (by omega) hjn hlo2 hhi
        exact ⟨by omega, h2, h3, h4⟩
      | true =>
        simp only [Bool.not_true, Bool.false_eq_true, if_false]
        have hhi2 : ∀ k, (i + j) / 2 ≤ k → k < n → f k = true := by
          intro k hk hkn
          exact mono _ k hk hkn hfh
        obtain ⟨h1, h2, h3, h4⟩ := ih i ((i + j) / 2) (by omega) (by omega) (by omega) hlo hhi2
        exact ⟨h1, by omega, h3, h4⟩
    · have : i = j := by omega
      subst this
      simp only [lt_irrefl, if_false]
      exact ⟨le_refl _, le_refl _, hlo, hhi⟩

theorem Search_first (f : Nat → Bool) (n : Nat)
    (mono : ∀ a b, a ≤ b → b < n → f a = true → f b = true) :
    Search n f ≤ n ∧ (∀ k, k < Search n f → f k = false) ∧
      (∀ k, Search n f ≤ k → k < n → f k = true) := by
  obtain ⟨_, h2, h3, h4⟩ := searchLoop_first f n mono n 0 n (by omega) (by omega) (le_refl _)
    (by intro k hk; omega) (by intro k hk hkn; omega)
  exact ⟨h2, h3, h4⟩

/-- The number of iterations handed to the loop is irrelevant once it covers
`j - i`. -/
theorem searchLoop_fuel (f : Nat → Bool) :
    ∀ fuel fuel2 i j, j - i ≤ fuel → j - i ≤ fuel2 →
      searchLoop f fuel i j = searchLoop f fuel2 i j := by
  intro fuel
  induction fuel with
  | zero =>
    intro fuel2 i j h1 h2
    have hji : ¬ i < j := by omega
    cases fuel2 <;> simp [searchLoop, hji]
  | succ fuel ih =>
    intro fuel2 i j h1 h2
    cases fuel2 with
    | zero =>
      have hji : ¬ i < j := by omega
      simp [searchLoop, hji]
    | succ fuel2 =>
      simp only [searchLoop]
      by_cases hlt : i < j
      · simp only [hlt, if_true]
        split
        · exact ih _ _ _ (by omega) (by omega)
        · exact ih _ _ _ (by omega) (by omega)
      · simp [hlt]



theorem adjacent_iff_chain (rel : Modification → Modification → Bool) (r : List Modification) :
    adjacent rel r = true ↔ r.Chain' (fun i j => rel i j = true) := by
  induction r with
  | nil => simp [adjacent]
  | cons a t ih =>
    cases t with
    | nil => simp [adjacent]
    | cons b t2 =>
      simp only [adjacent, Bool.and_eq_true, List.chain'_cons]
      rw [ih]

theorem Disjoint_iff_pairwise (ivl : IntervalIndex) : ivl.Disjoint ↔ ivl.r.Pairwise Before := by
  unfold IntervalIndex.Disjoint
  rw [adjacent_iff_chain, ← List.chain'_iff_pairwise]
  simp only [decide_eq_true_eq]

theorem Disjoint.pairwise {ivl : IntervalIndex} (h : ivl.Disjoint) : ivl.r.Pairwise Before :=
  (Disjoint_iff_pairwise ivl).mp h

theorem pairwise_hi_le {r : List Modification} (h : r.Pairwise Before) {a b : Nat} (hab : a ≤ b)
    (hb : b < r.length) : (elemAt r a).Range.2 ≤ (elemAt r b).Range.2 := by
  rw [elemAt_eq r a (by omega), elemAt_eq r b hb]
  rcases Nat.eq_or_lt_of_le hab with h1 | h1
  · subst h1; exact le_refl _
  · have := List.pairwise_iff_getElem.mp h a b (by omega) hb h1
    unfold Before at this
    have := Range_le r[b]
    omega

theorem pairwise_lo_le {r : List Modification} (h : r.Pairwise Before) {a b : Nat} (hab : a ≤ b)
    (hb : b < r.length) : (elemAt r a).Range.1 ≤ (elemAt r b).Range.1 := by
  rw [elemAt_eq r a (by omega), elemAt_eq r b hb]
  rcases Nat.eq_or_lt_of_le hab with h1 | h1
  · subst h1; exact le_refl _
  · have := List.pairwise_iff_getElem.mp h a b (by omega) hb h1
    unfold Before at this
    have := Range_le r[a]
    omega

/-- On a sorted, disjoint list the lower search of `Add` and `Overlays` finds
the first interval that ends at or after `x`. -/
theorem Search_hi {r : List Modification} (h : r.Pairwise Before) (x : Int) :
    idxHi r x ≤ r.length ∧
    (∀ k, k < idxHi r x →
      (elemAt r k).Range.2 < x) ∧
    (∀ k, idxHi r x ≤ k → k < r.length →
      x ≤ (elemAt r k).Range.2) := by
  unfold idxHi
  obtain ⟨h1, h2, h3⟩ := Search_first (fun i => decide (x ≤ (elemAt r i).Range.2)) r.length
    (by
      intro a b hab hb ha
      simp only [decide_eq_true_eq] at ha ⊢
      have := pairwise_hi_le h hab hb
      omega)
  refine ⟨h1, ?_, ?_⟩
  · intro k hk
    have := h2 k hk
    simp only [decide_eq_false_iff_not] at this
    omega
  · intro k hk hkn
    have := h3 k hk hkn
    simpa using this

/-- On a sorted, disjoint list the upper search of `Add` and `Overlays` finds
the first interval that begins at or after `x`. -/
theorem Search_lo {r : List Modification} (h : r.Pairwise Before) (x : Int) :
    idxLo r x ≤ r.length ∧
    (∀ k, k < idxLo r x →
      (elemAt r k).Range.1 < x) ∧
    (∀ k, idxLo r x ≤ k → k < r.length →
      x ≤ (elemAt r k).Range.1) := by
  unfold idxLo
  obtain ⟨h1, h2, h3⟩ := Search_first (fun i => decide (x ≤ (elemAt r i).Range.1)) r.length
    (by
      intro a b hab hb ha
      simp only [decide_eq_true_eq] at ha ⊢
      have := pairwise_lo_le h hab hb
      omega)
  refine ⟨h1, ?_, ?_⟩
  · intro k hk
    have := h2 k hk
    simp only [decide_eq_false_iff_not] at this
    omega
  · intro k hk hkn
    have := h3 k hk hkn
    simpa using this

/-- With `x ≤ y` the lower search for `x` stops no later than the upper search
for `y`. -/
theorem Search_hi_le_lo {r : List Modification} (h : r.Pairwise Before) {x y : Int} (hxy : x ≤ y) :
    idxHi r x ≤
      idxLo r y := by
  obtain ⟨a1, a2, a3⟩ := Search_hi h x
  obtain ⟨b1, b2, b3⟩ := Search_lo h y
  by_contra hc
  push_neg at hc
  have hk := a2 _ hc
  have hk2 := b3 _ (le_refl _) (by omega)
  have := Range_le (elemAt r (idxLo r y))
  omega

theorem searchLoop_bounds (f : Nat → Bool) :
    ∀ fuel i j, i ≤ j → i ≤ searchLoop f fuel i j ∧ searchLoop f fuel i j ≤ j := by
  intro fuel
  induction fuel with
  | zero => intro i j hij; exact ⟨le_refl _, hij⟩
  | succ fuel ih =>
    intro i j hij
    simp only [searchLoop]
    by_cases hlt : i < j
    · simp only [hlt, if_true]
      split
      · have := ih ((i + j) / 2 + 1) j (by omega)
        omega
      · have := ih i ((i + j) / 2) (by omega)
        omega
    · simp only [hlt, if_false]
      omega

/-- Two searches over the same range, the predicate of the second implying the
predicate of the first: the first stops no later than the second, whether or
not the predicates are monotone. -/
theorem searchLoop_le_of_imp (f g : Nat → Bool) (himp : ∀ k, g k = true → f k = true) :
    ∀ fuel i j, i ≤ j → searchLoop f fuel i j ≤ searchLoop g fuel i j := by
  intro fuel
  induction fuel with
  | zero => intro i j _; exact le_refl _
  | succ fuel ih =>
    intro i j hij
    simp only [searchLoop]
    by_cases hlt : i < j
    · simp only [hlt, if_true]
      cases hg : g ((i + j) / 2) with
      | true =>
        rw [himp _ hg]
        simp only [Bool.not_true, Bool.false_eq_true, if_false]
        exact ih i ((i + j) / 2) (by omega)
      | false =>
        cases hf : f ((i + j) / 2) with
        | true =>
          simp only [Bool.not_true, Bool.false_eq_true, if_false, Bool.not_false, if_true]
          have h1 := (searchLoop_bounds f fuel i ((i + j) / 2) (by omega)).2
          have h2 := (searchLoop_bounds g fuel ((i + j) / 2 + 1) j (by omega)).1
          omega
        | false =>
          simp only [Bool.not_false, if_true]
          exact ih ((i + j) / 2 + 1) j (by omega)
    · simp only [hlt, if_false]
      exact le_refl _

/-- For `x ≤ y` the lower search for `x` stops no later than the upper search
for `y`, on any list: `Add` never calls `cut` with `i > j`, and `Overlays`
never slices with `lo > hi`. -/
theorem idxHi_le_idxLo (r : List Modification) {x y : Int} (hxy : x ≤ y) :
    idxHi r x ≤ idxLo r y := by
  unfold idxHi idxLo Search
  apply searchLoop_le_of_imp _ _ _ _ _ _ (Nat.zero_le _)
  intro k hk
  simp only [decide_eq_true_eq] at hk ⊢
  have := Range_le (elemAt r k)
  omega

theorem Overlays_eq (ivl : IntervalIndex) (start stop : Int) :
    ivl.Overlays start stop =
      if idxHi ivl.r start ≤ idxLo ivl.r stop then
        some ((ivl.r.take (idxLo ivl.r stop)).drop (idxHi ivl.r start))
      else none := rfl

theorem Overlays_isSome (ivl : IntervalIndex) {start stop : Int} (h : start ≤ stop) :
    ivl.Overlays start stop
      = some ((ivl.r.take (idxLo ivl.r stop)).drop (idxHi ivl.r start)) := by
  rw [Overlays_eq, if_pos (idxHi_le_idxLo ivl.r h)]

theorem Add_eq (ivl : IntervalIndex) (n : Modification) :
    ivl.Add n =
      if ivl.r = [] then ⟨[n], n.Range.2⟩
      else if idxHi ivl.r n.Range.1 ≥ ivl.r.length then
        ⟨ivl.r ++ [n], if n.Range.2 > ivl.Max then n.Range.2 else ivl.Max⟩
      else if idxHi ivl.r n.Range.1 = idxLo ivl.r n.Range.2 then
        ⟨insert ivl.r (idxHi ivl.r n.Range.1) n, if n.Range.2 > ivl.Max then n.Range.2 else ivl.Max⟩
      else
        ⟨cut (ivl.r.set (idxHi ivl.r n.Range.1)
            (((ivl.r.take (idxLo ivl.r n.Range.2)).drop (idxHi ivl.r n.Range.1)).foldl
              Modification.Merge n))
          (idxHi ivl.r n.Range.1 + 1) (idxLo ivl.r n.Range.2),
          if n.Range.2 > ivl.Max then n.Range.2 else ivl.Max⟩ := rfl

/-- C6: on a sorted and disjoint index, for `start < stop`, `Overlays` returns
(without panicking) a contiguous run of the stored intervals, in index order,
and that run contains every stored interval that shares at least one offset
with `[start, stop)`. -/
theorem Overlays_complete (ivl : IntervalIndex) (start stop : Int)
    (hd : ivl.Disjoint) (hlt : start < stop) :
    ∃ pre chunks post, ivl.Overlays start stop = some chunks ∧
      ivl.r = pre ++ chunks ++ post ∧
      ∀ m, m ∈ ivl.r → m.Meets start stop → m ∈ chunks := by
  have hp := Disjoint.pairwise hd
  obtain ⟨a1, a2, a3⟩ := Search_hi hp start
  obtain ⟨b1, b2, b3⟩ := Search_lo hp stop
  have hle := Search_hi_le_lo hp (le_of_lt hlt)
  refine ⟨ivl.r.take (idxHi ivl.r start),
    (ivl.r.take (idxLo ivl.r stop)).drop
      (idxHi ivl.r start),
    ivl.r.drop (idxLo ivl.r stop), ?_, ?_, ?_⟩
  · rw [Overlays_eq, if_pos hle]
  · have e1 : List.take (idxHi ivl.r start) ivl.r
        = List.take (idxHi ivl.r start)
            (List.take (idxLo ivl.r stop) ivl.r) := by
      rw [List.take_take, Nat.min_eq_left hle]
    rw [e1, List.take_append_drop, List.take_append_drop]
  · intro m hm hmeet
    obtain ⟨k, hk, rfl⟩ := List.getElem_of_mem hm
    obtain ⟨b, hb1, hb2, hb3, hb4⟩ := hmeet
    rw [← elemAt_eq ivl.r k hk] at hb3 hb4
    have hk1 : idxHi ivl.r start ≤ k := by
      by_contra hc
      push_neg at hc
      have := a2 k hc
      omega
    have hk2 : k < idxLo ivl.r stop := by
      by_contra hc
      push_neg at hc
      have := b3 k hc hk
      omega
    rw [List.mem_iff_getElem]
    refine ⟨k - idxHi ivl.r start, ?_, ?_⟩
    · simp only [List.length_drop, List.length_take]
      omega
    · simp only [List.getElem_drop, List.getElem_take]
      congr 1
      omega

/-! ## `Merge` and `Add` on given intervals -/

/-- C3: at `N = [0,3)` and `O = [0,10)` the receiver ends up covering `[0,7)`
instead of `[0,10)`: the tail taken from `O` starts at index
`oMax - nMax - 1 = 6` instead of `nMax - oMin = 3`. -/
theorem Merge_tail_wrong :
    (Modification.Merge ⟨0, [66, 66, 66]⟩ ⟨0, [1, 2, 3, 4, 5, 6, 7, 8, 9, 10]⟩)
        = ⟨0, [66, 66, 66, 7, 8, 9, 10]⟩
      ∧ (Modification.Merge ⟨0, [66, 66, 66]⟩ ⟨0, [1, 2, 3, 4, 5, 6, 7, 8, 9, 10]⟩).Range
        = (0, 7)
      ∧ mergeSpec ⟨0, [66, 66, 66]⟩ ⟨0, [1, 2, 3, 4, 5, 6, 7, 8, 9, 10]⟩
        = ⟨0, [66, 66, 66, 4, 5, 6, 7, 8, 9, 10]⟩ := by
  decide

theorem Search_one (f : Nat → Bool) : Search 1 f = if f 0 then 0 else 1 := by
  cases h : f 0 <;> simp [Search, searchLoop, h]

/-- C5 (as stated, refuted): on the fresh index, whose `Max` is 0, adding the
interval `[-5, -3)` leaves `Max = -3`, not `max(0, -3) = 0`. -/
theorem Add_Max_fresh_negative :
    (IntervalIndex.empty.Add ⟨-5, [1, 2]⟩).Max
      ≠ Max.max IntervalIndex.empty.Max (Modification.Range ⟨-5, [1, 2]⟩).2 := by
  decide

theorem Add_Max_cases (ivl : IntervalIndex) (n : Modification) :
    (ivl.Add n).Max = if ivl.r = [] then n.Range.2 else Max.max ivl.Max n.Range.2 := by
  rw [Add_eq]
  by_cases h : ivl.r = []
  · simp [h]
  · simp only [h, if_false, Int.max_def]
    split_ifs <;> first | rfl | (simp only []; omega)

/-- C5 (amended): after `Add(N)` the index's `Max` is `N.hi` if the index held
no interval before the call, and `max(previous Max, N.hi)` otherwise. -/
theorem Add_Max (ivl : IntervalIndex) (n : Modification) :
    (ivl.Add n).Max = if ivl.r = [] then n.Range.2 else Max.max ivl.Max n.Range.2 :=
  Add_Max_cases ivl n

/-- C4: on an index holding exactly the interval `O`, adding an interval `N`
that overlaps only the tail of `O` (`O.lo < N.lo ≤ O.hi ≤ N.hi`) leaves exactly
one interval; it covers `[O.lo, N.hi)` and holds the first `N.lo - O.lo` bytes
of `O` followed by the whole payload of `N`. -/
theorem Add_tail_overlap (O N : Modification) (M : Int)
    (h1 : O.Range.1 < N.Range.1) (h2 : N.Range.1 ≤ O.Range.2) (h3 : O.Range.2 ≤ N.Range.2) :
    (IntervalIndex.Add ⟨[O], M⟩ N).r
        = [⟨O.offset, O.data.take (N.Range.1 - O.Range.1).toNat ++ N.data⟩]
      ∧ (Modification.Range ⟨O.offset, O.data.take (N.Range.1 - O.Range.1).toNat ++ N.data⟩)
        = (O.Range.1, N.Range.2) := by
  have hmin : idxHi [O] N.Range.1 = 0 := by
    simp [idxHi, Search_one, elemAt, h2]
  have hmax : idxLo [O] N.Range.2 = 1 := by
    have : ¬ N.Range.2 ≤ O.Range.1 := by omega
    simp [idxLo, Search_one, elemAt, this]
  constructor
  · rw [Add_eq]
    simp only [hmin, hmax]
    have hm : Modification.Merge N O
        = ⟨O.offset, O.data.take (N.Range.1 - O.Range.1).toNat ++ N.data⟩ := by
      unfold Modification.Merge
      have c1 : ¬ (N.Range.1 > O.Range.2 ∨ O.Range.1 > N.Range.2) := by omega
      have c2 : N.Range.1 > O.Range.1 := h1
      have c3 : ¬ N.Range.2 < O.Range.2 := by omega
      simp only [c1, c2, c3, if_true, if_false]
    simp [cut, hm]
  · simp only [Modification.Range] at *
    simp only [List.length_append, List.length_take, Prod.mk.injEq, true_and]
    have : (N.offset - O.offset).toNat ≤ O.data.length := by omega
    rw [Nat.min_eq_left this]
    push_cast
    omega

theorem Add_tail_overlap_witness :
    (Modification.Range ⟨0, [65, 65, 65, 65, 65, 65, 65, 65, 65, 65]⟩).1
        < (Modification.Range ⟨5, [66, 66, 66, 66, 66, 66, 66, 66, 66, 66]⟩).1
      ∧ (IntervalIndex.Add ⟨[⟨0, [65, 65, 65, 65, 65, 65, 65, 65, 65, 65]⟩], 10⟩
          ⟨5, [66, 66, 66, 66, 66, 66, 66, 66, 66, 66]⟩).r
        = [⟨0, [65, 65, 65, 65, 65, 66, 66, 66, 66, 66, 66, 66, 66, 66, 66]⟩] :=
  ⟨by decide,
    (Add_tail_overlap ⟨0, [65, 65, 65, 65, 65, 65, 65, 65, 65, 65]⟩
      ⟨5, [66, 66, 66, 66, 66, 66, 66, 66, 66, 66]⟩ 10
      (by decide) (by decide) (by decide)).1⟩

/-- C1: adding `[0,10)` and then `[0,3)` to a fresh index leaves the single
interval `[0,7)`: the offsets 7, 8 and 9, written by the first interval only,
have no stored byte, and offset 4 holds the byte the first interval wrote at
offset 7. -/
theorem Add_not_last_write_wins :
    IntervalIndex.empty.AddAll [⟨0, [1, 2, 3, 4, 5, 6, 7, 8, 9, 10]⟩, ⟨0, [66, 66, 66]⟩]
        = ⟨[⟨0, [66, 66, 66, 7, 8, 9, 10]⟩], 10⟩
      ∧ lastWrite [⟨0, [1, 2, 3, 4, 5, 6, 7, 8, 9, 10]⟩, ⟨0, [66, 66, 66]⟩] 8 = some 9
      ∧ (IntervalIndex.empty.AddAll
          [⟨0, [1, 2, 3, 4, 5, 6, 7, 8, 9, 10]⟩, ⟨0, [66, 66, 66]⟩]).byteAt 8 = none
      ∧ lastWrite [⟨0, [1, 2, 3, 4, 5, 6, 7, 8, 9, 10]⟩, ⟨0, [66, 66, 66]⟩] 4 = some 5
      ∧ (IntervalIndex.empty.AddAll
          [⟨0, [1, 2, 3, 4, 5, 6, 7, 8, 9, 10]⟩, ⟨0, [66, 66, 66]⟩]).byteAt 4 = some 8 := by
  decide

/-- C2: adding `[0,10)`, `[11,21)` and then `[8,9)` to a fresh index leaves the
intervals `[0,19)` and `[11,21)`, which overlap. -/
theorem Add_breaks_disjointness :
    (IntervalIndex.empty.AddAll
        [⟨0, [1, 2, 3, 4, 5, 6, 7, 8, 9, 10]⟩, ⟨11, [1, 2, 3, 4, 5, 6, 7, 8, 9, 10]⟩,
          ⟨8, [66]⟩]).r.map Modification.Range = [(0, 19), (11, 21)]
      ∧ ¬ (IntervalIndex.empty.AddAll
        [⟨0, [1, 2, 3, 4, 5, 6, 7, 8, 9, 10]⟩, ⟨11, [1, 2, 3, 4, 5, 6, 7, 8, 9, 10]⟩,
          ⟨8, [66]⟩]).Disjoint := by
  decide

theorem Overlays_complete_witness :
    (IntervalIndex.mk [⟨0, [1, 2]⟩, ⟨5, [3]⟩] 6).Disjoint ∧ (1 : Int) < 6
      ∧ ∃ pre chunks post,
          (IntervalIndex.mk [⟨0, [1, 2]⟩, ⟨5, [3]⟩] 6).Overlays 1 6 = some chunks ∧
          (IntervalIndex.mk [⟨0, [1, 2]⟩, ⟨5, [3]⟩] 6).r = pre ++ chunks ++ post ∧
          ∀ m, m ∈ (IntervalIndex.mk [⟨0, [1, 2]⟩, ⟨5, [3]⟩] 6).r → m.Meets 1 6 → m ∈ chunks :=
  ⟨by decide, by decide, Overlays_complete _ 1 6 (by decide) (by decide)⟩

/-! ## The overlay pass of `Read` -/

theorem getElem?_patch (buf src : List Byte) (a : Nat) (h : a + src.length ≤ buf.length)
    (j : Nat) :
    (buf.take a ++ src ++ buf.drop (a + src.length))[j]? =
      if a ≤ j ∧ j < a + src.length then src[j - a]? else buf[j]? := by
  have hla : (buf.take a).length = a := by
    rw [List.length_take]; omega
  by_cases h1 : j < a
  · have c : ¬ (a ≤ j ∧ j < a + src.length) := by omega
    rw [if_neg c, List.append_assoc, List.getElem?_append_left (by omega),
      List.getElem?_take_of_lt h1]
  · by_cases h2 : j < a + src.length
    · have c : a ≤ j ∧ j < a + src.length := ⟨by omega, h2⟩
      rw [if_pos c, List.append_assoc, List.getElem?_append_right (by omega), hla,
        List.getElem?_append_left (by omega)]
    · have c : ¬ (a ≤ j ∧ j < a + src.length) := by omega
      rw [if_neg c, List.getElem?_append_right (by simp [hla]; omega)]
      simp only [List.length_append, hla, List.getElem?_drop]
      congr 1
      omega

theorem length_patch (buf src : List Byte) (a : Nat) (h : a + src.length ≤ buf.length) :
    (buf.take a ++ src ++ buf.drop (a + src.length)).length = buf.length := by
  simp only [List.length_append, List.length_take, List.length_drop]
  omega

/-- One overlay step, for a chunk that reaches into or touches the window
`[pos, pos + len(buf))`: no panic, the buffer keeps its length, exactly the
offsets of the chunk inside the window are overwritten with the chunk's bytes,
and `n` is raised to the end of the chunk (cut off at the end of the window). -/
theorem overlayChunk_spec (pos : Int) (buf : List Byte) (n : Int) (c : Modification)
    (h1 : pos ≤ c.Range.2) (h2 : c.Range.1 ≤ pos + (buf.length : Int)) :
    ∃ buf1, overlayChunk pos (buf, n) c
        = some (buf1, Max.max n (Min.min c.Range.2 (pos + (buf.length : Int)) - pos)) ∧
      buf1.length = buf.length ∧
      ∀ j, j < buf.length → buf1[j]? = (c.byteAt (pos + (j : Int))).or buf[j]? := by
  have hr := Range_le c
  simp only [Modification.Range] at h1 h2 hr
  unfold overlayChunk
  simp only [max_eq, min_eq, Modification.Range]
  obtain ⟨A, hA, hA1, hA2, hA3⟩ : ∃ A, Max.max c.offset pos = A ∧ pos ≤ A ∧ c.offset ≤ A ∧
      (A = pos ∨ A = c.offset) :=
    ⟨_, rfl, le_max_right _ _, le_max_left _ _, by
      rcases le_total c.offset pos with h | h
      · left; exact max_eq_right h
      · right; exact max_eq_left h⟩
  obtain ⟨E, hE, hE1, hE2, hE3⟩ : ∃ E, Min.min (c.offset + (c.data.length : Int))
      (pos + (buf.length : Int)) = E ∧ E ≤ c.offset + (c.data.length : Int) ∧
      E ≤ pos + (buf.length : Int) ∧
      (E = c.offset + (c.data.length : Int) ∨ E = pos + (buf.length : Int)) :=
    ⟨_, rfl, min_le_left _ _, min_le_right _ _, by
      rcases le_total (c.offset + (c.data.length : Int)) (pos + (buf.length : Int)) with h | h
      · left; exact min_eq_left h
      · right; exact min_eq_right h⟩
  rw [hA, hE]
  have hov : ¬ (E - A < 0) := by omega
  rw [if_neg hov]
  obtain ⟨bufLo, hbufLo⟩ : ∃ k : Nat, A - pos = (k : Int) := ⟨(A - pos).toNat, by omega⟩
  obtain ⟨ov, hovn⟩ : ∃ k : Nat, E - A = (k : Int) := ⟨(E - A).toNat, by omega⟩
  obtain ⟨chunkLo, hchunkLo⟩ : ∃ k : Nat, A - c.offset = (k : Int) :=
    ⟨(A - c.offset).toNat, by omega⟩
  have e1 : (A - pos).toNat = bufLo := by omega
  have e2 : (E - A).toNat = ov := by omega
  have e3 : (A - pos + (E - A)).toNat = bufLo + ov := by omega
  have e4 : (A - c.offset).toNat = chunkLo := by omega
  rw [e1, e2, e3, e4]
  have hsrc : ((c.data.drop chunkLo).take ov).length = ov := by
    rw [List.length_take, List.length_drop]; omega
  have hfit : bufLo + ((c.data.drop chunkLo).take ov).length ≤ buf.length := by
    rw [hsrc]; omega
  have hp := getElem?_patch buf ((c.data.drop chunkLo).take ov) bufLo hfit
  have hl := length_patch buf ((c.data.drop chunkLo).take ov) bufLo hfit
  rw [hsrc] at hp hl
  refine ⟨_, ?_, hl, ?_⟩
  · congr 2
    have e5 : A - pos + (E - A) = E - pos := by omega
    rw [e5]
    rcases le_total n (E - pos) with h | h
    · rw [max_eq_right h]
      by_cases h3 : n < E - pos
      · rw [if_pos h3]
      · rw [if_neg (by omega)]; omega
    · rw [max_eq_left h, if_neg (by omega)]
  · intro j hj
    rw [hp j]
    unfold Modification.byteAt
    simp only [Modification.Range]
    by_cases hin : bufLo ≤ j ∧ j < bufLo + ov
    · have hin2 : c.offset ≤ pos + (j : Int) ∧ pos + (j : Int) < c.offset + (c.data.length : Int) := by
        omega
      rw [if_pos hin, if_pos hin2]
      have hlt : j - bufLo < ov := by omega
      rw [List.getElem?_take_of_lt hlt, List.getElem?_drop]
      have e : (pos + (j : Int) - c.offset).toNat = chunkLo + (j - bufLo) := by omega
      rw [e]
      have hlt2 : chunkLo + (j - bufLo) < c.data.length := by omega
      rw [List.getElem?_eq_getElem hlt2]
      rfl
    · have hin2 : ¬ (c.offset ≤ pos + (j : Int) ∧ pos + (j : Int) < c.offset + (c.data.length : Int)) := by
        omega
      rw [if_neg hin, if_neg hin2]
      rfl

theorem byteAt_range {c : Modification} {x : Int} {v : Byte} (h : c.byteAt x = some v) :
    c.Range.1 ≤ x ∧ x < c.Range.2 := by
  unfold Modification.byteAt at h
  by_cases hc : c.Range.1 ≤ x ∧ x < c.Range.2
  · exact hc
  · rw [if_neg hc] at h; cases h

theorem byteAt_none_of_lt {c : Modification} {x : Int} (h : x < c.Range.1) :
    c.byteAt x = none := by
  unfold Modification.byteAt
  rw [if_neg (by omega)]

theorem byteAt_none_of_ge {c : Modification} {x : Int} (h : c.Range.2 ≤ x) :
    c.byteAt x = none := by
  unfold Modification.byteAt
  rw [if_neg (by omega)]

theorem byteAt_isSome {c : Modification} {x : Int} (h1 : c.Range.1 ≤ x) (h2 : x < c.Range.2) :
    c.byteAt x = some (c.data.getD (x - c.offset).toNat 0) := by
  unfold Modification.byteAt
  rw [if_pos ⟨h1, h2⟩]
  simp only [Modification.Range] at h1 h2
  have : (x - c.offset).toNat < c.data.length := by omega
  rw [List.getElem?_eq_getElem this, List.getD_eq_getElem?_getD, List.getElem?_eq_getElem this]
  rfl

/-- No interval of a list lying wholly at or after `x` holds a byte for an
offset below `x`. -/
theorem findSome?_byteAt_none_of_lt {rest : List Modification} {x y : Int}
    (h : ∀ r ∈ rest, y ≤ r.Range.1) (hxy : x < y) :
    rest.findSome? (fun c => c.byteAt x) = none := by
  rw [List.findSome?_eq_none_iff]
  intro r hr
  exact byteAt_none_of_lt (by have := h r hr; omega)

/-- No interval of a list ending at or before `x` holds a byte for `x`. -/
theorem findSome?_byteAt_none_of_ge {rest : List Modification} {x : Int}
    (h : ∀ r ∈ rest, r.Range.2 ≤ x) :
    rest.findSome? (fun c => c.byteAt x) = none := by
  rw [List.findSome?_eq_none_iff]
  intro r hr
  exact byteAt_none_of_ge (h r hr)

/-- The overlay loop over a sorted, disjoint run of chunks each of which reaches
into or touches the window: no panic; afterwards every offset of the window
holds the byte of the chunk covering it, or else what the buffer held before;
`n` ends up as the largest of its start value and the chunk ends. -/
theorem overlayChunks_spec (pos : Int) (chunks : List Modification) :
    ∀ (buf : List Byte) (n : Int), chunks.Pairwise Before →
      (∀ c ∈ chunks, pos ≤ c.Range.2 ∧ c.Range.1 ≤ pos + (buf.length : Int)) →
      ∃ buf1 n1, overlayChunks pos chunks (buf, n) = some (buf1, n1) ∧
        buf1.length = buf.length ∧
        (∀ j, j < buf.length →
          buf1[j]? = (chunks.findSome? (fun c => c.byteAt (pos + (j : Int)))).or buf[j]?) ∧
        n ≤ n1 ∧
        (∀ c ∈ chunks, Min.min c.Range.2 (pos + (buf.length : Int)) - pos ≤ n1) ∧
        (n1 = n ∨ ∃ c ∈ chunks, n1 = Min.min c.Range.2 (pos + (buf.length : Int)) - pos) := by
  induction chunks with
  | nil =>
    intro buf n _ _
    exact ⟨buf, n, rfl, rfl, by intro j _; simp, le_refl _, by simp, Or.inl rfl⟩
  | cons c rest ih =>
    intro buf n hp ht
    rw [List.pairwise_cons] at hp
    obtain ⟨hc, hrest⟩ := hp
    obtain ⟨t1, t2⟩ := ht c (List.mem_cons_self _ _)
    obtain ⟨buf1, hstep, hlen, hbytes⟩ := overlayChunk_spec pos buf n c t1 t2
    have ht' : ∀ d ∈ rest, pos ≤ d.Range.2 ∧ d.Range.1 ≤ pos + (buf1.length : Int) := by
      intro d hd
      rw [hlen]
      exact ht d (List.mem_cons_of_mem _ hd)
    obtain ⟨buf2, n2, hrun, hlen2, hbytes2, hn2, hall2, hex2⟩ :=
      ih buf1 (Max.max n (Min.min c.Range.2 (pos + (buf.length : Int)) - pos)) hrest ht'
    refine ⟨buf2, n2, ?_, by rw [hlen2, hlen], ?_, ?_, ?_, ?_⟩
    · simp only [overlayChunks, hstep]
      exact hrun
    · intro j hj
      rw [hbytes2 j (by rw [hlen]; exact hj), hbytes j hj, List.findSome?_cons]
      cases hb : c.byteAt (pos + (j : Int)) with
      | none => simp
      | some v =>
        have hr := byteAt_range hb
        have hnone : rest.findSome? (fun c => c.byteAt (pos + (j : Int))) = none :=
          findSome?_byteAt_none_of_lt (fun r hr2 => hc r hr2) hr.2
        simp [hnone]
    · exact le_trans (le_max_left _ _) hn2
    · intro d hd
      rcases List.mem_cons.mp hd with rfl | hd
      · exact le_trans (le_max_right _ _) hn2
      · have := hall2 d hd
        rw [hlen] at this
        exact this
    · rcases hex2 with h | ⟨d, hd, h⟩
      · rcases le_total n (Min.min c.Range.2 (pos + (buf.length : Int)) - pos) with h3 | h3
        · right
          exact ⟨c, List.mem_cons_self _ _, by rw [h, max_eq_right h3]⟩
        · left
          rw [h, max_eq_left h3]
      · right
        exact ⟨d, List.mem_cons_of_mem _ hd, by rw [h, hlen]⟩

/-! ## Splitting a sorted index at the two search results -/

theorem mem_take_idxHi {r : List Modification} (h : r.Pairwise Before) {x : Int}
    {c : Modification} (hc : c ∈ r.take (idxHi r x)) : c.Range.2 < x := by
  obtain ⟨k, hk, rfl⟩ := List.mem_take_iff_getElem.mp hc
  have hk2 : k < idxHi r x ∧ k < r.length := by omega
  have := (Search_hi h x).2.1 k hk2.1
  rwa [elemAt_eq r k hk2.2] at this

theorem mem_drop_idxHi {r : List Modification} (h : r.Pairwise Before) {x : Int}
    {c : Modification} (hc : c ∈ r.drop (idxHi r x)) : x ≤ c.Range.2 := by
  obtain ⟨k, hk, rfl⟩ := List.mem_drop_iff_getElem.mp hc
  have := (Search_hi h x).2.2 (idxHi r x + k) (by omega) (by omega)
  rwa [elemAt_eq r _ (by omega)] at this

theorem mem_take_idxLo {r : List Modification} (h : r.Pairwise Before) {x : Int}
    {c : Modification} (hc : c ∈ r.take (idxLo r x)) : c.Range.1 < x := by
  obtain ⟨k, hk, rfl⟩ := List.mem_take_iff_getElem.mp hc
  have hk2 : k < idxLo r x ∧ k < r.length := by omega
  have := (Search_lo h x).2.1 k hk2.1
  rwa [elemAt_eq r k hk2.2] at this

theorem mem_drop_idxLo {r : List Modification} (h : r.Pairwise Before) {x : Int}
    {c : Modification} (hc : c ∈ r.drop (idxLo r x)) : x ≤ c.Range.1 := by
  obtain ⟨k, hk, rfl⟩ := List.mem_drop_iff_getElem.mp hc
  have := (Search_lo h x).2.2 (idxLo r x + k) (by omega) (by omega)
  rwa [elemAt_eq r _ (by omega)] at this

/-- A sorted list is the intervals ending before `x`, then those touching or
meeting `[x, y)`, then those beginning at or after `y`. -/
theorem split_three {r : List Modification} (h : r.Pairwise Before) {x y : Int} (hxy : x ≤ y) :
    r = r.take (idxHi r x) ++ (r.take (idxLo r y)).drop (idxHi r x) ++ r.drop (idxLo r y) := by
  have hle := Search_hi_le_lo h hxy
  have e1 : r.take (idxHi r x) = (r.take (idxLo r y)).take (idxHi r x) := by
    rw [List.take_take, Nat.min_eq_left hle]
  rw [e1, List.take_append_drop, List.take_append_drop]

theorem mem_mid {r : List Modification} (h : r.Pairwise Before) {x y : Int}
    {c : Modification} (hc : c ∈ (r.take (idxLo r y)).drop (idxHi r x)) :
    c ∈ r ∧ x ≤ c.Range.2 ∧ c.Range.1 < y := by
  have h1 : c ∈ r.take (idxLo r y) := List.mem_of_mem_drop hc
  refine ⟨List.mem_of_mem_take h1, ?_, mem_take_idxLo h h1⟩
  rw [List.drop_take] at hc
  exact mem_drop_idxHi h (List.mem_of_mem_take hc)

theorem mem_mid_of {r : List Modification} (h : r.Pairwise Before) {x y : Int} (hxy : x ≤ y)
    {c : Modification} (hc : c ∈ r) (h1 : x ≤ c.Range.2) (h2 : c.Range.1 < y) :
    c ∈ (r.take (idxLo r y)).drop (idxHi r x) := by
  have hs := split_three h hxy
  rw [hs] at hc
  rcases List.mem_append.mp hc with hc | hc
  · rcases List.mem_append.mp hc with hc | hc
    · have := mem_take_idxHi h hc; omega
    · exact hc
  · have := mem_drop_idxLo h hc; omega

/-- The overlay pass of `Read` on a sorted, disjoint index: `Overlays` and the
copy loop do not panic; afterwards each offset of the window holds the byte the
index stores for it, or else what the buffer held before; `n` ends up as the
largest of its start value and the ends (cut off at the window's end) of the
stored intervals that touch or meet the window. -/
theorem index_overlay (ivl : IntervalIndex) (hd : ivl.Disjoint) (pos : Int) (b : List Byte)
    (n0 : Int) :
    ∃ chunks buf1 n1, ivl.Overlays pos (pos + (b.length : Int)) = some chunks ∧
      overlayChunks pos chunks (b, n0) = some (buf1, n1) ∧
      buf1.length = b.length ∧
      (∀ j, j < b.length → buf1[j]? = (ivl.byteAt (pos + (j : Int))).or b[j]?) ∧
      n0 ≤ n1 ∧
      (∀ c ∈ ivl.r, pos ≤ c.Range.2 → c.Range.1 < pos + (b.length : Int) →
        Min.min c.Range.2 (pos + (b.length : Int)) - pos ≤ n1) ∧
      (n1 = n0 ∨ ∃ c ∈ ivl.r, pos ≤ c.Range.2 ∧ c.Range.1 < pos + (b.length : Int) ∧
        n1 = Min.min c.Range.2 (pos + (b.length : Int)) - pos) := by
  have hp := Disjoint.pairwise hd
  have hxy : pos ≤ pos + (b.length : Int) := by omega
  have hle := Search_hi_le_lo hp hxy
  have hpm : ((ivl.r.take (idxLo ivl.r (pos + (b.length : Int)))).drop (idxHi ivl.r pos)).Pairwise
      Before := (hp.take).drop
  obtain ⟨buf1, n1, hrun, hlen, hbytes, hn, hall, hex⟩ :=
    overlayChunks_spec pos _ b n0 hpm (by
      intro c hc
      have := mem_mid hp hc
      exact ⟨this.2.1, le_of_lt this.2.2⟩)
  refine ⟨_, buf1, n1, by rw [Overlays_eq, if_pos hle], hrun, hlen, ?_, hn, ?_, ?_⟩
  · intro j hj
    rw [hbytes j hj]
    congr 1
    unfold IntervalIndex.byteAt
    conv_rhs => rw [split_three hp hxy]
    rw [List.findSome?_append, List.findSome?_append]
    have hpre : (ivl.r.take (idxHi ivl.r pos)).findSome? (fun c => c.byteAt (pos + (j : Int)))
        = none :=
      findSome?_byteAt_none_of_ge (fun c hc => by have := mem_take_idxHi hp hc; omega)
    have hpost : (ivl.r.drop (idxLo ivl.r (pos + (b.length : Int)))).findSome?
        (fun c => c.byteAt (pos + (j : Int))) = none :=
      findSome?_byteAt_none_of_lt (fun c hc => mem_drop_idxLo hp hc) (by omega)
    rw [hpre, hpost]
    simp
  · intro c hc h1 h2
    exact hall c (mem_mid_of hp hxy hc h1 h2)
  · rcases hex with h | ⟨c, hc, h⟩
    · exact Or.inl h
    · have := mem_mid hp hc
      exact Or.inr ⟨c, this.1, this.2.1, this.2.2, h⟩

/-! ## `Layer.Read` -/

theorem Read_eq (l : Layer) (buf : List Byte) :
    l.Read buf =
      if l.limit ≥ 0 ∧ l.limit - l.pos ≤ 0 then some ⟨l, buf, 0, some IOError.EOF⟩
      else
        match (if l.extending buf then none else (l.r.Read (buf.take (l.window buf))).2.2.2) with
        | some e => some ⟨{ l with r := (l.r.Read (buf.take (l.window buf))).1 },
            l.baseFill buf ++ buf.drop (l.window buf), 0, some e⟩
        | none =>
          match l.index.Overlays l.pos (l.pos + (l.window buf : Int)) with
          | none => none
          | some chunks =>
            match overlayChunks l.pos chunks
                (l.baseFill buf, (l.r.Read (buf.take (l.window buf))).2.2.1) with
            | none => none
            | some out =>
              some ⟨{ l with r := (l.r.Read (buf.take (l.window buf))).1, pos := l.pos + out.2 },
                out.1 ++ buf.drop (l.window buf), out.2, none⟩ := rfl

theorem window_le (l : Layer) (buf : List Byte) : l.window buf ≤ buf.length := by
  unfold Layer.window
  split <;> omega

theorem Reader_Read_eof (r : Reader) (b : List Byte) (h : r.s.length ≤ r.i) :
    r.Read b = (r, b, 0, some IOError.EOF) := by
  unfold Reader.Read
  rw [if_pos h]

theorem Reader_Read_data (r : Reader) (b : List Byte) (h : r.i < r.s.length) :
    r.Read b = (⟨r.s, r.i + Nat.min b.length (r.s.length - r.i)⟩,
      (r.s.drop r.i).take (Nat.min b.length (r.s.length - r.i))
        ++ b.drop (Nat.min b.length (r.s.length - r.i)),
      ((Nat.min b.length (r.s.length - r.i) : Nat) : Int), none) := by
  unfold Reader.Read
  rw [if_neg (by omega)]
  simp only [List.length_drop]

theorem Reader_Read_length (r : Reader) (b : List Byte) : (r.Read b).2.1.length = b.length := by
  by_cases h : r.i < r.s.length
  · rw [Reader_Read_data r b h]
    simp only [List.length_append, List.length_take, List.length_drop]
    have : Nat.min b.length (r.s.length - r.i) ≤ b.length := Nat.min_le_left _ _
    have : Nat.min b.length (r.s.length - r.i) ≤ r.s.length - r.i := Nat.min_le_right _ _
    omega
  · rw [Reader_Read_eof r b (by omega)]

theorem Reader_Read_n (r : Reader) (b : List Byte) :
    0 ≤ (r.Read b).2.2.1 ∧ (r.Read b).2.2.1 ≤ (b.length : Int) := by
  by_cases h : r.i < r.s.length
  · rw [Reader_Read_data r b h]
    have : Nat.min b.length (r.s.length - r.i) ≤ b.length := Nat.min_le_left _ _
    simp only
    omega
  · rw [Reader_Read_eof r b (by omega)]
    simp

theorem baseFill_length (l : Layer) (buf : List Byte) :
    (l.baseFill buf).length = l.window buf := by
  have hw := window_le l buf
  have hl := Reader_Read_length l.r (buf.take (l.window buf))
  have hn := Reader_Read_n l.r (buf.take (l.window buf))
  rw [List.length_take, Nat.min_eq_left hw] at hl hn
  unfold Layer.baseFill
  simp only
  split
  · simp only [List.length_append, List.length_take, List.length_replicate, hl]
    omega
  · exact hl

/-- `Read` on a sorted, disjoint index, when neither the truncation limit has
been reached nor an EOF of the base stream ends the call: no panic and no
error; only the window of the buffer changes; each offset of the window holds
the byte the index stores for it, or else what the base read (and the `'@'`
fill) left there; `n` is the largest of the base stream's `n` and the ends of
the stored intervals that touch or meet the window; `pos` advances by `n`. -/
theorem Read_spec (l : Layer) (buf : List Byte) (hd : l.index.Disjoint)
    (hlim : ¬ (l.limit ≥ 0 ∧ l.limit - l.pos ≤ 0))
    (hgo : (l.r.Read (buf.take (l.window buf))).2.2.2 = none ∨ l.extending buf = true) :
    ∃ res win, l.Read buf = some res ∧ res.err = none ∧
      res.layer = { l with r := (l.r.Read (buf.take (l.window buf))).1, pos := l.pos + res.n } ∧
      res.buf = win ++ buf.drop (l.window buf) ∧ win.length = l.window buf ∧
      (∀ j, j < l.window buf →
        win[j]? = (l.index.byteAt (l.pos + (j : Int))).or (l.baseFill buf)[j]?) ∧
      (l.r.Read (buf.take (l.window buf))).2.2.1 ≤ res.n ∧
      (∀ c ∈ l.index.r, l.pos ≤ c.Range.2 → c.Range.1 < l.pos + (l.window buf : Int) →
        Min.min c.Range.2 (l.pos + (l.window buf : Int)) - l.pos ≤ res.n) ∧
      (res.n = (l.r.Read (buf.take (l.window buf))).2.2.1 ∨
        ∃ c ∈ l.index.r, l.pos ≤ c.Range.2 ∧ c.Range.1 < l.pos + (l.window buf : Int) ∧
          res.n = Min.min c.Range.2 (l.pos + (l.window buf : Int)) - l.pos) := by
  have hbl := baseFill_length l buf
  obtain ⟨chunks, buf1, n1, hov, hrun, hlen, hbytes, hn, hall, hex⟩ :=
    index_overlay l.index hd l.pos (l.baseFill buf) (l.r.Read (buf.take (l.window buf))).2.2.1
  rw [hbl] at hov hlen hbytes hall hex
  have herr : (if l.extending buf then none else (l.r.Read (buf.take (l.window buf))).2.2.2)
      = none := by
    rcases hgo with h | h
    · rw [h]; split <;> rfl
    · rw [h]; rfl
  refine ⟨⟨{ l with r := (l.r.Read (buf.take (l.window buf))).1, pos := l.pos + n1 },
    buf1 ++ buf.drop (l.window buf), n1, none⟩, buf1, ?_, rfl, rfl, rfl, hlen, hbytes, hn, hall, hex⟩
  rw [Read_eq, if_neg hlim, herr]
  simp only [hov, hrun]

/-! ## Reading past the end of the base stream -/

/-- In a sorted, disjoint list the byte stored for an offset is the byte of any
stored interval whose range contains the offset. -/
theorem findSome?_byteAt_of_mem {r : List Modification} (h : r.Pairwise Before)
    {o : Modification} (ho : o ∈ r) {x : Int} (h1 : o.Range.1 ≤ x) (h2 : x < o.Range.2) :
    r.findSome? (fun c => c.byteAt x) = o.byteAt x := by
  induction r with
  | nil => cases ho
  | cons c rest ih =>
    rw [List.pairwise_cons] at h
    rw [List.findSome?_cons]
    rcases List.mem_cons.mp ho with rfl | ho
    · rw [byteAt_isSome h1 h2]
    · have hb : Before c o := h.1 o ho
      unfold Before at hb
      rw [byteAt_none_of_ge (by omega)]
      exact ih h.2 ho

theorem byteAt_of_mem {ivl : IntervalIndex} (hd : ivl.Disjoint)
    {o : Modification} (ho : o ∈ ivl.r) {x : Int} (h1 : o.Range.1 ≤ x) (h2 : x < o.Range.2) :
    ivl.byteAt x = some (o.data.getD (x - o.offset).toNat 0) := by
  unfold IntervalIndex.byteAt
  rw [findSome?_byteAt_of_mem (Disjoint.pairwise hd) ho h1 h2, byteAt_isSome h1 h2]

theorem byteAt_mem {ivl : IntervalIndex} {x : Int} {v : Byte} (h : ivl.byteAt x = some v) :
    ∃ o ∈ ivl.r, o.Range.1 ≤ x ∧ x < o.Range.2 := by
  unfold IntervalIndex.byteAt at h
  obtain ⟨o, ho, hv⟩ := List.exists_of_findSome?_eq_some h
  exact ⟨o, ho, byteAt_range hv⟩



theorem window_of_no_limit (l : Layer) (buf : List Byte) (h : l.limit < 0) :
    l.window buf = buf.length := by
  unfold Layer.window
  rw [if_neg (by omega)]

/-- C10 (amended): truncation disabled, index sorted and disjoint with `Max` at
least every stored end, base stream exhausted (its read returns EOF), and a
stored interval `o` that begins at or before `pos` and ends at `pos + k`,
`k ≥ 1`.  Then `Read` into a buffer of `m ≥ 1` bytes returns no error and at
least `min(m, k)` bytes, the first `min(m, k)` of which are the bytes of `o`
starting at `pos`; it returns exactly `min(m, k)` bytes when no stored interval
that begins below `pos + m` ends beyond `pos + k`. -/
theorem Read_past_base_EOF (l : Layer) (buf : List Byte) (o : Modification) (k : Nat)
    (hlimit : l.limit < 0) (hd : l.index.Disjoint)
    (hmax : ∀ c ∈ l.index.r, c.Range.2 ≤ l.index.Max)
    (hbase : l.r.s.length ≤ l.r.i)
    (ho : o ∈ l.index.r) (hlo : o.Range.1 ≤ l.pos) (hhi : o.Range.2 = l.pos + (k : Int))
    (hk : 1 ≤ k) (hm : 1 ≤ buf.length) :
    ∃ res, l.Read buf = some res ∧ res.err = none ∧
      ((Min.min buf.length k : Nat) : Int) ≤ res.n ∧
      res.buf.take (Min.min buf.length k)
        = (o.data.drop (l.pos - o.offset).toNat).take (Min.min buf.length k) ∧
      ((∀ c ∈ l.index.r, c.Range.1 < l.pos + (buf.length : Int) → c.Range.2 ≤ o.Range.2) →
        res.n = ((Min.min buf.length k : Nat) : Int)) := by
  have hw := window_of_no_limit l buf hlimit
  have hbr : l.r.Read (buf.take (l.window buf)) = (l.r, buf.take (l.window buf), 0, some IOError.EOF) :=
    Reader_Read_eof _ _ hbase
  have hMax := hmax o ho
  have hext : l.extending buf = true := by
    unfold Layer.extending
    rw [hbr]
    simp only [decide_eq_true_eq, true_and]
    omega
  obtain ⟨res, win, hread, herr, _, hbuf, hwl, hbytes, hn0, hall, hex⟩ :=
    Read_spec l buf hd (by omega) (Or.inr hext)
  rw [hbr] at hn0 hex
  rw [hw] at hbuf hwl hbytes hall hex
  have hmin1 : Min.min buf.length k ≤ buf.length := min_le_left _ _
  have hmin2 : Min.min buf.length k ≤ k := min_le_right _ _
  have hmin3 : Min.min buf.length k = buf.length ∨ Min.min buf.length k = k := by
    rcases Nat.le_total buf.length k with h | h
    · left; exact min_eq_left h
    · right; exact min_eq_right h
  have hcand : Min.min o.Range.2 (l.pos + (buf.length : Int)) - l.pos
      = ((Min.min buf.length k : Nat) : Int) := by
    rw [hhi]
    rcases Nat.le_total buf.length k with h | h
    · rw [min_eq_left h, min_eq_right (by omega)]; omega
    · rw [min_eq_right h, min_eq_left (by omega)]; omega
  have hor := Range_le o
  simp only [Modification.Range] at hlo hhi hor
  refine ⟨res, hread, herr, ?_, ?_, ?_⟩
  · have := hall o ho (by omega) (by simp only [Modification.Range]; omega)
    rw [hcand] at this
    exact this
  · apply List.ext_getElem?
    intro j
    by_cases hj : j < Min.min buf.length k
    · rw [List.getElem?_take_of_lt hj, List.getElem?_take_of_lt hj, hbuf,
        List.drop_length, List.append_nil, hbytes j (by omega),
        byteAt_of_mem hd ho (by simp only [Modification.Range]; omega)
          (by simp only [Modification.Range]; omega), List.getElem?_drop]
      have hlt : (l.pos - o.offset).toNat + j < o.data.length := by omega
      have e : (l.pos + (j : Int) - o.offset).toNat = (l.pos - o.offset).toNat + j := by omega
      rw [e, List.getD_eq_getElem?_getD, List.getElem?_eq_getElem hlt]
      rfl
    · rw [List.getElem?_eq_none (by rw [List.length_take]; omega),
        List.getElem?_eq_none (by rw [List.length_take]; omega)]
  · intro hlast
    rcases hex with h | ⟨c, hc, hc1, hc2, h⟩
    · have := hall o ho (by omega) (by simp only [Modification.Range]; omega)
      rw [hcand] at this
      simp only at h
      omega
    · have h3 := hlast c hc hc2
      have h4 := hall o ho (by omega) (by simp only [Modification.Range]; omega)
      rw [hcand] at h4
      have h5 : Min.min c.Range.2 (l.pos + (buf.length : Int)) - l.pos
          ≤ Min.min o.Range.2 (l.pos + (buf.length : Int)) - l.pos := by
        have := min_le_min_right (l.pos + (buf.length : Int)) h3
        omega
      rw [hcand] at h5
      omega

/-- C10 (as stated, refuted): with an empty base, the intervals `[0,2)` and
`[5,8)` stored and `pos = 0`, a `Read` into 10 bytes returns 8 bytes (two from
the first interval, three `'@'`, three from the second interval), not
`min(10, 2) = 2`. -/
theorem Read_past_base_EOF_runs_on :
    (((NewLayer ⟨[], 0⟩).run
        [Op.Write [65, 65], Op.Seek 5 SEEK_SET, Op.Write [66, 66, 66], Op.Seek 0 SEEK_SET]).Read
        (List.replicate 10 0)).map (fun res => (res.n, res.err, res.buf.take 8))
      = some (8, none, [65, 65, 64, 64, 64, 66, 66, 66])
    ∧ ((NewLayer ⟨[], 0⟩).run
        [Op.Write [65, 65], Op.Seek 5 SEEK_SET, Op.Write [66, 66, 66], Op.Seek 0 SEEK_SET])
      = ⟨⟨[⟨0, [65, 65]⟩, ⟨5, [66, 66, 66]⟩], 8⟩, ⟨[], 0⟩, 0, -1⟩
    ∧ (8 : Int) ≠ Min.min 10 2 := by
  decide

theorem Read_past_base_EOF_witness :
    ∃ res, (Layer.mk ⟨[⟨0, [65, 65]⟩, ⟨5, [66, 66, 66]⟩], 8⟩ ⟨[], 0⟩ 0 (-1)).Read [0, 0, 0] = some res ∧
      res.err = none ∧ ((Min.min 3 2 : Nat) : Int) ≤ res.n ∧
      res.buf.take ((Min.min 3 2 : Nat)) = [65, 65] ∧
      ((∀ c ∈ [(⟨0, [65, 65]⟩ : Modification), ⟨5, [66, 66, 66]⟩],
          c.Range.1 < (0 : Int) + 3 → c.Range.2 ≤ (2 : Int)) → res.n = ((Min.min 3 2 : Nat) : Int)) :=
  Read_past_base_EOF (Layer.mk ⟨[⟨0, [65, 65]⟩, ⟨5, [66, 66, 66]⟩], 8⟩ ⟨[], 0⟩ 0 (-1)) [0, 0, 0]
    ⟨0, [65, 65]⟩ 2 (by decide) (by decide) (by decide) (by decide) (by decide) (by decide)
    (by decide) (by decide) (by decide)

/-! ## Reading after a write -/

theorem Add_empty (M : Int) (n : Modification) :
    IntervalIndex.Add ⟨[], M⟩ n = ⟨[n], n.Range.2⟩ := by
  rw [Add_eq]; simp

theorem Disjoint_single (o : Modification) (M : Int) : (IntervalIndex.mk [o] M).Disjoint := by
  simp [IntervalIndex.Disjoint, adjacent]

theorem byteAt_single (o : Modification) (M : Int) (x : Int) :
    (IntervalIndex.mk [o] M).byteAt x = o.byteAt x := by
  simp [IntervalIndex.byteAt, List.findSome?_cons]
  cases o.byteAt x <;> rfl

/-- The layer after `Seek(p, SEEK_SET)`, `Write(w)`, `Seek(0, SEEK_SET)` on a
fresh layer over `B`. -/
theorem run_seek_write_seek (B w : List Byte) (p : Int) (hp : 0 ≤ p) :
    (NewLayer ⟨B, 0⟩).run [Op.Seek p SEEK_SET, Op.Write w, Op.Seek 0 SEEK_SET]
      = ⟨⟨[⟨p, w⟩], p + (w.length : Int)⟩, ⟨B, 0⟩, 0, -1⟩ := by
  have hp2 : ¬ p < 0 := by omega
  simp [Layer.run, Layer.step, NewLayer, Layer.Seek, Layer.Write, Reader.Seek, SEEK_SET,
    SEEK_CUR, SEEK_END, IntervalIndex.empty, Add_empty, Modification.Range, hp2]

/-- A write over the base, on the bytes (a `Write` buffer that nothing else
refers to): on a fresh layer over `B`, after `Seek(p, SEEK_SET)`, `Write(w)` and
`Seek(0, SEEK_SET)` with `0 ≤ p` and `p + |w| ≤ |B|`, one `Read` into a buffer
of `|B|` bytes returns `|B|` bytes: `B` with the bytes at `[p, p+|w|)` replaced
by `w`.  (The error is nil unless `B` is empty, where the base reports EOF.) -/
theorem write_over_base (B w buf : List Byte) (p : Int) (hp : 0 ≤ p)
    (hfit : p + (w.length : Int) ≤ (B.length : Int)) (hbuf : buf.length = B.length) :
    ∃ res, ((NewLayer ⟨B, 0⟩).run [Op.Seek p SEEK_SET, Op.Write w, Op.Seek 0 SEEK_SET]).Read buf
        = some res ∧
      res.n = (B.length : Int) ∧
      res.buf = B.take p.toNat ++ w ++ B.drop (p.toNat + w.length) ∧
      res.err = if B = [] then some IOError.EOF else none := by
  rw [run_seek_write_seek B w p hp]
  by_cases hB : B = []
  · subst hB
    have hb : buf = [] := List.length_eq_zero.mp hbuf
    have hw : w = [] := by
      simp only [List.length_nil] at hfit
      exact List.length_eq_zero.mp (by omega)
    subst hb hw
    have hp0 : p = 0 := by simp only [List.length_nil] at hfit; omega
    subst hp0
    exact ⟨⟨⟨⟨[⟨0, []⟩], 0⟩, ⟨[], 0⟩, 0, -1⟩, [], 0, some IOError.EOF⟩, by decide, by decide,
      by decide, by decide⟩
  · have hBpos : 0 < B.length := List.length_pos.mpr hB
    let l : Layer := ⟨⟨[⟨p, w⟩], p + (w.length : Int)⟩, ⟨B, 0⟩, 0, -1⟩
    have hwin : l.window buf = buf.length := window_of_no_limit l buf (by show (-1 : Int) < 0; decide)
    have hbr : l.r.Read (buf.take (l.window buf)) = (⟨B, B.length⟩, B, (B.length : Int), none) := by
      rw [hwin, List.take_length, Reader_Read_data _ _ (by exact hBpos)]
      simp only [l, hbuf, Nat.sub_zero, Nat.min_self, List.drop_zero, List.take_length,
        Nat.zero_add]
      rw [List.drop_of_length_le (by omega), List.append_nil]
    have hfill : l.baseFill buf = B := by
      unfold Layer.baseFill Layer.extending
      rw [hbr]
      simp
    obtain ⟨res, win, hread, herr, _, hrb, hwl, hbytes, hn0, hall, hex⟩ :=
      Read_spec l buf (Disjoint_single _ _) (by show ¬ ((-1 : Int) ≥ 0 ∧ _); omega)
        (Or.inl (by rw [hbr]))
    rw [hbr] at hn0 hex
    rw [hwin] at hrb hwl hbytes hall hex
    rw [hfill] at hbytes
    rw [List.drop_length, List.append_nil] at hrb
    refine ⟨res, hread, ?_, ?_, by rw [if_neg hB]; exact herr⟩
    · rcases hex with h | ⟨c, _, _, _, h⟩
      · exact h
      · have : Min.min c.Range.2 (l.pos + (buf.length : Int)) - l.pos ≤ (B.length : Int) := by
          have := min_le_right c.Range.2 (l.pos + (buf.length : Int))
          simp only [l] at this ⊢
          omega
        simp only at hn0
        omega
    · rw [hrb]
      apply List.ext_getElem?
      intro j
      have hfit2 : p.toNat + w.length ≤ B.length := by omega
      rw [getElem?_patch B w p.toNat hfit2 j]
      by_cases hj : j < buf.length
      · rw [hbytes j hj, byteAt_single]
        simp only [l, Int.zero_add]
        unfold Modification.byteAt
        simp only [Modification.Range]
        by_cases hin : p.toNat ≤ j ∧ j < p.toNat + w.length
        · rw [if_pos hin, if_pos (by omega)]
          have e : ((j : Int) - p).toNat = j - p.toNat := by omega
          rw [e]
          have hlt : j - p.toNat < w.length := by omega
          rw [List.getElem?_eq_getElem hlt]
          rfl
        · rw [if_neg hin, if_neg (by omega)]
          rfl
      · rw [List.getElem?_eq_none (by omega), if_neg (by omega),
          List.getElem?_eq_none (by omega)]

theorem write_over_base_witness :
    ∃ res, ((NewLayer ⟨[48, 48, 48, 48, 48, 48, 48, 48, 48, 48, 49, 49, 49, 49, 49, 49, 49, 49, 49, 49],
          0⟩).run [Op.Seek 5 SEEK_SET, Op.Write [88, 88, 88, 88, 88], Op.Seek 0 SEEK_SET]).Read
          (List.replicate 20 0) = some res ∧
      res.n = 20 ∧
      res.buf = [48, 48, 48, 48, 48, 88, 88, 88, 88, 88, 49, 49, 49, 49, 49, 49, 49, 49, 49, 49] ∧
      res.err = none :=
  write_over_base [48, 48, 48, 48, 48, 48, 48, 48, 48, 48, 49, 49, 49, 49, 49, 49, 49, 49, 49, 49]
    [88, 88, 88, 88, 88] (List.replicate 20 0) 5 (by decide) (by decide) (by decide)

/-- The layer after `Truncate(0)`, `Seek(0, SEEK_SET)`, `Write(w)`,
`Seek(0, SEEK_SET)` on a fresh layer over `B`. -/
theorem run_truncate_write (B w : List Byte) :
    (NewLayer ⟨B, 0⟩).run
        [Op.Truncate 0, Op.Seek 0 SEEK_SET, Op.Write w, Op.Seek 0 SEEK_SET]
      = ⟨⟨[⟨0, w⟩], (w.length : Int)⟩, ⟨B, 0⟩, 0, (w.length : Int)⟩ := by
  simp [Layer.run, Layer.step, NewLayer, Layer.Seek, Layer.Write, Layer.Truncate, Reader.Seek,
    SEEK_SET, SEEK_CUR, SEEK_END, IntervalIndex.empty, Add_empty, Modification.Range]
  split_ifs <;> omega

/-- One `Read` on a layer whose index holds just `[0, |w|)` and whose limit is
`|w|`, at a position `c` before the limit: whatever the base stream delivers,
the call returns the next `min(m, |w| - c)` bytes of `w`. -/
theorem Read_inside_single (l : Layer) (w buf : List Byte) (c t : Nat)
    (hidx : l.index = ⟨[⟨0, w⟩], (w.length : Int)⟩) (hpos : l.pos = (c : Int))
    (hlimit : l.limit = (w.length : Int)) (hc : c < w.length) (hm : 1 ≤ buf.length)
    (ht : t = Min.min buf.length (w.length - c)) :
    ∃ res, l.Read buf = some res ∧
      res.err = none ∧ res.n = (t : Int) ∧ res.buf.take t = (w.drop c).take t ∧
      ∃ r1, res.layer = Layer.mk ⟨[⟨0, w⟩], (w.length : Int)⟩ r1 ((c + t : Nat) : Int)
        (w.length : Int) := by
  have ht1 : t ≤ buf.length := by rw [ht]; exact min_le_left _ _
  have ht2 : t ≤ w.length - c := by rw [ht]; exact min_le_right _ _
  have ht3 : t = buf.length ∨ t = w.length - c := by
    rw [ht]
    rcases Nat.le_total buf.length (w.length - c) with h | h
    · left; exact min_eq_left h
    · right; exact min_eq_right h
  clear ht
  have hMax : l.index.Max = (w.length : Int) := by rw [hidx]
  have hr : l.index.r = [⟨0, w⟩] := by rw [hidx]
  have hwin : l.window buf = t := by
    unfold Layer.window
    split
    · omega
    · omega
  have hlim : ¬ (l.limit ≥ 0 ∧ l.limit - l.pos ≤ 0) := by omega
  have hgo : (l.r.Read (buf.take (l.window buf))).2.2.2 = none ∨ l.extending buf = true := by
    by_cases hb : l.r.i < l.r.s.length
    · left
      rw [Reader_Read_data _ _ hb]
    · right
      unfold Layer.extending
      rw [Reader_Read_eof _ _ (by omega)]
      simp only [decide_eq_true_eq, true_and]
      omega
  have hn0 := (Reader_Read_n l.r (buf.take (l.window buf))).2
  rw [List.length_take, hwin, Nat.min_eq_left ht1] at hn0
  have hdis : l.index.Disjoint := by rw [hidx]; exact Disjoint_single _ _
  have hcand : Min.min (Modification.Range ⟨0, w⟩).2 (l.pos + (t : Int)) - l.pos = (t : Int) := by
    simp only [Modification.Range]
    have hle : l.pos + (t : Int) ≤ 0 + (w.length : Int) := by omega
    rw [min_eq_right hle]
    omega
  have hin1 : l.pos ≤ (Modification.Range ⟨0, w⟩).2 := by
    simp only [Modification.Range]; omega
  have hin2 : (Modification.Range ⟨0, w⟩).1 < l.pos + (t : Int) := by
    simp only [Modification.Range]; omega
  obtain ⟨res, win, hread, herr, hlayer, hrb, hwl, hbytes, hn, hall, hex⟩ :=
    Read_spec l buf hdis hlim hgo
  rw [hwin] at hrb hwl hbytes hall hex hn
  have hresn : res.n = (t : Int) := by
    have h1 := hall ⟨0, w⟩ (by rw [hr]; exact List.mem_singleton.mpr rfl) hin1 hin2
    rw [hcand] at h1
    rcases hex with h | ⟨o, ho, _, _, h⟩
    · exact le_antisymm (by rw [h]; exact hn0) h1
    · rw [hr] at ho
      rw [List.mem_singleton.mp ho, hcand] at h
      exact h
  clear hex hall
  refine ⟨res, hread, herr, hresn, ?_, ⟨(l.r.Read (buf.take (l.window buf))).1, ?_⟩⟩
  · rw [hrb, List.take_append_of_le_length (by omega), List.take_of_length_le (by omega)]
    apply List.ext_getElem?
    intro j
    by_cases hj : j < t
    · rw [hbytes j hj, hidx, byteAt_single, List.getElem?_take_of_lt hj, List.getElem?_drop,
        byteAt_isSome (by simp only [Modification.Range]; omega)
          (by simp only [Modification.Range]; omega)]
      have e : (l.pos + (j : Int) - (Modification.mk 0 w).offset).toNat = c + j := by
        simp only; omega
      have hlt : c + j < w.length := by omega
      rw [e, List.getD_eq_getElem?_getD, List.getElem?_eq_getElem hlt]
      rfl
    · rw [List.getElem?_eq_none (by omega),
        List.getElem?_eq_none (by rw [List.length_take, List.length_drop]; omega)]
  · rw [hlayer, hresn, hidx, hpos, hlimit]
    congr 1

/-- Reading a layer whose index holds just `[0, |w|)` and whose limit is `|w|`
until EOF delivers the rest of `w`, whatever the base stream holds. -/
theorem readAll_single (w : List Byte) (m : Nat) (hm : 1 ≤ m) :
    ∀ (d fuel : Nat) (r : Reader) (c : Nat), c + d = w.length → d + 1 ≤ fuel →
      (Layer.mk ⟨[⟨0, w⟩], (w.length : Int)⟩ r (c : Int) (w.length : Int)).readAll m fuel
        = some (w.drop c, some IOError.EOF) := by
  intro d
  induction d using Nat.strong_induction_on with
  | _ d ih =>
    intro fuel r c hcd hfuel
    obtain ⟨fuel, rfl⟩ : ∃ f, fuel = f + 1 := ⟨fuel - 1, by omega⟩
    by_cases hd : d = 0
    · have hc : c = w.length := by omega
      subst hc
      simp only [Layer.readAll]
      rw [Read_eq, if_pos (by simp)]
      simp
    · have hc : c < w.length := by omega
      obtain ⟨t, ht⟩ : ∃ t, t = Min.min (List.replicate m (0 : Byte)).length (w.length - c) :=
        ⟨_, rfl⟩
      obtain ⟨res, hread, herr, hn, hbytes, r1, hlayer⟩ :=
        Read_inside_single (Layer.mk ⟨[⟨0, w⟩], (w.length : Int)⟩ r (c : Int) (w.length : Int))
          w (List.replicate m 0) c t rfl rfl rfl hc (by simp; omega) ht
      have ht1 : 1 ≤ t := by
        rw [ht]
        simp only [List.length_replicate]
        exact le_min hm (by omega)
      have ht2 : t ≤ w.length - c := by
        rw [ht]
        exact min_le_right _ _
      clear ht
      simp only [Layer.readAll, hread, herr, hlayer]
      have := ih (d - t) (by omega) fuel r1 (c + t) (by omega) (by omega)
      rw [this]
      simp only [hn, Int.toNat_ofNat, hbytes, Option.some.injEq, Prod.mk.injEq, and_true]
      rw [← List.drop_drop, List.take_append_drop]

/-- Truncate, then write, on the bytes (a `Write` buffer that nothing else
refers to): on a fresh layer over any base `B`, after `Truncate(0)`,
`Seek(0, SEEK_SET)`, `Write(w)` and `Seek(0, SEEK_SET)`, reading until EOF (with
buffers of any size `m ≥ 1`) delivers exactly the bytes of `w` and then EOF. -/
theorem truncate_then_write (B w : List Byte) (m fuel : Nat) (hm : 1 ≤ m)
    (hfuel : w.length + 1 ≤ fuel) :
    ((NewLayer ⟨B, 0⟩).run
        [Op.Truncate 0, Op.Seek 0 SEEK_SET, Op.Write w, Op.Seek 0 SEEK_SET]).readAll m fuel
      = some (w, some IOError.EOF) := by
  rw [run_truncate_write]
  have := readAll_single w m hm w.length fuel ⟨B, 0⟩ 0 (by omega) hfuel
  simpa using this

theorem truncate_then_write_witness :
    ((NewLayer ⟨[48, 49, 50, 51, 52, 53, 54, 55, 56, 57], 0⟩).run
        [Op.Truncate 0, Op.Seek 0 SEEK_SET, Op.Write [65, 66, 67], Op.Seek 0 SEEK_SET]).readAll 10 4
      = some ([65, 66, 67], some IOError.EOF) :=
  truncate_then_write [48, 49, 50, 51, 52, 53, 54, 55, 56, 57] [65, 66, 67] 10 4 (by decide)
    (by decide)

/-! ## `Merge` and `Add` where no stored interval reaches beyond the new one -/

/-- The head branch of `Merge`: the receiver begins inside or right at the end
of `O` and reaches at least as far. -/
theorem Merge_head (N O : Modification)
    (h1 : O.Range.1 < N.Range.1) (h2 : N.Range.1 ≤ O.Range.2) (h3 : O.Range.2 ≤ N.Range.2) :
    N.Merge O = ⟨O.offset, O.data.take (N.Range.1 - O.Range.1).toNat ++ N.data⟩ := by
  unfold Modification.Merge
  have c1 : ¬ (N.Range.1 > O.Range.2 ∨ O.Range.1 > N.Range.2) := by omega
  have c2 : N.Range.1 > O.Range.1 := h1
  have c3 : ¬ N.Range.2 < O.Range.2 := by omega
  simp only [c1, c2, c3, if_true, if_false]

/-- Merging an interval that lies within the receiver's range changes
nothing. -/
theorem Merge_inside (N O : Modification)
    (h1 : N.Range.1 ≤ O.Range.1) (h3 : O.Range.2 ≤ N.Range.2) : N.Merge O = N := by
  unfold Modification.Merge
  have c2 : ¬ N.Range.1 > O.Range.1 := by omega
  have c3 : ¬ N.Range.2 < O.Range.2 := by omega
  simp only [c2, c3, if_false]
  split <;> rfl

theorem foldl_Merge_inside (N : Modification) (l : List Modification)
    (h : ∀ O ∈ l, N.Range.1 ≤ O.Range.1 ∧ O.Range.2 ≤ N.Range.2) :
    l.foldl Modification.Merge N = N := by
  induction l with
  | nil => rfl
  | cons O rest ih =>
    rw [List.foldl_cons, Merge_inside N O (h O (List.mem_cons_self _ _)).1
      (h O (List.mem_cons_self _ _)).2]
    exact ih (fun P hP => h P (List.mem_cons_of_mem _ hP))

/-- The three-way shape of the result of `Add` on a sorted, disjoint list: the
intervals ending before the new one, the merge result, the intervals beginning
at or after the new one's end. -/
theorem Add_split (ivl : IntervalIndex) (n : Modification) (hp : ivl.r.Pairwise Before) :
    (ivl.Add n).r = ivl.r.take (idxHi ivl.r n.Range.1)
      ++ [((ivl.r.take (idxLo ivl.r n.Range.2)).drop (idxHi ivl.r n.Range.1)).foldl
          Modification.Merge n]
      ++ ivl.r.drop (idxLo ivl.r n.Range.2) := by
  have hle := Search_hi_le_lo hp (Range_le n)
  have hb := (Search_lo hp n.Range.2).1
  rw [Add_eq]
  by_cases h0 : ivl.r = []
  · rw [if_pos h0]
    simp [h0]
  · rw [if_neg h0]
    by_cases h1 : idxHi ivl.r n.Range.1 ≥ ivl.r.length
    · rw [if_pos h1]
      have e1 : idxHi ivl.r n.Range.1 = ivl.r.length := by omega
      have e2 : idxLo ivl.r n.Range.2 = ivl.r.length := by omega
      simp [e1, e2]
    · rw [if_neg h1]
      by_cases h2 : idxHi ivl.r n.Range.1 = idxLo ivl.r n.Range.2
      · rw [if_pos h2]
        have e : (ivl.r.take (idxHi ivl.r n.Range.1)).drop (idxHi ivl.r n.Range.1) = [] :=
          List.drop_of_length_le (by rw [List.length_take]; omega)
        simp [insert, ← h2, e]
      · rw [if_neg h2]
        simp only [cut]
        have hlt : idxHi ivl.r n.Range.1 < idxLo ivl.r n.Range.2 := by omega
        rw [List.drop_set_of_lt _ _ (by omega), List.set_eq_take_append_cons_drop,
          if_pos (by omega)]
        congr 1
        rw [List.take_append_eq_append_take, List.length_take,
          Nat.min_eq_left (by omega), List.take_of_length_le (by rw [List.length_take]; omega)]
        simp



theorem byteAt_concat (off : Int) (d1 d2 : List Byte) (x : Int) :
    (Modification.mk off (d1 ++ d2)).byteAt x
      = ((Modification.mk off d1).byteAt x).or
          ((Modification.mk (off + (d1.length : Int)) d2).byteAt x) := by
  unfold Modification.byteAt
  simp only [Modification.Range, List.length_append, Nat.cast_add]
  by_cases h1 : off ≤ x ∧ x < off + (d1.length : Int)
  · have hlt : (x - off).toNat < d1.length := by omega
    rw [if_pos (by omega), if_pos h1, List.getElem?_append_left hlt,
      List.getElem?_eq_getElem hlt]
    rfl
  · rw [if_neg h1]
    by_cases h2 : off + (d1.length : Int) ≤ x ∧ x < off + (d1.length : Int) + (d2.length : Int)
    · rw [if_pos (by omega), if_pos h2, List.getElem?_append_right (by omega)]
      have e : (x - off).toNat - d1.length = (x - (off + (d1.length : Int))).toNat := by omega
      rw [e]
      rfl
    · rw [if_neg (by omega), if_neg h2]
      rfl

theorem byteAt_take (off : Int) (d : List Byte) (k : Nat) (hk : k ≤ d.length) (x : Int) :
    (Modification.mk off (d.take k)).byteAt x
      = if x < off + (k : Int) then (Modification.mk off d).byteAt x else none := by
  unfold Modification.byteAt
  simp only [Modification.Range, List.length_take, Nat.min_eq_left hk]
  by_cases h1 : off ≤ x ∧ x < off + (k : Int)
  · rw [if_pos h1, if_pos h1.2, if_pos (by omega), List.getElem?_take_of_lt (by omega)]
  · rw [if_neg h1]
    by_cases h2 : x < off + (k : Int)
    · rw [if_pos h2, if_neg (by omega)]
    · rw [if_neg h2]

/-- What the merge loop of `Add` leaves in `n` when all merged intervals touch
or meet the new one and none reaches beyond its end: the range ends where `n`
ends and begins at the lower of the two beginnings; every offset holds the byte
of `n`, or else the byte the merged intervals held. -/
theorem foldl_Merge_spec (n : Modification) (mid : List Modification)
    (hpm : mid.Pairwise Before)
    (hm : ∀ O ∈ mid, n.Range.1 ≤ O.Range.2 ∧ O.Range.1 < n.Range.2 ∧ O.Range.2 ≤ n.Range.2) :
    (mid.foldl Modification.Merge n).Range.2 = n.Range.2 ∧
      ((mid.foldl Modification.Merge n).Range.1 = n.Range.1 ∨
        ∃ O ∈ mid, (mid.foldl Modification.Merge n).Range.1 = O.Range.1) ∧
      ∀ x, (mid.foldl Modification.Merge n).byteAt x
        = (n.byteAt x).or (mid.findSome? (fun c => c.byteAt x)) := by
  cases mid with
  | nil =>
    refine ⟨rfl, Or.inl rfl, fun x => ?_⟩
    simp
  | cons O rest =>
    rw [List.pairwise_cons] at hpm
    obtain ⟨hO1, hO2, hO3⟩ := hm O (List.mem_cons_self _ _)
    have hrO := Range_le O
    have hrest : ∀ R ∈ rest, O.Range.2 ≤ R.Range.1 ∧ R.Range.2 ≤ n.Range.2 := by
      intro R hR
      exact ⟨hpm.1 R hR, (hm R (List.mem_cons_of_mem _ hR)).2.2⟩
    by_cases hlo : O.Range.1 < n.Range.1
    · -- the head of `O` is prepended
      have hk : (n.Range.1 - O.Range.1).toNat ≤ O.data.length := by
        simp only [Modification.Range] at *; omega
      have hPr : (Modification.mk O.offset
          (O.data.take (n.Range.1 - O.Range.1).toNat ++ n.data)).Range = (O.Range.1, n.Range.2) := by
        simp only [Modification.Range, List.length_append, List.length_take,
          Nat.min_eq_left hk] at *
        rw [Prod.mk.injEq]
        constructor
        · rfl
        · push_cast
          omega
      have hfold : (O :: rest).foldl Modification.Merge n
          = ⟨O.offset, O.data.take (n.Range.1 - O.Range.1).toNat ++ n.data⟩ := by
        rw [List.foldl_cons, Merge_head n O hlo hO1 hO3]
        apply foldl_Merge_inside
        intro R hR
        rw [hPr]
        have := hrest R hR
        exact ⟨by simp only; omega, this.2⟩
      rw [hfold]
      refine ⟨by rw [hPr], Or.inr ⟨O, List.mem_cons_self _ _, by rw [hPr]⟩, fun x => ?_⟩
      rw [byteAt_concat, byteAt_take _ _ _ hk, List.findSome?_cons]
      have e1 : O.offset + ((O.data.take (n.Range.1 - O.Range.1).toNat).length : Int) = n.offset := by
        rw [List.length_take, Nat.min_eq_left hk]
        simp only [Modification.Range] at *
        omega
      have e2 : O.offset + (((n.Range.1 - O.Range.1).toNat : Nat) : Int) = n.Range.1 := by
        simp only [Modification.Range] at *
        omega
      rw [e1, e2]
      by_cases hx : x < n.Range.1
      · rw [if_pos hx, byteAt_none_of_lt (c := n) hx]
        have hnone : rest.findSome? (fun c => c.byteAt x) = none :=
          findSome?_byteAt_none_of_lt (y := O.Range.2) (fun R hR => (hrest R hR).1) (by omega)
        rw [hnone]
        cases O.byteAt x <;> rfl
      · rw [if_neg hx]
        cases hb : n.byteAt x with
        | some v => rfl
        | none =>
          have hx2 : n.Range.2 ≤ x := by
            by_contra hc
            rw [byteAt_isSome (by omega) (by omega)] at hb
            cases hb
          have h1 : O.byteAt x = none := byteAt_none_of_ge (by omega)
          have h2 : rest.findSome? (fun c => c.byteAt x) = none :=
            findSome?_byteAt_none_of_ge (fun R hR => by have := (hrest R hR).2; omega)
          rw [h1]
          simp [h2]
    · -- everything merged lies within the range of `n`
      have hfold : (O :: rest).foldl Modification.Merge n = n := by
        apply foldl_Merge_inside
        intro R hR
        rcases List.mem_cons.mp hR with rfl | hR
        · exact ⟨by omega, hO3⟩
        · have := hrest R hR
          exact ⟨by omega, this.2⟩
      rw [hfold]
      refine ⟨rfl, Or.inl rfl, fun x => ?_⟩
      cases hb : n.byteAt x with
      | some v => rfl
      | none =>
        have hx2 : x < n.Range.1 ∨ n.Range.2 ≤ x := by
          by_contra hc
          rw [byteAt_isSome (by omega) (by omega)] at hb
          cases hb
        have h0 : (O :: rest).findSome? (fun c => c.byteAt x) = none := by
          rcases hx2 with hx2 | hx2
          · apply findSome?_byteAt_none_of_lt (y := n.Range.1) _ hx2
            intro R hR
            rcases List.mem_cons.mp hR with rfl | hR
            · omega
            · have := hrest R hR
              omega
          · apply findSome?_byteAt_none_of_ge
            intro R hR
            have := (hm R hR).2.2
            omega
        rw [h0]
        rfl



theorem endsInside_false {ivl : IntervalIndex} {x : Int} (h : ivl.endsInside x = false) :
    ∀ c ∈ ivl.r, ¬ (c.Range.1 < x ∧ x < c.Range.2) := by
  unfold IntervalIndex.endsInside at h
  intro c hc hcx
  have : ivl.r.any (fun c => decide (c.Range.1 < x ∧ x < c.Range.2)) = true :=
    List.any_eq_true.mpr ⟨c, hc, by simpa using hcx⟩
  rw [h] at this
  cases this

/-- `Add` on a sorted and disjoint index, for a new interval whose end does not
fall strictly inside a stored interval: the index stays sorted and disjoint,
and every offset holds the byte of the new interval, or else the byte stored
before (last write wins). -/
theorem Add_spec (ivl : IntervalIndex) (n : Modification) (hd : ivl.Disjoint)
    (hc : ivl.endsInside n.Range.2 = false) :
    (ivl.Add n).Disjoint ∧
      (∀ x, (ivl.Add n).byteAt x = (n.byteAt x).or (ivl.byteAt x)) ∧
      (ivl.Add n).r ≠ [] := by
  have hp := Disjoint.pairwise hd
  have hcond := endsInside_false hc
  have hsplit := split_three hp (Range_le n)
  have hadd := Add_split ivl n hp
  have hmid : ∀ O ∈ (ivl.r.take (idxLo ivl.r n.Range.2)).drop (idxHi ivl.r n.Range.1),
      n.Range.1 ≤ O.Range.2 ∧ O.Range.1 < n.Range.2 ∧ O.Range.2 ≤ n.Range.2 := by
    intro O hO
    obtain ⟨h1, h2, h3⟩ := mem_mid hp hO
    have := hcond O h1
    exact ⟨h2, h3, by omega⟩
  obtain ⟨hM2, hM1, hMb⟩ := foldl_Merge_spec n _ ((hp.take).drop) hmid
  have hp3 := hp
  rw [hsplit, List.pairwise_append, List.pairwise_append] at hp3
  obtain ⟨⟨hpre, _, hpremid⟩, hpost, hcross⟩ := hp3
  refine ⟨?_, ?_, ?_⟩
  · rw [Disjoint_iff_pairwise, hadd, List.pairwise_append, List.pairwise_append]
    refine ⟨⟨hpre, List.pairwise_singleton _ _, ?_⟩, hpost, ?_⟩
    · intro a ha b hb
      rw [List.mem_singleton] at hb
      subst hb
      unfold Before
      rcases hM1 with h | ⟨O, hO, h⟩
      · rw [h]
        exact le_of_lt (mem_take_idxHi hp ha)
      · rw [h]
        exact hpremid a ha O hO
    · intro a ha b hb
      rcases List.mem_append.mp ha with ha | ha
      · exact hcross a (List.mem_append_left _ ha) b hb
      · rw [List.mem_singleton] at ha
        subst ha
        unfold Before
        rw [hM2]
        exact mem_drop_idxLo hp hb
  · intro x
    unfold IntervalIndex.byteAt
    rw [hadd]
    conv_rhs => rw [hsplit]
    simp only [List.findSome?_append, List.findSome?_cons, List.findSome?_nil]
    rw [hMb x]
    cases hb : n.byteAt x with
    | some v =>
      have hr := byteAt_range hb
      have hnone : (ivl.r.take (idxHi ivl.r n.Range.1)).findSome? (fun c => c.byteAt x) = none :=
        findSome?_byteAt_none_of_ge (fun c hc => by have := mem_take_idxHi hp hc; omega)
      rw [hnone]
      rfl
    | none =>
      cases (ivl.r.take (idxHi ivl.r n.Range.1)).findSome? (fun c => c.byteAt x) <;>
        cases ((ivl.r.take (idxLo ivl.r n.Range.2)).drop (idxHi ivl.r n.Range.1)).findSome?
          (fun c => c.byteAt x) <;> rfl
  · rw [hadd]
    simp

/-! ## The overlay round trip -/

theorem Simulates_init (B : List Byte) : Simulates B (NewLayer ⟨B, 0⟩) ⟨B, 0⟩ where
  disjoint := by simp [NewLayer, IntervalIndex.empty, IntervalIndex.Disjoint, adjacent]
  limit := Or.inl (by show (-1 : Int) < 0; decide)
  pos := rfl
  pos_nonneg := le_refl _
  base := rfl
  max_nonneg := le_refl _
  max_fresh := fun _ => rfl
  length := by
    intro _
    simp [NewLayer, IntervalIndex.empty]
  bytes := by
    intro j _
    simp [NewLayer, IntervalIndex.empty, IntervalIndex.byteAt]

theorem Reader_Seek_s (r : Reader) (offset whence : Int) : (r.Seek offset whence).1.s = r.s := by
  unfold Reader.Seek
  simp only
  split_ifs <;> rfl

theorem Simulates_Seek {B : List Byte} {l : Layer} {v : PlainBuffer} (h : Simulates B l v)
    (offset whence : Int) (hw : whence = SEEK_SET ∨ whence = SEEK_CUR)
    (ht : 0 ≤ (if whence = SEEK_SET then offset else v.pos + offset))
    (hlim : l.limit < 0 ∨ (if whence = SEEK_SET then offset else v.pos + offset) ≤ l.limit) :
    Simulates B (l.step (Op.Seek offset whence)) (v.step (Op.Seek offset whence)) := by
  have hl : l.step (Op.Seek offset whence)
      = ⟨l.index, (l.r.Seek offset whence).1,
          if whence = SEEK_SET then offset else v.pos + offset, l.limit⟩ := by
    simp only [Layer.step, Layer.Seek]
    have hne : ¬ whence = SEEK_END := by
      rcases hw with h1 | h1 <;> rw [h1] <;> decide
    rw [if_neg hne]
    rcases hw with h1 | h1
    · subst h1
      have e : ¬ SEEK_SET = SEEK_CUR := by decide
      simp only [e, if_false, if_true] at hlim ⊢
      rw [if_neg (by omega)]
    · subst h1
      have e : ¬ SEEK_CUR = SEEK_SET := by decide
      simp only [e, if_false, if_true, h.pos] at hlim ⊢
      rw [if_neg (by omega)]
  have hv : v.step (Op.Seek offset whence)
      = ⟨v.data, if whence = SEEK_SET then offset else v.pos + offset⟩ := by
    simp only [PlainBuffer.step, PlainBuffer.Seek]
    rcases hw with h1 | h1
    · subst h1
      simp only [if_true] at ht ⊢
      rw [if_neg (by omega)]
    · subst h1
      have e : ¬ SEEK_CUR = SEEK_SET := by decide
      simp only [e, if_false, if_true] at ht ⊢
      rw [if_neg (by omega)]
  rw [hl, hv]
  exact {
    disjoint := h.disjoint
    limit := h.limit
    pos := rfl
    pos_nonneg := ht
    base := by rw [Reader_Seek_s]; exact h.base
    max_nonneg := h.max_nonneg
    max_fresh := h.max_fresh
    length := h.length
    bytes := h.bytes }

theorem Simulates_Truncate {B : List Byte} {l : Layer} {v : PlainBuffer} (h : Simulates B l v)
    (size : Int)
    (hsz : (0 ≤ size ∧ size ≤ (v.data.length : Int)) ∨ (size < 0 ∧ l.limit < 0)) :
    Simulates B (l.step (Op.Truncate size)) (v.step (Op.Truncate size)) := by
  rcases hsz with ⟨h0, hle⟩ | ⟨hneg, hoff⟩
  · obtain ⟨k, hk⟩ : ∃ k : Nat, size = (k : Int) := ⟨size.toNat, by omega⟩
    subst hk
    have hkl : k ≤ v.data.length := by omega
    have hv : v.step (Op.Truncate (k : Int)) = ⟨v.data.take k, v.pos⟩ := by
      simp only [PlainBuffer.step, PlainBuffer.Truncate]
      rw [if_neg (by omega)]
      simp only [Int.toNat_ofNat]
      have e : k - v.data.length = 0 := by omega
      rw [e]
      simp
    have hl : l.step (Op.Truncate (k : Int)) = ⟨l.index, l.r, l.pos, (k : Int)⟩ := rfl
    rw [hl, hv]
    exact {
      disjoint := h.disjoint
      limit := by
        right
        simp only [List.length_take]
        omega
      pos := h.pos
      pos_nonneg := h.pos_nonneg
      base := h.base
      max_nonneg := h.max_nonneg
      max_fresh := h.max_fresh
      length := by
        intro hneg
        simp only at hneg
        omega
      bytes := by
        intro j hj
        simp only [List.length_take] at hj
        simp only
        rw [List.getElem?_take_of_lt (by omega)]
        exact h.bytes j (by omega) }
  · have hv : v.step (Op.Truncate size) = v := by
      simp only [PlainBuffer.step, PlainBuffer.Truncate]
      rw [if_pos hneg]
    have hl : l.step (Op.Truncate size) = ⟨l.index, l.r, l.pos, size⟩ := rfl
    rw [hl, hv]
    exact {
      disjoint := h.disjoint
      limit := Or.inl hneg
      pos := h.pos
      pos_nonneg := h.pos_nonneg
      base := h.base
      max_nonneg := h.max_nonneg
      max_fresh := h.max_fresh
      length := fun _ => h.length hoff
      bytes := h.bytes }

theorem Simulates_Write {B : List Byte} {l : Layer} {v : PlainBuffer} (h : Simulates B l v)
    (w : List Byte) (hgap : v.pos ≤ (v.data.length : Int))
    (hend : l.index.endsInside (l.pos + (w.length : Int)) = false) :
    Simulates B (l.step (Op.Write w)) (v.step (Op.Write w)) := by
  obtain ⟨p, hp⟩ : ∃ p : Nat, v.pos = (p : Int) := ⟨v.pos.toNat, by have := h.pos_nonneg; omega⟩
  have hpl : p ≤ v.data.length := by omega
  have hl : l.step (Op.Write w)
      = ⟨l.index.Add ⟨l.pos, w⟩, l.r, l.pos + (w.length : Int),
          if l.limit ≥ 0 ∧ l.pos + (w.length : Int) > l.limit then l.pos + (w.length : Int)
          else l.limit⟩ := rfl
  have hv : v.step (Op.Write w)
      = ⟨v.data.take p ++ w ++ v.data.drop (p + w.length), v.pos + (w.length : Int)⟩ := by
    simp only [PlainBuffer.step, PlainBuffer.Write, hp, Int.toNat_ofNat]
    have e : p - v.data.length = 0 := by omega
    rw [e]
    simp
  obtain ⟨hd, hb, hne⟩ := Add_spec l.index ⟨l.pos, w⟩ h.disjoint hend
  have hmax : (l.index.Add ⟨l.pos, w⟩).Max = Max.max l.index.Max (l.pos + (w.length : Int)) := by
    rw [Add_Max_cases]
    simp only [Modification.Range]
    by_cases h0 : l.index.r = []
    · rw [if_pos h0, h.max_fresh h0]
      have := h.pos_nonneg
      have := h.pos
      omega
    · rw [if_neg h0]
  have hlen : (v.data.take p ++ w ++ v.data.drop (p + w.length)).length
      = Max.max v.data.length (p + w.length) := by
    simp only [List.length_append, List.length_take, List.length_drop]
    omega
  rw [hl, hv]
  exact {
    disjoint := hd
    limit := by
      simp only
      rw [hlen]
      have := h.pos
      rcases h.limit with h1 | h1
      · left
        rw [if_neg (by omega)]
        exact h1
      · right
        split <;> omega
    pos := by simp only; rw [h.pos]
    pos_nonneg := by simp only; have := h.pos_nonneg; omega
    base := h.base
    max_nonneg := by rw [hmax]; have := h.max_nonneg; omega
    max_fresh := fun h0 => absurd h0 hne
    length := by
      simp only
      intro hneg
      have hl1 : l.limit < 0 := by
        split at hneg
        · have := h.pos; have := h.pos_nonneg; omega
        · exact hneg
      rw [hlen, hmax]
      have := h.length hl1
      have := h.pos
      omega
    bytes := by
      intro j hj
      simp only at hj ⊢
      rw [hlen] at hj
      rw [hb (j : Int)]
      by_cases hfit : p + w.length ≤ v.data.length
      · rw [getElem?_patch v.data w p hfit j]
        unfold Modification.byteAt
        simp only [Modification.Range]
        by_cases hin : p ≤ j ∧ j < p + w.length
        · have hlt : j - p < w.length := by omega
          have e : ((j : Int) - l.pos).toNat = j - p := by have := h.pos; omega
          rw [if_pos hin, if_pos (by have := h.pos; omega), e, List.getElem?_eq_getElem hlt]
          rfl
        · rw [if_neg hin, if_neg (by have := h.pos; omega)]
          exact h.bytes j (by omega)
      · have hdrop : v.data.drop (p + w.length) = [] := List.drop_of_length_le (by omega)
        rw [hdrop, List.append_nil]
        unfold Modification.byteAt
        simp only [Modification.Range]
        by_cases hjp : j < p
        · rw [List.getElem?_append_left (by rw [List.length_take]; omega),
            List.getElem?_take_of_lt hjp, if_neg (by have := h.pos; omega)]
          exact h.bytes j (by omega)
        · have hlt : j - p < w.length := by omega
          have e : ((j : Int) - l.pos).toNat = j - p := by have := h.pos; omega
          rw [List.getElem?_append_right (by rw [List.length_take]; omega), List.length_take,
            Nat.min_eq_left hpl, if_pos (by have := h.pos; omega), e,
            List.getElem?_eq_getElem hlt]
          rfl }

theorem Simulates_run (B : List Byte) (ops : List Op) :
    ∀ (l : Layer) (v : PlainBuffer), Simulates B l v → admissible l v ops = true →
      Simulates B (l.run ops) (v.run ops) := by
  induction ops with
  | nil => intro l v h _; exact h
  | cons op rest ih =>
    intro l v h ha
    cases op with
    | Write w =>
      simp only [admissible, Bool.and_eq_true, decide_eq_true_eq, Bool.not_eq_true'] at ha
      exact ih _ _ (Simulates_Write h w ha.1.1 ha.1.2) ha.2
    | Seek offset whence =>
      simp only [admissible, Bool.and_eq_true, decide_eq_true_eq] at ha
      exact ih _ _ (Simulates_Seek h offset whence ha.1.1.1 ha.1.1.2 ha.1.2) ha.2
    | Truncate size =>
      simp only [admissible, Bool.and_eq_true, decide_eq_true_eq] at ha
      exact ih _ _ (Simulates_Truncate h size ha.1) ha.2

theorem Seek_start {B : List Byte} {l : Layer} {v : PlainBuffer} (h : Simulates B l v) :
    (l.Seek 0 SEEK_SET).1 = ⟨l.index, ⟨B, 0⟩, 0, l.limit⟩ := by
  have e : ¬ (l.limit ≥ 0 ∧ l.limit < 0) := by omega
  simp [Layer.Seek, Reader.Seek, SEEK_SET, SEEK_CUR, SEEK_END, h.base, e]

theorem MinSize_of_Simulates {B : List Byte} {l : Layer} {v : PlainBuffer}
    (h : Simulates B l v) :
    0 ≤ l.MinSize ∧ l.MinSize ≤ (v.data.length : Int) ∧ l.MinSize ≤ l.index.Max ∧
      (l.limit < 0 ∨ l.MinSize ≤ l.limit) ∧
      (¬ (l.limit ≥ 0 ∧ l.limit ≤ 0) → l.MinSize = 0 → l.index.Max = 0) := by
  have hmax := h.max_nonneg
  unfold Layer.MinSize
  rcases h.limit with h1 | h1
  · have hlen := h.length h1
    rw [if_pos (Or.inl (by omega))]
    refine ⟨hmax, by omega, le_refl _, Or.inl h1, fun _ h0 => h0⟩
  · split
    · rename_i hc
      refine ⟨hmax, by omega, le_refl _, Or.inr (by omega), fun _ h0 => h0⟩
    · rename_i hc
      refine ⟨by omega, by omega, by omega, Or.inr (le_refl _), fun hn h0 => by omega⟩

/-- Reading back a layer that simulates the plain buffer `v` delivers the first
`MinSize()` bytes of `v`. -/
theorem readBack_of_Simulates {B : List Byte} {l : Layer} {v : PlainBuffer}
    (h : Simulates B l v) :
    l.readBack = some (v.data.take l.MinSize.toNat) := by
  obtain ⟨hS0, hSlen, hSmax, hSlim, hSzero⟩ := MinSize_of_Simulates h
  obtain ⟨M, hM⟩ : ∃ M : Nat, l.MinSize = (M : Int) := ⟨l.MinSize.toNat, by omega⟩
  rw [hM] at hSlen hSmax hSlim hSzero
  have hvlen : M ≤ v.data.length := by omega
  unfold Layer.readBack
  simp only
  rw [Seek_start h, hM, Int.toNat_ofNat]
  obtain ⟨l1, hl1⟩ : ∃ l1 : Layer, l1 = ⟨l.index, ⟨B, 0⟩, 0, l.limit⟩ := ⟨_, rfl⟩
  rw [← hl1]
  have hidx : l1.index = l.index := by rw [hl1]
  have hpos : l1.pos = 0 := by rw [hl1]
  have hlimit : l1.limit = l.limit := by rw [hl1]
  have hr : l1.r = ⟨B, 0⟩ := by rw [hl1]
  by_cases hfirst : l.limit ≥ 0 ∧ l.limit ≤ 0
  · have hM0 : M = 0 := by
      rcases hSlim with h1 | h1 <;> omega
    subst hM0
    rw [Read_eq, if_pos (by rw [hlimit, hpos]; omega)]
    simp
  have hMax0 : M = 0 → l.index.Max = 0 := fun h0 => hSzero hfirst (by omega)
  have hnolim : ¬ (l1.limit ≥ 0 ∧ l1.limit - l1.pos ≤ 0) := by
    rw [hlimit, hpos]; omega
  have hwin : l1.window (List.replicate M 0) = M := by
    unfold Layer.window
    rw [hlimit, hpos, List.length_replicate, if_neg (by omega)]
  have htake : (List.replicate M (0 : Byte)).take M = List.replicate M 0 := by
    rw [List.take_of_length_le (by rw [List.length_replicate])]
  by_cases hcase : B = [] ∧ M = 0
  · obtain ⟨hB, hM0⟩ := hcase
    have hmax0 := hMax0 hM0
    subst hB hM0
    have hbr : l1.r.Read ((List.replicate 0 (0 : Byte)).take (l1.window (List.replicate 0 0)))
        = (l1.r, [], 0, some IOError.EOF) := by
      rw [Reader_Read_eof _ _ (by rw [hr]; exact Nat.le_refl _)]
      simp
    have hext : l1.extending (List.replicate 0 0) = false := by
      unfold Layer.extending
      rw [hbr, hidx, hmax0, hpos]
      simp
    rw [Read_eq, if_neg hnolim, hext, hbr]
    simp
  · have hgo : (l1.r.Read ((List.replicate M (0 : Byte)).take (l1.window (List.replicate M 0)))).2.2.2
        = none ∨ l1.extending (List.replicate M 0) = true := by
      by_cases hB : B = []
      · right
        unfold Layer.extending
        rw [Reader_Read_eof _ _ (by rw [hr, hB]; exact Nat.le_refl _), hidx, hpos]
        simp only [decide_eq_true_eq, true_and]
        have : M ≠ 0 := fun h0 => hcase ⟨hB, h0⟩
        omega
      · left
        rw [Reader_Read_data _ _ (by rw [hr]; exact List.length_pos.mpr hB)]
    -- what the base delivers
    have hn0 : (l1.r.Read ((List.replicate M (0 : Byte)).take (l1.window (List.replicate M 0)))).2.2.1
        = ((Min.min M B.length : Nat) : Int) := by
      rw [hwin, htake]
      by_cases hB : B = []
      · rw [Reader_Read_eof _ _ (by rw [hr, hB]; exact Nat.le_refl _), hB]
        simp
      · rw [Reader_Read_data _ _ (by rw [hr]; exact List.length_pos.mpr hB), hr]
        simp only [List.length_replicate, Nat.sub_zero]
    have hfill : ∀ j, j < B.length → j < M →
        (l1.baseFill (List.replicate M 0))[j]? = B[j]? := by
      intro j hjB hjM
      have hB : B ≠ [] := by
        intro h0; rw [h0] at hjB; exact absurd hjB (Nat.not_lt_zero _)
      have hdata := Reader_Read_data l1.r ((List.replicate M (0 : Byte)).take
        (l1.window (List.replicate M 0))) (by rw [hr]; exact List.length_pos.mpr hB)
      have hext : l1.extending (List.replicate M 0) = false := by
        unfold Layer.extending
        rw [hdata]
        simp
      unfold Layer.baseFill
      simp only [hext, Bool.false_eq_true, if_false]
      rw [hdata, hwin, htake, hr]
      simp only [List.length_replicate, Nat.sub_zero, List.drop_zero]
      have hlt : j < Nat.min M B.length := Nat.lt_min.mpr ⟨hjM, hjB⟩
      rw [List.getElem?_append_left (by rw [List.length_take]; exact Nat.lt_min.mpr ⟨hlt, hjB⟩),
        List.getElem?_take_of_lt hlt]
    obtain ⟨res, win, hread, herr, _, hrb, hwl, hbytes, hn, hall, hex⟩ :=
      Read_spec l1 (List.replicate M 0) (by rw [hidx]; exact h.disjoint) hnolim hgo
    rw [hn0] at hn hex
    rw [hwin, hidx] at hbytes hall hex
    rw [hwin] at hrb hwl
    rw [hpos] at hbytes hall hex
    have hmin1 : Min.min M B.length ≤ M := min_le_left _ _
    have hupper : res.n ≤ (M : Int) := by
      rcases hex with h1 | ⟨c, _, _, _, h1⟩
      · rw [h1]; exact_mod_cast hmin1
      · rw [h1]
        have := min_le_right c.Range.2 ((0 : Int) + (M : Int))
        omega
    have hlower : (M : Int) ≤ res.n := by
      by_cases hMB : M ≤ B.length
      · rw [min_eq_left hMB] at hn
        exact hn
      · have hj : M - 1 < v.data.length := by omega
        have hb := h.bytes (M - 1) hj
        rw [List.getElem?_eq_getElem hj, List.getElem?_eq_none (by omega : B.length ≤ M - 1)] at hb
        cases hbv : l.index.byteAt ((M - 1 : Nat) : Int) with
        | none => rw [hbv] at hb; cases hb
        | some b =>
          obtain ⟨o, ho, ho1, ho2⟩ := byteAt_mem hbv
          have := hall o ho (by omega) (by omega)
          rw [min_eq_right (by omega)] at this
          omega
    have hresn : res.n = (M : Int) := le_antisymm hupper hlower
    clear hex hall
    rw [hread]
    simp only [hresn, Int.toNat_ofNat, Option.some.injEq]
    rw [hrb, List.drop_of_length_le (by rw [List.length_replicate]), List.append_nil,
      List.take_of_length_le (by omega)]
    apply List.ext_getElem?
    intro j
    by_cases hj : j < M
    · rw [hbytes j hj, List.getElem?_take_of_lt hj, h.bytes j (by omega)]
      simp only [Int.zero_add]
      cases hbv : l.index.byteAt (j : Int) with
      | some b => rfl
      | none =>
        simp only [Option.or]
        by_cases hjB : j < B.length
        · exact hfill j hjB hj
        · have hb := h.bytes j (by omega)
          rw [hbv, List.getElem?_eq_getElem (by omega), List.getElem?_eq_none (by omega)] at hb
          cases hb
    · rw [List.getElem?_eq_none (by omega),
        List.getElem?_eq_none (by rw [List.length_take]; omega)]

/-- The round trip on the bytes: for every base `B` and every admissible
sequence of operations (`admissible`), reading the value-level layer from offset
0 up to `MinSize()` yields the bytes a plain in-memory buffer initialised from
`B` holds there after the same operations. -/
theorem RoundTrip_of_admissible (B : List Byte) (ops : List Op)
    (h : admissible (NewLayer ⟨B, 0⟩) ⟨B, 0⟩ ops = true) : RoundTrip B ops := by
  unfold RoundTrip
  exact readBack_of_Simulates (Simulates_run B ops _ _ (Simulates_init B) h)

/-- The round trip on the bytes at three merging writes, and at the sequence
`Truncate(0)`, `Seek(0)`, `Write("ABC")`. -/
theorem RoundTrip_of_admissible_witness :
    RoundTrip [48, 49, 50]
        [Op.Write [1, 2], Op.Seek 1 SEEK_SET, Op.Write [65, 65, 65], Op.Seek (-2) SEEK_CUR,
          Op.Write [7, 7, 7, 7]]
      ∧ RoundTrip [48, 49, 50, 51, 52, 53, 54, 55, 56, 57]
        [Op.Truncate 0, Op.Seek 0 SEEK_SET, Op.Write [65, 66, 67]] :=
  ⟨RoundTrip_of_admissible _ _ (by decide), RoundTrip_of_admissible _ _ (by decide)⟩

/-! ## Slices: the round trip with private write buffers -/

namespace heap

theorem getElem?_bytes (m : Mem) (s : Slice) (j : Nat) :
    (m.bytes s)[j]? = if j < s.len then (m.array s.arr)[s.off + j]? else none := by
  unfold Mem.bytes
  rw [List.getElem?_take]
  split
  · rw [List.getElem?_drop]
  · rfl

theorem length_bytes (m : Mem) (s : Slice) (h : s.off + s.len ≤ (m.array s.arr).length) :
    (m.bytes s).length = s.len := by
  unfold Mem.bytes
  rw [List.length_take, List.length_drop]
  omega

theorem length_store (m : Mem) (a i : Nat) (src : List Byte) :
    (m.store a i src).length = m.length := by
  unfold Mem.store
  rw [List.length_set]

theorem array_store_other (m : Mem) (a i : Nat) (src : List Byte) (b : Nat) (h : b ≠ a) :
    (m.store a i src).array b = m.array b := by
  unfold Mem.store Mem.array
  simp only [List.getD_eq_getElem?_getD]
  rw [List.getElem?_set_ne (Ne.symm h)]

theorem array_store_same (m : Mem) (a i : Nat) (src : List Byte) (h : a < m.length) :
    (m.store a i src).array a
      = (m.array a).take i ++ src ++ (m.array a).drop (i + src.length) := by
  unfold Mem.store
  generalize (m.array a).take i ++ src ++ (m.array a).drop (i + src.length) = x
  unfold Mem.array
  rw [List.getD_eq_getElem?_getD, List.getElem?_set_self h]
  rfl

theorem length_array_store (m : Mem) (a i : Nat) (src : List Byte) (b : Nat)
    (h : i + src.length ≤ (m.array a).length) :
    ((m.store a i src).array b).length = (m.array b).length := by
  by_cases hb : b = a
  · subst hb
    by_cases hlt : b < m.length
    · rw [array_store_same m b i src hlt, length_patch _ _ _ h]
    · unfold Mem.store
      rw [List.set_eq_of_length_le (by omega)]
  · rw [array_store_other m a i src b hb]

/-- Storing into a backing array, seen through a slice of the same array. -/
theorem getElem?_bytes_store (m : Mem) (a i : Nat) (src : List Byte) (s : Slice)
    (ha : a < m.length) (h : i + src.length ≤ (m.array a).length) (hs : s.arr = a) (j : Nat) :
    ((m.store a i src).bytes s)[j]?
      = if j < s.len then
          (if i ≤ s.off + j ∧ s.off + j < i + src.length then src[s.off + j - i]?
            else (m.array a)[s.off + j]?)
        else none := by
  rw [getElem?_bytes, hs, array_store_same m a i src ha, getElem?_patch _ _ _ h]

theorem bytes_store_other (m : Mem) (a i : Nat) (src : List Byte) (s : Slice) (hs : s.arr ≠ a) :
    (m.store a i src).bytes s = m.bytes s := by
  unfold Mem.bytes
  rw [array_store_other m a i src s.arr hs]

theorem array_append_lt (m : Mem) (x : List Byte) (a : Nat) (h : a < m.length) :
    Mem.array (m ++ [x]) a = m.array a := by
  unfold Mem.array
  rw [List.getD_eq_getElem?_getD, List.getD_eq_getElem?_getD, List.getElem?_append_left h]

theorem array_append_new (m : Mem) (x : List Byte) : Mem.array (m ++ [x]) m.length = x := by
  unfold Mem.array
  rw [List.getD_eq_getElem?_getD, List.getElem?_append_right (Nat.le_refl _)]
  simp

theorem bytes_append_lt (m : Mem) (x : List Byte) (s : Slice) (h : s.arr < m.length) :
    Mem.bytes (m ++ [x]) s = m.bytes s := by
  unfold Mem.bytes
  rw [array_append_lt m x s.arr h]

/-- The bytes of `s[lo:hi]` are those of `s` from `lo` up to `hi`. -/
theorem bytes_sub (m : Mem) (s : Slice) (lo hi : Nat) (h : hi ≤ s.len) :
    m.bytes (s.sub lo hi) = ((m.bytes s).drop lo).take (hi - lo) := by
  apply List.ext_getElem?
  intro j
  rw [getElem?_bytes, List.getElem?_take, List.getElem?_drop, getElem?_bytes]
  simp only [Slice.sub]
  by_cases hj : j < hi - lo
  · rw [if_pos hj, if_pos hj, if_pos (by omega), Nat.add_assoc]
  · rw [if_neg hj, if_neg hj]

theorem bytes_new (m : Mem) (x : List Byte) (n c : Nat) :
    Mem.bytes (m ++ [x]) ⟨m.length, 0, n, c⟩ = x.take n := by
  unfold Mem.bytes
  simp only
  rw [array_append_new, List.drop_zero]

theorem Valid_sub (m : Mem) (s : Slice) (lo hi : Nat) (hs : s.Valid m) (h1 : lo ≤ hi)
    (h2 : hi ≤ s.cap) : (s.sub lo hi).Valid m := by
  unfold Slice.Valid Slice.sub at *
  simp only
  omega

/-- `append` within the capacity stores the bytes of `t` behind those of `s`;
otherwise it allocates.  Either way the result shows the bytes of `s` followed
by those of `t`, and no backing array but that of `s` changes. -/
theorem append_spec (grow : Nat → Nat → Nat) (m : Mem) (s t : Slice) (hs : s.Valid m)
    (ht : t.Valid m) :
    (append grow m s t).1.bytes (append grow m s t).2 = m.bytes s ++ m.bytes t ∧
    (append grow m s t).2.Valid (append grow m s t).1 ∧
    (append grow m s t).2.len = s.len + t.len ∧
    ((append grow m s t).2.arr = s.arr ∨ m.length ≤ (append grow m s t).2.arr) ∧
    m.length ≤ (append grow m s t).1.length ∧
    (∀ a, a < m.length → a ≠ s.arr → (append grow m s t).1.array a = m.array a) ∧
    (∀ a, a < m.length → ((append grow m s t).1.array a).length = (m.array a).length) := by
  have hsl : (m.bytes s).length = s.len := length_bytes m s (by unfold Slice.Valid at hs; omega)
  have htl : (m.bytes t).length = t.len := length_bytes m t (by unfold Slice.Valid at ht; omega)
  obtain ⟨hs1, hs2, hs3⟩ := hs
  unfold append
  by_cases hfit : s.len + t.len ≤ s.cap
  · rw [if_pos hfit]
    simp only
    have hb : s.off + s.len + (m.bytes t).length ≤ (m.array s.arr).length := by omega
    refine ⟨?_, ?_, trivial, Or.inl trivial, by rw [length_store], ?_, ?_⟩
    · apply List.ext_getElem?
      intro j
      rw [getElem?_bytes_store m s.arr _ _ ⟨s.arr, s.off, s.len + t.len, s.cap⟩ hs1 hb rfl,
        List.getElem?_append, hsl,
        getElem?_bytes m s j]
      simp only
      by_cases hj : j < s.len
      · rw [if_pos (by omega), if_neg (by omega), if_pos hj, if_pos hj]
      · rw [if_neg hj]
        by_cases hj2 : j < s.len + t.len
        · rw [if_pos hj2, if_pos (by omega)]
          congr 1
          omega
        · rw [if_neg hj2, List.getElem?_eq_none (by omega)]
    · unfold Slice.Valid
      simp only
      rw [length_store, length_array_store m _ _ _ _ hb]
      omega
    · intro a _ hne
      exact array_store_other m _ _ _ a hne
    · intro a _
      exact length_array_store m _ _ _ a hb
  · rw [if_neg hfit]
    simp only
    refine ⟨?_, ?_, trivial, Or.inr (Nat.le_refl _), by simp, ?_, ?_⟩
    · rw [bytes_new, List.take_left' (by rw [List.length_append, hsl, htl])]
    · unfold Slice.Valid
      simp only
      rw [array_append_new]
      simp only [List.length_append, List.length_singleton, List.length_replicate, hsl, htl]
      omega
    · intro a ha _
      exact array_append_lt m _ a ha
    · intro a ha
      rw [array_append_lt m _ a ha]

/-- A valid slice stays valid when memory grows and its backing array keeps its
length. -/
theorem Valid_mono (m m1 : Mem) (s : Slice) (hs : s.Valid m) (hl : m.length ≤ m1.length)
    (ha : (m1.array s.arr).length = (m.array s.arr).length) : s.Valid m1 := by
  unfold Slice.Valid at *
  omega

theorem append_fits (grow : Nat → Nat → Nat) (m : Mem) (s t : Slice)
    (h : s.len + t.len ≤ s.cap) :
    append grow m s t
      = (m.store s.arr (s.off + s.len) (m.bytes t), { s with len := s.len + t.len }) := by
  unfold append
  rw [if_pos h]

theorem Range_value (m : Mem) (x : Modification) (h : x.data.Valid m) :
    (x.value m).Range = x.Range := by
  unfold Modification.value store.Modification.Range Modification.Range
  simp only
  rw [length_bytes m x.data (by unfold Slice.Valid at h; omega)]

theorem Merge_value (grow : Nat → Nat → Nat) (m : Mem) (n o : Modification)
    (hn : n.data.Valid m) (ho : o.data.Valid m) :
    (n.Merge grow m o).2.value (n.Merge grow m o).1 = (n.value m).Merge (o.value m) ∧
    (n.Merge grow m o).2.data.Valid (n.Merge grow m o).1 ∧
    ((n.Merge grow m o).2.data.arr = n.data.arr ∨ (n.Merge grow m o).2.data.arr = o.data.arr ∨
      m.length ≤ (n.Merge grow m o).2.data.arr) ∧
    m.length ≤ (n.Merge grow m o).1.length ∧
    (∀ a, a < m.length → a ≠ n.data.arr → a ≠ o.data.arr →
      (n.Merge grow m o).1.array a = m.array a) ∧
    (∀ a, a < m.length → ((n.Merge grow m o).1.array a).length = (m.array a).length) := by
  have hnl : (m.bytes n.data).length = n.data.len :=
    length_bytes m n.data (by unfold Slice.Valid at hn; omega)
  have hol : (m.bytes o.data).length = o.data.len :=
    length_bytes m o.data (by unfold Slice.Valid at ho; omega)
  have hocap : o.data.len ≤ o.data.cap := ho.2.2
  unfold Modification.Merge store.Modification.Merge
  simp only [Range_value m n hn, Range_value m o ho]
  simp only [Modification.Range]
  by_cases hno : n.offset > o.offset + (o.data.len : Int) ∨ o.offset > n.offset + (n.data.len : Int)
  · rw [if_pos hno, if_pos hno]
    exact ⟨rfl, hn, Or.inl rfl, Nat.le_refl _, fun _ _ _ _ => rfl, fun _ _ => rfl⟩
  rw [if_neg hno, if_neg hno]
  obtain ⟨k, hk⟩ : ∃ k : Nat, (n.offset - o.offset).toNat = k := ⟨_, rfl⟩
  obtain ⟨j, hj⟩ : ∃ j : Nat,
      (o.offset + (o.data.len : Int) - (n.offset + (n.data.len : Int)) - 1).toNat = j := ⟨_, rfl⟩
  rw [hk, hj]
  by_cases hpre : n.offset > o.offset
  · -- Prepend non-overlapping data from `other`
    simp only [if_pos hpre]
    have hkl : k ≤ o.data.len := by omega
    have hsv : (o.data.sub 0 k).Valid m := Valid_sub m o.data 0 k ho (Nat.zero_le _) (by omega)
    obtain ⟨a1, a2, a3, a4, a5, a6, a7⟩ := append_spec grow m (o.data.sub 0 k) n.data hsv hn
    have hb1 : m.bytes (o.data.sub 0 k) = (m.bytes o.data).take k := by
      rw [bytes_sub m o.data 0 k hkl, List.drop_zero, Nat.sub_zero]
    rw [hb1] at a1
    have harr : (o.data.sub 0 k).arr = o.data.arr := rfl
    rw [harr] at a4 a6
    by_cases htail : n.offset + (n.data.len : Int) < o.offset + (o.data.len : Int)
    · simp only [if_pos htail]
      -- the first append happened in place
      have hfit : (o.data.sub 0 k).len + n.data.len ≤ (o.data.sub 0 k).cap := by
        simp only [Slice.sub]
        omega
      have hm1s : (append grow m (o.data.sub 0 k) n.data).1
          = m.store o.data.arr (o.data.off + k) (m.bytes n.data) := by
        rw [append_fits grow m (o.data.sub 0 k) n.data hfit]
        simp only [Slice.sub, Nat.add_zero, Nat.sub_zero]
      generalize (append grow m (o.data.sub 0 k) n.data).1 = m1 at a1 a2 a5 a6 a7 hm1s ⊢
      generalize (append grow m (o.data.sub 0 k) n.data).2 = s1 at a1 a2 a3 a4 ⊢
      have hov1 : o.data.Valid m1 :=
        Valid_mono m m1 o.data ho a5 (a7 o.data.arr ho.1)
      have htv : (o.data.sub j o.data.len).Valid m1 :=
        Valid_sub m1 o.data j o.data.len hov1 (by omega) hocap
      obtain ⟨b1, b2, b3, b4, b5, b6, b7⟩ :=
        append_spec grow m1 s1 (o.data.sub j o.data.len) a2 htv
      have hod : m1.bytes o.data = appendInto (m.bytes o.data) k (m.bytes n.data) := by
        unfold appendInto
        rw [if_pos (by omega)]
        apply List.ext_getElem?
        intro i
        rw [hm1s, getElem?_bytes_store m o.data.arr _ _ o.data ho.1
          (by have := ho.2.1; omega) rfl,
          getElem?_patch _ _ _ (by omega)]
        by_cases hi : i < o.data.len
        · rw [if_pos hi]
          by_cases hin : k ≤ i ∧ i < k + (m.bytes n.data).length
          · rw [if_pos hin, if_pos (by omega)]
            congr 1
            omega
          · rw [if_neg hin, if_neg (by omega), getElem?_bytes m o.data i, if_pos hi]
        · rw [if_neg hi, if_neg (by omega), List.getElem?_eq_none (by omega)]
      have hb2 : m1.bytes (o.data.sub j o.data.len) = (m1.bytes o.data).drop j := by
        rw [bytes_sub m1 o.data j o.data.len (Nat.le_refl _)]
        rw [List.take_of_length_le]
        rw [List.length_drop, length_bytes m1 o.data (by unfold Slice.Valid at hov1; omega)]
      rw [hb2, a1, hod] at b1
      refine ⟨?_, b2, ?_, by omega, ?_, ?_⟩
      · unfold Modification.value
        simp only
        rw [b1]
      · rcases b4 with h | h
        · rcases a4 with h2 | h2
          · right; left; rw [h, h2]
          · right; right; rw [h]; exact h2
        · right; right; omega
      · intro a ha han hao
        rw [b6 a (by omega) ?_, a6 a ha hao]
        rcases a4 with h2 | h2
        · rw [h2]; exact hao
        · omega
      · intro a ha
        rw [b7 a (by omega), a7 a ha]
    · simp only [if_neg htail]
      refine ⟨?_, a2, ?_, a5, ?_, a7⟩
      · unfold Modification.value
        simp only
        rw [a1]
      · rcases a4 with h | h
        · right; left; exact h
        · right; right; exact h
      · intro a ha _ hao
        exact a6 a ha hao
  · simp only [if_neg hpre]
    by_cases htail : n.offset + (n.data.len : Int) < o.offset + (o.data.len : Int)
    · simp only [if_pos htail]
      have htv : (o.data.sub j o.data.len).Valid m :=
        Valid_sub m o.data j o.data.len ho (by omega) hocap
      obtain ⟨b1, b2, b3, b4, b5, b6, b7⟩ :=
        append_spec grow m n.data (o.data.sub j o.data.len) hn htv
      have hb2 : m.bytes (o.data.sub j o.data.len) = (m.bytes o.data).drop j := by
        rw [bytes_sub m o.data j o.data.len (Nat.le_refl _)]
        rw [List.take_of_length_le]
        rw [List.length_drop, hol]
      rw [hb2] at b1
      refine ⟨?_, b2, ?_, b5, ?_, b7⟩
      · unfold Modification.value
        simp only
        rw [b1]
      · rcases b4 with h | h
        · left; exact h
        · right; right; exact h
      · intro a ha han _
        exact b6 a ha han
    · simp only [if_neg htail]
      exact ⟨trivial, hn, Or.inl trivial, Nat.le_refl _, fun _ _ _ _ => trivial,
        fun _ _ => trivial⟩

theorem value_congr (m m1 : Mem) (x : Modification) (h : m1.array x.data.arr = m.array x.data.arr) :
    x.value m1 = x.value m := by
  unfold Modification.value Mem.bytes
  rw [h]

theorem mergeAll_value (grow : Nat → Nat → Nat) (mid : List Modification) :
    ∀ (m : Mem) (n : Modification), n.data.Valid m → (∀ x ∈ mid, x.data.Valid m) →
      n.data.arr ∉ arrays mid → (arrays mid).Nodup →
      (mergeAll grow m n mid).2.value (mergeAll grow m n mid).1
        = (mid.map (Modification.value m)).foldl store.Modification.Merge (n.value m) ∧
      (mergeAll grow m n mid).2.data.Valid (mergeAll grow m n mid).1 ∧
      ((mergeAll grow m n mid).2.data.arr = n.data.arr ∨
        (mergeAll grow m n mid).2.data.arr ∈ arrays mid ∨
        m.length ≤ (mergeAll grow m n mid).2.data.arr) ∧
      m.length ≤ (mergeAll grow m n mid).1.length ∧
      (∀ a, a < m.length → a ≠ n.data.arr → a ∉ arrays mid →
        (mergeAll grow m n mid).1.array a = m.array a) ∧
      (∀ a, a < m.length →
        ((mergeAll grow m n mid).1.array a).length = (m.array a).length) := by
  induction mid with
  | nil =>
    intro m n hn _ _ _
    exact ⟨rfl, hn, Or.inl rfl, Nat.le_refl _, fun _ _ _ _ => rfl, fun _ _ => rfl⟩
  | cons o rest ih =>
    intro m n hn hv hnot hnd
    have ho : o.data.Valid m := hv o (List.mem_cons_self _ _)
    obtain ⟨c1, c2, c3, c4, c5, c6⟩ := Merge_value grow m n o hn ho
    simp only [arrays, List.map_cons, List.mem_cons, not_or, List.nodup_cons] at hnot hnd
    have hrest : ∀ x ∈ rest, x.data.arr < m.length ∧ x.data.arr ≠ n.data.arr ∧
        x.data.arr ≠ o.data.arr := by
      intro x hx
      have hxa : x.data.arr ∈ rest.map (fun x => x.data.arr) := List.mem_map_of_mem _ hx
      refine ⟨(hv x (List.mem_cons_of_mem _ hx)).1, ?_, ?_⟩
      · intro h; rw [h] at hxa; exact hnot.2 hxa
      · intro h; rw [h] at hxa; exact hnd.1 hxa
    have hv1 : ∀ x ∈ rest, x.data.Valid (n.Merge grow m o).1 := by
      intro x hx
      exact Valid_mono m _ x.data (hv x (List.mem_cons_of_mem _ hx)) c4
        (c6 x.data.arr (hrest x hx).1)
    have hnot1 : (n.Merge grow m o).2.data.arr ∉ arrays rest := by
      intro hmem
      simp only [arrays, List.mem_map] at hmem
      obtain ⟨x, hx, hxe⟩ := hmem
      obtain ⟨h1, h2, h3⟩ := hrest x hx
      rcases c3 with h | h | h
      · rw [h] at hxe; exact h2 hxe
      · rw [h] at hxe; exact h3 hxe
      · omega
    obtain ⟨d1, d2, d3, d4, d5, d6⟩ := ih (n.Merge grow m o).1 (n.Merge grow m o).2 c2 hv1 hnot1 hnd.2
    have hmap : rest.map (Modification.value (n.Merge grow m o).1)
        = rest.map (Modification.value m) := by
      apply List.map_congr_left
      intro x hx
      obtain ⟨h1, h2, h3⟩ := hrest x hx
      exact value_congr m _ x (c5 x.data.arr h1 h2 h3)
    simp only [mergeAll, List.map_cons, List.foldl_cons]
    rw [hmap, c1] at d1
    refine ⟨d1, d2, ?_, by omega, ?_, ?_⟩
    · simp only [arrays, List.map_cons, List.mem_cons]
      rcases d3 with h | h | h
      · rcases c3 with h2 | h2 | h2
        · left; rw [h, h2]
        · right; left; left; rw [h, h2]
        · right; right; omega
      · right; left; right; exact h
      · right; right; omega
    · intro a ha han hamid
      simp only [arrays, List.map_cons, List.mem_cons, not_or] at hamid
      rw [d5 a (by omega) ?_ hamid.2, c5 a ha han hamid.1]
      intro h
      rcases c3 with h2 | h2 | h2
      · rw [h2] at h; exact han h
      · rw [h2] at h; exact hamid.1 h
      · omega
    · intro a ha
      rw [d6 a (by omega), c6 a ha]

theorem elemAt_value (m : Mem) (r : List Modification) (hv : ∀ x ∈ r, x.data.Valid m) (i : Nat) :
    (store.elemAt (r.map (Modification.value m)) i).Range = (elemAt r i).Range := by
  unfold store.elemAt elemAt
  by_cases hi : i < r.length
  · rw [List.getD_eq_getElem _ _ (by rw [List.length_map]; exact hi), List.getD_eq_getElem _ _ hi,
      List.getElem_map]
    exact Range_value m _ (hv _ (List.getElem_mem _))
  · rw [List.getD_eq_default _ _ (by rw [List.length_map]; omega),
      List.getD_eq_default _ _ (by omega)]
    rfl

theorem Search_idxHi (m : Mem) (r : List Modification) (hv : ∀ x ∈ r, x.data.Valid m) (x : Int) :
    Search r.length (fun i => decide (x ≤ (elemAt r i).Range.2))
      = idxHi (r.map (Modification.value m)) x := by
  unfold idxHi
  rw [List.length_map]
  congr 1
  funext i
  rw [elemAt_value m r hv i]

theorem Search_idxLo (m : Mem) (r : List Modification) (hv : ∀ x ∈ r, x.data.Valid m) (x : Int) :
    Search r.length (fun i => decide (x ≤ (elemAt r i).Range.1))
      = idxLo (r.map (Modification.value m)) x := by
  unfold idxLo
  rw [List.length_map]
  congr 1
  funext i
  rw [elemAt_value m r hv i]

theorem cut_set {α : Type} (r : List α) (x : α) (i j : Nat) (hij : i < j) (hi : i < r.length) :
    (r.set i x).take (i + 1) ++ (r.set i x).drop j = r.take i ++ x :: r.drop j := by
  rw [List.drop_set_of_lt _ _ hij]
  have e : r.set i x = (r.take i ++ [x]) ++ r.drop (i + 1) := by
    rw [List.set_eq_take_cons_drop _ hi, List.append_assoc]
    rfl
  rw [e, List.take_left' (by rw [List.length_append, List.length_take]; simp; omega),
    List.append_assoc]
  rfl

theorem split_mid {α : Type} (r : List α) (i j : Nat) (hij : i ≤ j) :
    r = r.take i ++ ((r.take j).drop i ++ r.drop j) := by
  rw [← List.append_assoc]
  have e : r.take i = (r.take j).take i := by
    rw [List.take_take, Nat.min_eq_left hij]
  rw [e, List.take_append_drop, List.take_append_drop]

theorem heap_Add_eq (grow : Nat → Nat → Nat) (m : Mem) (ivl : IntervalIndex) (n : Modification)
    (hv : ∀ x ∈ ivl.r, x.data.Valid m) :
    ivl.Add grow m n =
      if ivl.r = [] then (m, ⟨[n], n.Range.2⟩)
      else if idxHi (ivl.r.map (Modification.value m)) n.Range.1 ≥ ivl.r.length then
        (m, ⟨ivl.r ++ [n], if n.Range.2 > ivl.Max then n.Range.2 else ivl.Max⟩)
      else if idxHi (ivl.r.map (Modification.value m)) n.Range.1
          = idxLo (ivl.r.map (Modification.value m)) n.Range.2 then
        (m, ⟨insert ivl.r (idxHi (ivl.r.map (Modification.value m)) n.Range.1) n,
          if n.Range.2 > ivl.Max then n.Range.2 else ivl.Max⟩)
      else
        ((mergeAll grow m n ((ivl.r.take (idxLo (ivl.r.map (Modification.value m)) n.Range.2)).drop
            (idxHi (ivl.r.map (Modification.value m)) n.Range.1))).1,
          ⟨cut (ivl.r.set (idxHi (ivl.r.map (Modification.value m)) n.Range.1)
              (mergeAll grow m n
                ((ivl.r.take (idxLo (ivl.r.map (Modification.value m)) n.Range.2)).drop
                  (idxHi (ivl.r.map (Modification.value m)) n.Range.1))).2)
            (idxHi (ivl.r.map (Modification.value m)) n.Range.1 + 1)
            (idxLo (ivl.r.map (Modification.value m)) n.Range.2),
            if n.Range.2 > ivl.Max then n.Range.2 else ivl.Max⟩) := by
  unfold IntervalIndex.Add
  simp only [Search_idxHi m ivl.r hv, Search_idxLo m ivl.r hv]

theorem Add_value (grow : Nat → Nat → Nat) (m : Mem) (ivl : IntervalIndex) (n : Modification)
    (hv : ∀ x ∈ ivl.r, x.data.Valid m) (hn : n.data.Valid m)
    (hnd : (arrays ivl.r).Nodup) (hnot : n.data.arr ∉ arrays ivl.r) :
    (ivl.Add grow m n).2.value (ivl.Add grow m n).1 = (ivl.value m).Add (n.value m) ∧
    (∀ x ∈ (ivl.Add grow m n).2.r, x.data.Valid (ivl.Add grow m n).1) ∧
    (arrays (ivl.Add grow m n).2.r).Nodup ∧
    (∀ a ∈ arrays (ivl.Add grow m n).2.r,
      a = n.data.arr ∨ a ∈ arrays ivl.r ∨ m.length ≤ a) ∧
    m.length ≤ (ivl.Add grow m n).1.length ∧
    (∀ a, a < m.length → a ≠ n.data.arr → a ∉ arrays ivl.r →
      (ivl.Add grow m n).1.array a = m.array a) ∧
    (∀ a, a < m.length → ((ivl.Add grow m n).1.array a).length = (m.array a).length) := by
  have hr := Range_value m n hn
  have hRle : n.Range.1 ≤ n.Range.2 := by
    simp only [Modification.Range]; omega
  have hvr : (ivl.value m).r = ivl.r.map (Modification.value m) := rfl
  have hvm : (ivl.value m).Max = ivl.Max := rfl
  rw [Add_eq, heap_Add_eq grow m ivl n hv, hvr, hvm, hr, List.length_map]
  generalize hI : idxHi (ivl.r.map (Modification.value m)) n.Range.1 = i
  generalize hJ : idxLo (ivl.r.map (Modification.value m)) n.Range.2 = j
  generalize (if n.Range.2 > ivl.Max then n.Range.2 else ivl.Max) = newMax
  have hij : i ≤ j := by
    rw [← hI, ← hJ]
    exact idxHi_le_idxLo _ hRle
  by_cases h0 : ivl.r = []
  · rw [if_pos h0, if_pos (by rw [h0]; rfl)]
    refine ⟨rfl, ?_, ?_, ?_, Nat.le_refl _, fun _ _ _ _ => rfl, fun _ _ => rfl⟩
    · intro x hx
      rw [List.mem_singleton] at hx
      rw [hx]; exact hn
    · exact List.nodup_singleton _
    · intro a ha
      left
      simpa [arrays] using ha
  have h0v : ¬ (ivl.r.map (Modification.value m) = []) := by
    intro h; exact h0 (List.map_eq_nil_iff.mp h)
  rw [if_neg h0, if_neg h0v]
  by_cases h1 : i ≥ ivl.r.length
  · rw [if_pos h1, if_pos h1]
    refine ⟨?_, ?_, ?_, ?_, Nat.le_refl _, fun _ _ _ _ => rfl, fun _ _ => rfl⟩
    · simp only [IntervalIndex.value, List.map_append, List.map_cons, List.map_nil]
    · intro x hx
      simp only [List.mem_append, List.mem_singleton] at hx
      rcases hx with hx | hx
      · exact hv x hx
      · rw [hx]; exact hn
    · simp only [arrays, List.map_append, List.map_cons, List.map_nil]
      rw [List.nodup_append]
      refine ⟨hnd, List.nodup_singleton _, ?_⟩
      intro a ha hb
      rw [List.mem_singleton] at hb
      rw [hb] at ha
      exact hnot ha
    · intro a ha
      simp only [arrays, List.map_append, List.map_cons, List.map_nil, List.mem_append,
        List.mem_singleton] at ha
      rcases ha with ha | ha
      · right; left; exact ha
      · left; exact ha
  rw [if_neg h1, if_neg h1]
  by_cases h2 : i = j
  · rw [if_pos h2, if_pos h2]
    refine ⟨?_, ?_, ?_, ?_, Nat.le_refl _, fun _ _ _ _ => rfl, fun _ _ => rfl⟩
    · simp only [IntervalIndex.value, insert, store.insert, List.map_append, List.map_cons,
        List.map_take, List.map_drop]
    · intro x hx
      simp only [insert, List.mem_append, List.mem_cons] at hx
      rcases hx with hx | hx | hx
      · exact hv x (List.mem_of_mem_take hx)
      · rw [hx]; exact hn
      · exact hv x (List.mem_of_mem_drop hx)
    · simp only [arrays, insert, List.map_append, List.map_cons, List.map_take, List.map_drop]
      have hperm : (List.take i (List.map (fun x => x.data.arr) ivl.r) ++
          n.data.arr :: List.drop i (List.map (fun x => x.data.arr) ivl.r)).Perm
          (n.data.arr :: List.map (fun x => x.data.arr) ivl.r) := by
        have := (@List.perm_middle _ n.data.arr
          (List.take i (List.map (fun x => x.data.arr) ivl.r))
          (List.drop i (List.map (fun x => x.data.arr) ivl.r)))
        rw [List.take_append_drop] at this
        exact this
      rw [hperm.nodup_iff, List.nodup_cons]
      exact ⟨hnot, hnd⟩
    · intro a ha
      simp only [arrays, insert, List.map_append, List.map_cons, List.map_take, List.map_drop,
        List.mem_append, List.mem_cons] at ha
      rcases ha with ha | ha | ha
      · right; left; exact List.mem_of_mem_take ha
      · left; exact ha
      · right; left; exact List.mem_of_mem_drop ha
  rw [if_neg h2, if_neg h2]
  have hlt : i < j := by omega
  have hil : i < ivl.r.length := by omega
  have hcutH : ∀ x : Modification, cut (ivl.r.set i x) (i + 1) j
      = ivl.r.take i ++ x :: ivl.r.drop j := fun x => cut_set _ _ i j hlt hil
  have hcutV : ∀ x : store.Modification,
      store.cut ((ivl.r.map (Modification.value m)).set i x) (i + 1) j
        = (ivl.r.map (Modification.value m)).take i
          ++ x :: (ivl.r.map (Modification.value m)).drop j :=
    fun x => cut_set _ _ i j hlt (by rw [List.length_map]; exact hil)
  rw [hcutH, hcutV]
  -- the three parts of the index
  have hsplit := split_mid ivl.r i j hij
  have hmidmap : ((ivl.r.map (Modification.value m)).take j).drop i
      = ((ivl.r.take j).drop i).map (Modification.value m) := by
    rw [List.map_drop, List.map_take]
  rw [hmidmap]
  generalize (ivl.r.take j).drop i = mid at hsplit ⊢
  have hnd3 : (arrays (ivl.r.take i) ++ (arrays mid ++ arrays (ivl.r.drop j))).Nodup := by
    have := hnd
    rw [hsplit] at this
    simpa [arrays] using this
  have hmidv : ∀ x ∈ mid, x.data.Valid m := by
    intro x hx
    apply hv x
    rw [hsplit]
    exact List.mem_append_right _ (List.mem_append_left _ hx)
  have hnmid : n.data.arr ∉ arrays mid := by
    intro h
    apply hnot
    rw [hsplit]
    simp only [arrays, List.map_append, List.mem_append] at h ⊢
    right; left; exact h
  rw [List.nodup_append] at hnd3
  obtain ⟨hndA, hndBC, hdisjA⟩ := hnd3
  rw [List.nodup_append] at hndBC
  obtain ⟨hndB, hndC, hdisjB⟩ := hndBC
  obtain ⟨d1, d2, d3, d4, d5, d6⟩ := mergeAll_value grow mid m n hn hmidv hnmid hndB
  -- the intervals that are not merged keep their bytes
  have hkeep : ∀ x, x ∈ ivl.r.take i ∨ x ∈ ivl.r.drop j →
      x.data.arr < m.length ∧ x.data.arr ≠ n.data.arr ∧ x.data.arr ∉ arrays mid := by
    intro x hx
    have hxr : x ∈ ivl.r := by
      rcases hx with hx | hx
      · exact List.mem_of_mem_take hx
      · exact List.mem_of_mem_drop hx
    refine ⟨(hv x hxr).1, ?_, ?_⟩
    · intro h
      apply hnot
      rw [← h]
      exact List.mem_map_of_mem _ hxr
    · intro h
      rcases hx with hx | hx
      · exact hdisjA (List.mem_map_of_mem _ hx) (List.mem_append_left _ h)
      · exact hdisjB h (List.mem_map_of_mem _ hx)
  rw [← d1]
  generalize (mergeAll grow m n mid).1 = m1 at d2 d3 d4 d5 d6 ⊢
  generalize (mergeAll grow m n mid).2 = merged at d2 d3 ⊢
  refine ⟨?_, ?_, ?_, ?_, d4, ?_, d6⟩
  · simp only [IntervalIndex.value, List.map_append, List.map_cons]
    rw [← List.map_take, ← List.map_drop]
    congr 1
    congr 1
    · apply List.map_congr_left
      intro x hx
      obtain ⟨k1, k2, k3⟩ := hkeep x (Or.inl hx)
      exact value_congr m m1 x (d5 _ k1 k2 k3)
    · congr 1
      apply List.map_congr_left
      intro x hx
      obtain ⟨k1, k2, k3⟩ := hkeep x (Or.inr hx)
      exact value_congr m m1 x (d5 _ k1 k2 k3)
  · intro x hx
    simp only [List.mem_append, List.mem_cons] at hx
    rcases hx with hx | hx | hx
    · exact Valid_mono m m1 x.data (hv x (List.mem_of_mem_take hx)) d4
        (d6 _ (hv x (List.mem_of_mem_take hx)).1)
    · rw [hx]; exact d2
    · exact Valid_mono m m1 x.data (hv x (List.mem_of_mem_drop hx)) d4
        (d6 _ (hv x (List.mem_of_mem_drop hx)).1)
  · have hmA : merged.data.arr ∉ arrays (ivl.r.take i) := by
      intro h
      simp only [arrays, List.mem_map] at h
      obtain ⟨x, hx, hxe⟩ := h
      obtain ⟨k1, k2, k3⟩ := hkeep x (Or.inl hx)
      rcases d3 with h3 | h3 | h3
      · rw [h3] at hxe; exact k2 hxe
      · rw [← hxe] at h3; exact k3 h3
      · omega
    have hmC : merged.data.arr ∉ arrays (ivl.r.drop j) := by
      intro h
      simp only [arrays, List.mem_map] at h
      obtain ⟨x, hx, hxe⟩ := h
      obtain ⟨k1, k2, k3⟩ := hkeep x (Or.inr hx)
      rcases d3 with h3 | h3 | h3
      · rw [h3] at hxe; exact k2 hxe
      · rw [← hxe] at h3; exact k3 h3
      · omega
    have e : arrays (ivl.r.take i ++ merged :: ivl.r.drop j)
        = arrays (ivl.r.take i) ++ merged.data.arr :: arrays (ivl.r.drop j) := by
      simp only [arrays, List.map_append, List.map_cons]
    rw [e, List.nodup_append]
    refine ⟨hndA, List.nodup_cons.mpr ⟨hmC, hndC⟩, ?_⟩
    intro a ha hb
    rw [List.mem_cons] at hb
    rcases hb with hb | hb
    · rw [hb] at ha; exact hmA ha
    · exact hdisjA ha (List.mem_append_right _ hb)
  · intro a ha
    simp only [arrays, List.map_append, List.map_cons, List.mem_append, List.mem_cons,
      List.mem_map] at ha
    rcases ha with ⟨x, hx, hxe⟩ | ha | ⟨x, hx, hxe⟩
    · right; left
      rw [← hxe]
      exact List.mem_map_of_mem _ (List.mem_of_mem_take hx)
    · rw [ha]
      rcases d3 with h3 | h3 | h3
      · left; exact h3
      · right; left
        simp only [arrays, List.mem_map] at h3 ⊢
        obtain ⟨x, hx, hxe⟩ := h3
        refine ⟨x, ?_, hxe⟩
        rw [hsplit]
        exact List.mem_append_right _ (List.mem_append_left _ hx)
      · right; right; exact h3
    · right; left
      rw [← hxe]
      exact List.mem_map_of_mem _ (List.mem_of_mem_drop hx)
  · intro a ha han har
    apply d5 a ha han
    intro h
    apply har
    simp only [arrays, List.mem_map] at h ⊢
    obtain ⟨x, hx, hxe⟩ := h
    refine ⟨x, ?_, hxe⟩
    rw [hsplit]
    exact List.mem_append_right _ (List.mem_append_left _ hx)

theorem Seek_value (m : Mem) (l : Layer) (offset whence : Int) :
    (l.Seek offset whence).1.value m = ((l.value m).Seek offset whence).1 := by
  unfold Layer.Seek store.Layer.Seek
  by_cases h : whence = SEEK_END
  · rw [if_pos h, if_pos h]
  · rw [if_neg h, if_neg h]
    rfl

theorem Seek_index (l : Layer) (offset whence : Int) :
    (l.Seek offset whence).1.index = l.index := by
  unfold Layer.Seek
  by_cases h : whence = SEEK_END
  · rw [if_pos h]
  · rw [if_neg h]

theorem map_value_congr (m m1 : Mem) (rest : List Op)
    (h : ∀ b ∈ writeBuffers rest, m1.array b.arr = m.array b.arr) :
    rest.map (Op.value m1) = rest.map (Op.value m) := by
  induction rest with
  | nil => rfl
  | cons op rest ih =>
    cases op with
    | Write b =>
      simp only [List.map_cons, writeBuffers, List.mem_cons, forall_eq_or_imp] at h ⊢
      rw [ih h.2]
      congr 1
      show store.Op.Write (m1.bytes b) = store.Op.Write (m.bytes b)
      unfold Mem.bytes
      rw [h.1]
    | Seek offset whence =>
      simp only [List.map_cons, writeBuffers] at h ⊢
      rw [ih h]
      rfl
    | Truncate size =>
      simp only [List.map_cons, writeBuffers] at h ⊢
      rw [ih h]
      rfl

/-- A run of operations whose write buffers are private does to the slices what
the value-level model does to their bytes. -/
theorem run_value (grow : Nat → Nat → Nat) (ops : List Op) :
    ∀ (m : Mem) (l : Layer), Private m l ops →
      (Layer.run grow (m, l) ops).2.value (Layer.run grow (m, l) ops).1
        = (l.value m).run (ops.map (Op.value m)) ∧
      (∀ x ∈ (Layer.run grow (m, l) ops).2.index.r,
        x.data.Valid (Layer.run grow (m, l) ops).1) := by
  induction ops with
  | nil =>
    intro m l h
    exact ⟨rfl, h.stored⟩
  | cons op rest ih =>
    intro m l h
    cases op with
    | Write b =>
      have hb : b.Valid m := h.bufs b (by simp [writeBuffers])
      have hbn : b.arr ∉ arrays l.index.r := h.apart b (by simp [writeBuffers])
      have hbr : ∀ c ∈ writeBuffers rest, c.Valid m ∧ c.arr ≠ b.arr ∧ c.arr ∉ arrays l.index.r := by
        intro c hc
        refine ⟨h.bufs c (by simp [writeBuffers, hc]), ?_, h.apart c (by simp [writeBuffers, hc])⟩
        have := h.bufs_nodup
        simp only [writeBuffers, List.map_cons, List.nodup_cons] at this
        intro he
        apply this.1
        rw [← he]
        exact List.mem_map_of_mem _ hc
      obtain ⟨a1, a2, a3, a4, a5, a6, a7⟩ :=
        Add_value grow m l.index ⟨l.pos, b⟩ h.stored hb h.nodup hbn
      have hstep : Layer.run grow (m, l) (Op.Write b :: rest)
          = Layer.run grow ((l.index.Add grow m ⟨l.pos, b⟩).1,
              ⟨(l.index.Add grow m ⟨l.pos, b⟩).2, l.r, l.pos + (b.len : Int),
                if l.limit ≥ 0 ∧ l.pos + (b.len : Int) > l.limit then l.pos + (b.len : Int)
                else l.limit⟩) rest := rfl
      rw [hstep]
      generalize (l.index.Add grow m ⟨l.pos, b⟩).1 = m1 at a1 a2 a3 a4 a5 a6 a7 ⊢
      generalize (l.index.Add grow m ⟨l.pos, b⟩).2 = idx1 at a1 a2 a3 a4 ⊢
      have hpriv : Private m1 ⟨idx1, l.r, l.pos + (b.len : Int),
          if l.limit ≥ 0 ∧ l.pos + (b.len : Int) > l.limit then l.pos + (b.len : Int)
          else l.limit⟩ rest := {
        stored := a2
        nodup := a3
        bufs := by
          intro c hc
          obtain ⟨c1, _, _⟩ := hbr c hc
          exact Valid_mono m m1 c c1 a5 (a7 _ c1.1)
        bufs_nodup := by
          have := h.bufs_nodup
          simp only [writeBuffers, List.map_cons, List.nodup_cons] at this
          exact this.2
        apart := by
          intro c hc hmem
          obtain ⟨c1, c2, c3⟩ := hbr c hc
          rcases a4 _ hmem with h4 | h4 | h4
          · exact c2 h4
          · exact c3 h4
          · have := c1.1
            omega }
      obtain ⟨i1, i2⟩ := ih m1 _ hpriv
      refine ⟨?_, i2⟩
      rw [i1]
      have hmap : rest.map (Op.value m1) = rest.map (Op.value m) := by
        apply map_value_congr
        intro c hc
        obtain ⟨c1, c2, c3⟩ := hbr c hc
        exact a6 _ c1.1 c2 c3
      rw [hmap]
      have hlen : (m.bytes b).length = b.len :=
        length_bytes m b (by unfold Slice.Valid at hb; omega)
      have hval : Layer.value m1 ⟨idx1, l.r, l.pos + (b.len : Int),
          if l.limit ≥ 0 ∧ l.pos + (b.len : Int) > l.limit then l.pos + (b.len : Int)
          else l.limit⟩ = (l.value m).step (Op.value m (Op.Write b)) := by
        unfold Layer.value Op.value store.Layer.step store.Layer.Write
        simp only
        rw [a1, hlen]
        rfl
      rw [hval]
      rfl
    | Seek offset whence =>
      have hstep : Layer.run grow (m, l) (Op.Seek offset whence :: rest)
          = Layer.run grow (m, (l.Seek offset whence).1) rest := rfl
      rw [hstep]
      have hpriv : Private m (l.Seek offset whence).1 rest := {
        stored := by rw [Seek_index]; exact h.stored
        nodup := by rw [Seek_index]; exact h.nodup
        bufs := h.bufs
        bufs_nodup := h.bufs_nodup
        apart := by rw [Seek_index]; exact h.apart }
      obtain ⟨i1, i2⟩ := ih m _ hpriv
      refine ⟨?_, i2⟩
      rw [i1, Seek_value]
      rfl
    | Truncate size =>
      have hstep : Layer.run grow (m, l) (Op.Truncate size :: rest)
          = Layer.run grow (m, l.Truncate size) rest := rfl
      rw [hstep]
      have hpriv : Private m (l.Truncate size) rest := {
        stored := h.stored
        nodup := h.nodup
        bufs := h.bufs
        bufs_nodup := h.bufs_nodup
        apart := h.apart }
      obtain ⟨i1, i2⟩ := ih m _ hpriv
      exact ⟨by rw [i1]; rfl, i2⟩

theorem Private_init (m : Mem) (B : List Byte) (ops : List Op)
    (h : privateBuffers m ops = true) : Private m (NewLayer ⟨B, 0⟩) ops := by
  unfold privateBuffers at h
  simp only [Bool.and_eq_true, List.all_eq_true, decide_eq_true_eq] at h
  exact {
    stored := by intro x hx; simp [NewLayer] at hx
    nodup := by simp [NewLayer, arrays]
    bufs := h.1
    bufs_nodup := h.2
    apart := by intro b _; simp [NewLayer, arrays] }

theorem SameOutside_refl (m : Mem) (s : Slice) : SameOutside m m s :=
  ⟨rfl, fun _ _ => rfl, rfl, fun _ _ => rfl⟩

theorem SameOutside_trans {m m1 m2 : Mem} {s : Slice} (h1 : SameOutside m m1 s)
    (h2 : SameOutside m1 m2 s) : SameOutside m m2 s :=
  ⟨h2.length.trans h1.length, fun a ha => (h2.other a ha).trans (h1.other a ha),
    h2.size.trans h1.size, fun j hj => (h2.above j hj).trans (h1.above j hj)⟩

/-- Storing inside the window of a slice: the slice shows the bytes patched, and
nothing outside the window changes. -/
theorem store_window (m : Mem) (s : Slice) (hs : s.arr < m.length)
    (hl : s.off + s.len ≤ (m.array s.arr).length) (p : Nat) (src : List Byte)
    (hp : p + src.length ≤ s.len) :
    (m.store s.arr (s.off + p) src).bytes s
      = (m.bytes s).take p ++ src ++ (m.bytes s).drop (p + src.length) ∧
    SameOutside m (m.store s.arr (s.off + p) src) s := by
  have hb : s.off + p + src.length ≤ (m.array s.arr).length := by omega
  have hlen : (m.bytes s).length = s.len := length_bytes m s hl
  constructor
  · apply List.ext_getElem?
    intro j
    rw [getElem?_bytes_store m s.arr _ _ s hs hb rfl, getElem?_patch _ _ _ (by omega)]
    by_cases hj : j < s.len
    · rw [if_pos hj]
      by_cases hin : p ≤ j ∧ j < p + src.length
      · rw [if_pos hin, if_pos (by omega)]
        congr 1
        omega
      · rw [if_neg hin, if_neg (by omega), getElem?_bytes, if_pos hj]
    · rw [if_neg hj, if_neg (by omega), List.getElem?_eq_none (by omega)]
  · refine ⟨length_store _ _ _ _, fun a ha => array_store_other _ _ _ _ a ha,
      length_array_store _ _ _ _ _ hb, ?_⟩
    intro j hj
    rw [array_store_same m s.arr _ src hs, getElem?_patch _ _ _ hb, if_neg (by omega)]

theorem Valid_of_SameOutside {m m1 : Mem} {s : Slice} (h : SameOutside m m1 s) (x : Slice)
    (hx : x.Valid m) : x.Valid m1 := by
  apply Valid_mono m m1 x hx (by rw [h.length])
  by_cases ha : x.arr = s.arr
  · rw [ha, h.size]
  · rw [h.other _ ha]

/-- One iteration of the overlay loop on slices does what the value-level
iteration does to the bytes. -/
theorem overlayChunk_value (pos : Int) (buf : Slice) (mem : Mem) (n : Int) (c : Modification)
    (hb : buf.arr < mem.length) (hbl : buf.off + buf.len ≤ (mem.array buf.arr).length)
    (hc : c.data.Valid mem) (out : List Byte × Int)
    (h : store.overlayChunk pos (mem.bytes buf, n) (c.value mem) = some out) :
    ∃ mem1, overlayChunk pos buf (mem, n) c = some (mem1, out.2) ∧ mem1.bytes buf = out.1 ∧
      SameOutside mem mem1 buf := by
  have hlen : (mem.bytes buf).length = buf.len := length_bytes mem buf hbl
  have hclen : (mem.bytes c.data).length = c.data.len :=
    length_bytes mem c.data (by unfold Slice.Valid at hc; omega)
  unfold store.overlayChunk at h
  unfold overlayChunk
  simp only [Range_value mem c hc, hlen] at h
  simp only [max_eq, min_eq, Modification.Range] at h ⊢
  obtain ⟨A, hA, hA1, hA2⟩ : ∃ A, Max.max c.offset pos = A ∧ pos ≤ A ∧ c.offset ≤ A :=
    ⟨_, rfl, le_max_right _ _, le_max_left _ _⟩
  obtain ⟨E, hE, hE1, hE2⟩ : ∃ E, Min.min (c.offset + (c.data.len : Int))
      (pos + (buf.len : Int)) = E ∧ E ≤ c.offset + (c.data.len : Int) ∧
      E ≤ pos + (buf.len : Int) :=
    ⟨_, rfl, min_le_left _ _, min_le_right _ _⟩
  rw [hA, hE] at h ⊢
  by_cases hov : E - A < 0
  · rw [if_pos hov] at h
    cases h
  rw [if_neg hov] at h
  rw [if_neg hov]
  simp only [Option.some.injEq] at h
  obtain ⟨bufLo, hbufLo⟩ : ∃ k : Nat, A - pos = (k : Int) := ⟨(A - pos).toNat, by omega⟩
  obtain ⟨ov, hovn⟩ : ∃ k : Nat, E - A = (k : Int) := ⟨(E - A).toNat, by omega⟩
  obtain ⟨chunkLo, hchunkLo⟩ : ∃ k : Nat, A - c.offset = (k : Int) :=
    ⟨(A - c.offset).toNat, by omega⟩
  have e1 : (A - pos).toNat = bufLo := by omega
  have e2 : (E - A).toNat = ov := by omega
  have e3 : (A - pos + (E - A)).toNat = bufLo + ov := by omega
  have e4 : (A - c.offset).toNat = chunkLo := by omega
  have e5 : (A - c.offset + (E - A)).toNat = chunkLo + ov := by omega
  rw [e1, e2, e3, e4] at h
  rw [e1, e4, e5]
  have hsrc : mem.bytes (c.data.sub chunkLo (chunkLo + ov))
      = ((c.value mem).data.drop chunkLo).take ov := by
    rw [bytes_sub mem c.data chunkLo (chunkLo + ov) (by omega), Nat.add_sub_cancel_left]
    rfl
  have hsl : (((c.value mem).data.drop chunkLo).take ov).length = ov := by
    rw [List.length_take, List.length_drop]
    have : (c.value mem).data.length = c.data.len := hclen
    omega
  rw [hsrc]
  obtain ⟨w1, w2⟩ := store_window mem buf hb hbl bufLo (((c.value mem).data.drop chunkLo).take ov)
    (by rw [hsl]; omega)
  rw [hsl] at w1
  refine ⟨_, by rw [← h], ?_, w2⟩
  rw [w1, ← h]

theorem overlayChunks_value (pos : Int) (buf : Slice) (chunks : List Modification) :
    ∀ (mem : Mem) (n : Int) (out : List Byte × Int), buf.arr < mem.length →
      buf.off + buf.len ≤ (mem.array buf.arr).length →
      (∀ c ∈ chunks, c.data.Valid mem ∧ c.data.arr ≠ buf.arr) →
      store.overlayChunks pos (chunks.map (Modification.value mem)) (mem.bytes buf, n) = some out →
      ∃ mem1, overlayChunks pos buf chunks (mem, n) = some (mem1, out.2) ∧
        mem1.bytes buf = out.1 ∧ SameOutside mem mem1 buf := by
  induction chunks with
  | nil =>
    intro mem n out _ _ _ h
    simp only [List.map_nil, store.overlayChunks, Option.some.injEq] at h
    exact ⟨mem, by rw [← h]; rfl, by rw [← h], SameOutside_refl _ _⟩
  | cons c rest ih =>
    intro mem n out hb hbl hcs h
    simp only [List.map_cons, store.overlayChunks] at h
    cases hstep : store.overlayChunk pos (mem.bytes buf, n) (c.value mem) with
    | none => rw [hstep] at h; cases h
    | some st1 =>
      rw [hstep] at h
      simp only at h
      obtain ⟨hc1, hc2⟩ := hcs c (List.mem_cons_self _ _)
      obtain ⟨mem1, k1, k2, k3⟩ := overlayChunk_value pos buf mem n c hb hbl hc1 st1 hstep
      have hmap : rest.map (Modification.value mem1) = rest.map (Modification.value mem) := by
        apply List.map_congr_left
        intro x hx
        exact value_congr mem mem1 x (k3.other _ (hcs x (List.mem_cons_of_mem _ hx)).2)
      have hst : (mem1.bytes buf, st1.2) = st1 := by rw [k2]
      rw [← hmap, ← hst] at h
      obtain ⟨mem2, j1, j2, j3⟩ := ih mem1 st1.2 out (by rw [k3.length]; exact hb)
        (by rw [k3.size]; exact hbl)
        (fun x hx => ⟨Valid_of_SameOutside k3 _ (hcs x (List.mem_cons_of_mem _ hx)).1,
          (hcs x (List.mem_cons_of_mem _ hx)).2⟩) h
      refine ⟨mem2, ?_, j2, SameOutside_trans k3 j3⟩
      simp only [overlayChunks, k1]
      exact j1

theorem Overlays_value (m : Mem) (ivl : IntervalIndex) (hv : ∀ x ∈ ivl.r, x.data.Valid m)
    (start stop : Int) :
    (ivl.value m).Overlays start stop
      = (ivl.Overlays start stop).map (List.map (Modification.value m)) := by
  rw [Overlays_eq]
  unfold IntervalIndex.Overlays
  simp only [Search_idxHi m ivl.r hv, Search_idxLo m ivl.r hv]
  have hvr : (ivl.value m).r = ivl.r.map (Modification.value m) := rfl
  rw [hvr]
  split
  · simp only [Option.map_some', List.map_drop, List.map_take]
  · rfl

theorem Overlays_sub (ivl : IntervalIndex) (start stop : Int) (chunks : List Modification)
    (h : ivl.Overlays start stop = some chunks) : ∀ c ∈ chunks, c ∈ ivl.r := by
  unfold IntervalIndex.Overlays at h
  simp only at h
  split at h
  · cases h
    intro c hc
    exact List.mem_of_mem_take (List.mem_of_mem_drop hc)
  · cases h

/-- What the whole buffer shows once the memory has changed inside its window
only. -/
theorem bytes_window (m m1 : Mem) (buf : Slice) (w : Nat) (hw : w ≤ buf.len)
    (h : SameOutside m m1 ⟨buf.arr, buf.off, w, buf.cap⟩) :
    m1.bytes buf = m1.bytes ⟨buf.arr, buf.off, w, buf.cap⟩ ++ (m.bytes buf).drop w := by
  have e1 : m1.bytes ⟨buf.arr, buf.off, w, buf.cap⟩ = (m1.bytes buf).take w := by
    unfold Mem.bytes
    simp only
    rw [List.take_take, Nat.min_eq_left hw]
  have e2 : (m.bytes buf).drop w = (m1.bytes buf).drop w := by
    apply List.ext_getElem?
    intro j
    rw [List.getElem?_drop, List.getElem?_drop, getElem?_bytes, getElem?_bytes]
    have := h.above (buf.off + (w + j)) (by simp only; omega)
    simp only at this
    rw [this]
  rw [e1, e2, List.take_append_drop]

/-- A `Read` into a slice whose backing array holds no stored interval delivers
what the value-level `Read` delivers for the bytes of the slice. -/
theorem Read_value (m : Mem) (l : Layer) (buf : Slice)
    (hv : ∀ x ∈ l.index.r, x.data.Valid m) (hb : buf.Valid m)
    (hnot : buf.arr ∉ arrays l.index.r) (r : store.ReadResult)
    (h : (l.value m).Read (m.bytes buf) = some r) :
    ∃ res, l.Read m buf = some res ∧ res.mem.bytes buf = r.buf ∧ res.n = r.n ∧
      res.err = r.err := by
  obtain ⟨hb1, hb2, hb3⟩ := hb
  have hlen : (m.bytes buf).length = buf.len := length_bytes m buf (by omega)
  have hlim : (l.value m).limit = l.limit := rfl
  have hpos : (l.value m).pos = l.pos := rfl
  have hr : (l.value m).r = l.r := rfl
  have hidx : (l.value m).index = l.index.value m := rfl
  have hmax : (l.index.value m).Max = l.index.Max := rfl
  unfold store.Layer.Read at h
  unfold Layer.Read
  rw [hlim, hpos, hr, hidx, hmax, hlen] at h
  by_cases hfirst : l.limit ≥ 0 ∧ l.limit - l.pos ≤ 0
  · rw [if_pos hfirst] at h
    rw [if_pos hfirst]
    simp only [Option.some.injEq] at h
    exact ⟨_, rfl, by rw [← h], by rw [← h], by rw [← h]⟩
  rw [if_neg hfirst] at h
  rw [if_neg hfirst]
  -- the window
  obtain ⟨w, hw⟩ : ∃ w : Nat, (if l.limit ≥ 0 ∧ l.limit - l.pos < (buf.len : Int)
      then (l.limit - l.pos).toNat else buf.len) = w := ⟨_, rfl⟩
  have hwle : w ≤ buf.len := by
    rw [← hw]
    split <;> omega
  have hbuf1 : (if l.limit ≥ 0 ∧ l.limit - l.pos < (buf.len : Int)
      then buf.sub 0 (l.limit - l.pos).toNat else buf) = ⟨buf.arr, buf.off, w, buf.cap⟩ := by
    rw [← hw]
    split
    · simp only [Slice.sub, Nat.add_zero, Nat.sub_zero]
    · rfl
  simp only [hw] at h
  simp only [hbuf1]
  obtain ⟨win, hwin⟩ : ∃ win : Slice, win = ⟨buf.arr, buf.off, w, buf.cap⟩ := ⟨_, rfl⟩
  rw [← hwin]
  have hwa : win.arr = buf.arr := by rw [hwin]
  have hwo : win.off = buf.off := by rw [hwin]
  have hwl : win.len = w := by rw [hwin]
  have hwb : m.bytes win = (m.bytes buf).take w := by
    rw [hwin]
    unfold Mem.bytes
    simp only
    rw [List.take_take, Nat.min_eq_left hwle]
  rw [hwb]
  have hb0 : ((m.bytes buf).take w).length = w := by
    rw [List.length_take, hlen]; omega
  have hbl := Reader_Read_length l.r ((m.bytes buf).take w)
  have hbn := Reader_Read_n l.r ((m.bytes buf).take w)
  rw [hb0] at hbl hbn
  generalize l.r.Read ((m.bytes buf).take w) = base at h hbl hbn ⊢
  obtain ⟨r1, b1, n, err⟩ := base
  simp only at h hbl hbn ⊢
  have hws : win.arr < m.length := by rw [hwa]; exact hb1
  have hwv : win.off + win.len ≤ (m.array win.arr).length := by
    rw [hwa, hwo, hwl]; omega
  -- the bytes of the base stream
  obtain ⟨s1, s2⟩ := store_window m win hws hwv 0 b1 (by rw [hbl, hwl]; omega)
  rw [hwa, hwo, Nat.add_zero] at s1
  have hs1 : (m.store buf.arr buf.off b1).bytes win = b1 := by
    rw [s1, List.take_zero, List.nil_append, Nat.zero_add,
      List.drop_of_length_le (by rw [hwb, hb0, hbl]), List.append_nil]
  rw [hwa, hwo, Nat.add_zero] at s2
  generalize m.store buf.arr buf.off b1 = m1 at s2 hs1 h ⊢
  -- the fill with '@'
  obtain ⟨m2, hm2⟩ : ∃ m2, m2 = (if decide (err = some IOError.EOF ∧ l.pos < l.index.Max) = true
      then m1.store buf.arr (buf.off + n.toNat) (List.replicate (w - n.toNat) 64) else m1) :=
    ⟨_, rfl⟩
  obtain ⟨b2, hb2e⟩ : ∃ b2, b2 = (if decide (err = some IOError.EOF ∧ l.pos < l.index.Max) = true
      then b1.take n.toNat ++ List.replicate (b1.length - n.toNat) 64 else b1) := ⟨_, rfl⟩
  rw [← hm2]
  rw [← hb2e] at h
  have hfill : m2.bytes win = b2 ∧ SameOutside m m2 win := by
    by_cases hext : decide (err = some IOError.EOF ∧ l.pos < l.index.Max) = true
    · rw [if_pos hext] at hm2 hb2e
      obtain ⟨t1, t2⟩ := store_window m1 win (by rw [s2.length]; exact hws)
        (by rw [s2.size]; exact hwv) n.toNat (List.replicate (w - n.toNat) 64)
        (by rw [List.length_replicate, hwl]; omega)
      rw [hwa, hwo] at t1 t2
      rw [← hm2] at t1 t2
      refine ⟨?_, SameOutside_trans s2 t2⟩
      rw [t1, hs1, hb2e, hbl, List.length_replicate,
        List.drop_of_length_le (by rw [hbl]; omega), List.append_nil]
    · rw [if_neg hext] at hm2 hb2e
      rw [hm2, hb2e]
      exact ⟨hs1, s2⟩
  obtain ⟨f1, f2⟩ := hfill
  have hfinal : ∀ m3, SameOutside m m3 win →
      m3.bytes buf = m3.bytes win ++ (m.bytes buf).drop w := by
    intro m3 h3
    rw [hwin] at h3 ⊢
    exact bytes_window m m3 buf w hwle h3
  clear hm2 hb2e
  -- the error of the base stream
  cases herr2 : (if decide (err = some IOError.EOF ∧ l.pos < l.index.Max) = true then none
      else err) with
  | some e =>
    rw [herr2] at h
    simp only [Option.some.injEq] at h
    refine ⟨_, rfl, ?_, by rw [← h], by rw [← h]⟩
    simp only
    rw [hfinal m2 f2, f1, ← h]
  | none =>
    rw [herr2] at h
    simp only at h
    rw [Overlays_value m l.index hv] at h
    cases hov : l.index.Overlays l.pos (l.pos + (w : Int)) with
    | none => rw [hov] at h; cases h
    | some chunks =>
      rw [hov] at h
      simp only [Option.map_some'] at h
      have hsub := Overlays_sub l.index _ _ chunks hov
      have hcs : ∀ c ∈ chunks, c.data.Valid m2 ∧ c.data.arr ≠ win.arr := by
        intro c hc
        refine ⟨Valid_of_SameOutside f2 _ (hv c (hsub c hc)), ?_⟩
        intro he
        apply hnot
        rw [← hwa, ← he]
        exact List.mem_map_of_mem _ (hsub c hc)
      have hmap : chunks.map (Modification.value m2) = chunks.map (Modification.value m) := by
        apply List.map_congr_left
        intro x hx
        exact value_congr m m2 x (f2.other _ (hcs x hx).2)
      rw [← hmap, ← f1] at h
      cases hoc : store.overlayChunks l.pos (chunks.map (Modification.value m2))
          (m2.bytes win, n) with
      | none => rw [hoc] at h; cases h
      | some out =>
        rw [hoc] at h
        simp only [Option.some.injEq] at h
        obtain ⟨m3, q1, q2, q3⟩ := overlayChunks_value l.pos win chunks m2 n out
          (by rw [f2.length]; exact hws) (by rw [f2.size]; exact hwv) hcs hoc
        simp only [q1]
        refine ⟨_, rfl, ?_, by rw [← h], by rw [← h]⟩
        simp only
        rw [hfinal m3 (SameOutside_trans f2 q3), q2, ← h]

theorem value_append (m : Mem) (x : List Byte) (l : Layer)
    (hv : ∀ c ∈ l.index.r, c.data.Valid m) : l.value (m ++ [x]) = l.value m := by
  unfold Layer.value IntervalIndex.value
  congr 2
  apply List.map_congr_left
  intro c hc
  exact value_congr m _ c (array_append_lt m x _ (hv c hc).1)

/-- Reading back on slices, into a buffer allocated for it, delivers what the
value-level model delivers. -/
theorem readBack_value (m : Mem) (l : Layer) (hv : ∀ c ∈ l.index.r, c.data.Valid m)
    (out : List Byte) (h : (l.value m).readBack = some out) : readBack (m, l) = some out := by
  unfold store.Layer.readBack at h
  unfold readBack
  simp only at h ⊢
  have hmin : (l.value m).MinSize = l.MinSize := rfl
  rw [hmin] at h
  generalize l.MinSize.toNat = size at h ⊢
  have hv1 : ∀ c ∈ (l.Seek 0 SEEK_SET).1.index.r, c.data.Valid (m ++ [List.replicate size 0]) := by
    intro c hc
    rw [Seek_index] at hc
    have := hv c hc
    exact Valid_mono m _ c.data this (by simp) (by rw [array_append_lt m _ _ this.1])
  have hbv : (Slice.mk m.length 0 size size).Valid (m ++ [List.replicate size 0]) := by
    unfold Slice.Valid
    simp only
    rw [array_append_new]
    simp
  have hnot : (Slice.mk m.length 0 size size).arr
      ∉ arrays (l.Seek 0 SEEK_SET).1.index.r := by
    intro hmem
    rw [Seek_index] at hmem
    simp only [arrays, List.mem_map] at hmem
    obtain ⟨c, hc, hce⟩ := hmem
    have := (hv c hc).1
    omega
  have hbytes : Mem.bytes (m ++ [List.replicate size 0]) ⟨m.length, 0, size, size⟩
      = List.replicate size 0 := by
    rw [bytes_new, List.take_of_length_le (by rw [List.length_replicate])]
  have hlv : (l.Seek 0 SEEK_SET).1.value (m ++ [List.replicate size 0])
      = ((l.value m).Seek 0 SEEK_SET).1 := by
    rw [Seek_value, value_append m _ l hv]
  cases hread : ((l.value m).Seek 0 SEEK_SET).1.Read (List.replicate size 0) with
  | none => rw [hread] at h; cases h
  | some r =>
    rw [hread] at h
    simp only [Option.some.injEq] at h
    have hread1 : ((l.Seek 0 SEEK_SET).1.value (m ++ [List.replicate size 0])).Read
        (Mem.bytes (m ++ [List.replicate size 0]) ⟨m.length, 0, size, size⟩) = some r := by
      rw [hlv, hbytes]
      exact hread
    obtain ⟨res, k1, k2, k3, _⟩ := Read_value _ _ _ hv1 hbv hnot r hread1
    rw [k1]
    simp only
    rw [k2, k3, h]

/-- C7 (amended): for every base `B`, every memory and every sequence of
`Write`, `Seek` and `Truncate` operations whose write buffers are private (each
lies within a backing array of its own, `privateBuffers`) and which is
admissible (`admissible`: seeks with `SEEK_SET` or `SEEK_CUR` to a position that
is not negative and, while the layer is truncated, not beyond the limit;
`Truncate` to a size between 0 and the length of the data, or to a negative
size while the layer is not truncated; every write beginning within or right at
the end of the data so far and not ending strictly inside an interval the index
holds at that moment), reading the layer from offset 0 up to
`MinSize()` into a buffer allocated for it yields the bytes a plain in-memory
buffer initialised from `B` holds there after the same operations, whatever
capacity `append` gives to the arrays it allocates. -/
theorem overlay_round_trip (grow : Nat → Nat → Nat) (B : List Byte) (m : Mem) (ops : List Op)
    (hpriv : privateBuffers m ops = true)
    (hadm : admissible (store.NewLayer ⟨B, 0⟩) ⟨B, 0⟩ (ops.map (Op.value m)) = true) :
    readBack (Layer.run grow (m, NewLayer ⟨B, 0⟩) ops)
      = some (((PlainBuffer.mk B 0).run (ops.map (Op.value m))).data.take
          (Layer.run grow (m, NewLayer ⟨B, 0⟩) ops).2.MinSize.toNat) := by
  obtain ⟨hval, hstored⟩ := run_value grow ops m (NewLayer ⟨B, 0⟩) (Private_init m B ops hpriv)
  have hnew : (NewLayer ⟨B, 0⟩).value m = store.NewLayer ⟨B, 0⟩ := rfl
  rw [hnew] at hval
  have hsim := Simulates_run B (ops.map (Op.value m)) _ _ (Simulates_init B) hadm
  have hrb := readBack_of_Simulates hsim
  rw [← hval] at hrb
  exact readBack_value _ _ hstored _ hrb

/-- The amended C7 at two merging writes, a `Truncate` and a write that extends
the data again. -/
theorem overlay_round_trip_witness :
    privateBuffers [[1, 2], [65, 65, 65], [7, 7, 7]]
        [Op.Write ⟨0, 0, 2, 2⟩, Op.Seek 1 SEEK_SET, Op.Write ⟨1, 0, 3, 3⟩, Op.Truncate 2,
          Op.Seek (-2) SEEK_CUR, Op.Write ⟨2, 0, 3, 3⟩] = true ∧
      readBack (Layer.run (fun cap _ => cap) ([[1, 2], [65, 65, 65], [7, 7, 7]],
          NewLayer ⟨[48, 49, 50], 0⟩)
        [Op.Write ⟨0, 0, 2, 2⟩, Op.Seek 1 SEEK_SET, Op.Write ⟨1, 0, 3, 3⟩, Op.Truncate 2,
          Op.Seek (-2) SEEK_CUR, Op.Write ⟨2, 0, 3, 3⟩])
        = some [1, 65, 7, 7, 7] :=
  ⟨by decide,
    (overlay_round_trip (fun cap _ => cap) [48, 49, 50] [[1, 2], [65, 65, 65], [7, 7, 7]]
      [Op.Write ⟨0, 0, 2, 2⟩, Op.Seek 1 SEEK_SET, Op.Write ⟨1, 0, 3, 3⟩, Op.Truncate 2,
        Op.Seek (-2) SEEK_CUR, Op.Write ⟨2, 0, 3, 3⟩]
      (by decide) (by decide)).trans (by decide)⟩

/-- C8 (failing input): over the base `"00000000001111111111"` the caller holds
one buffer of 20 bytes `'X'`, seeks to 5, writes `buf[5:10]`, seeks to 0 and
reads into `buf`.  `Write` has put the slice of the caller into the index, so
the bytes the base stream copies into `buf` are the bytes of the stored interval
as well, and `Read` returns the 20 bytes of the base unchanged, not
`"00000XXXXX1111111111"`. -/
theorem Write_keeps_caller_slice (grow : Nat → Nat → Nat) :
    Layer.run grow ([List.replicate 20 88], NewLayer
          ⟨[48, 48, 48, 48, 48, 48, 48, 48, 48, 48, 49, 49, 49, 49, 49, 49, 49, 49, 49, 49], 0⟩)
        [Op.Seek 5 SEEK_SET, Op.Write ⟨0, 5, 5, 15⟩, Op.Seek 0 SEEK_SET]
      = ([List.replicate 20 88], ⟨⟨[⟨5, ⟨0, 5, 5, 15⟩⟩], 10⟩,
          ⟨[48, 48, 48, 48, 48, 48, 48, 48, 48, 48, 49, 49, 49, 49, 49, 49, 49, 49, 49, 49], 0⟩,
          0, -1⟩) ∧
    ((Layer.mk ⟨[⟨5, ⟨0, 5, 5, 15⟩⟩], 10⟩
          ⟨[48, 48, 48, 48, 48, 48, 48, 48, 48, 48, 49, 49, 49, 49, 49, 49, 49, 49, 49, 49], 0⟩
          0 (-1)).Read [List.replicate 20 88] ⟨0, 0, 20, 20⟩).map
        (fun res => (res.n, res.err, res.mem.bytes ⟨0, 0, 20, 20⟩))
      = some (20, none,
          [48, 48, 48, 48, 48, 48, 48, 48, 48, 48, 49, 49, 49, 49, 49, 49, 49, 49, 49, 49]) ∧
    ([48, 48, 48, 48, 48, 48, 48, 48, 48, 48, 49, 49, 49, 49, 49, 49, 49, 49, 49, 49] : List Byte)
      ≠ [48, 48, 48, 48, 48, 88, 88, 88, 88, 88, 49, 49, 49, 49, 49, 49, 49, 49, 49, 49] :=
  ⟨rfl, by decide, by decide⟩

/-- C9 (failing input): over the base `"0123456789"`, after `Truncate(0)`,
`Seek(0, SEEK_SET)`, `Write(buf)` with `buf = "ABC"` and `Seek(0, SEEK_SET)`,
reading until EOF into the same `buf` delivers `"012"` and then EOF, not
`"ABC"`: the index holds the slice of the caller, and the base stream copies its
bytes into it before the overlay pass copies the slice onto itself. -/
theorem Read_into_written_buffer (grow : Nat → Nat → Nat) :
    Layer.run grow ([[65, 66, 67]], NewLayer ⟨[48, 49, 50, 51, 52, 53, 54, 55, 56, 57], 0⟩)
        [Op.Truncate 0, Op.Seek 0 SEEK_SET, Op.Write ⟨0, 0, 3, 3⟩, Op.Seek 0 SEEK_SET]
      = ([[65, 66, 67]], ⟨⟨[⟨0, ⟨0, 0, 3, 3⟩⟩], 3⟩,
          ⟨[48, 49, 50, 51, 52, 53, 54, 55, 56, 57], 0⟩, 0, 3⟩) ∧
    Layer.readAll ⟨0, 0, 3, 3⟩ 4 ([[65, 66, 67]], ⟨⟨[⟨0, ⟨0, 0, 3, 3⟩⟩], 3⟩,
          ⟨[48, 49, 50, 51, 52, 53, 54, 55, 56, 57], 0⟩, 0, 3⟩)
      = some ([48, 49, 50], some IOError.EOF) :=
  ⟨rfl, by decide⟩

/-- Write buffers cut from one backing array: `Write(big[0:2])`, `Seek(5)`,
`Write(big[2:4])`, `Seek(1)`, `Write([9, 9])` over a base of eight bytes `7`.
The append of `Merge` stays within the capacity of `big[0:2]` and overwrites
`big[2]`, the first byte of the second stored interval: the layer reads back
`[1, 9, 9, 7, 7, 9, 4]`, the plain buffer holds `[1, 9, 9, 7, 7, 3, 4]`. -/
theorem Merge_appends_into_neighbour :
    readBack (Layer.run (fun _ _ => 0) ([[1, 2, 3, 4], [9, 9]], NewLayer ⟨[7, 7, 7, 7, 7, 7, 7, 7], 0⟩)
        [Op.Write ⟨0, 0, 2, 4⟩, Op.Seek 5 SEEK_SET, Op.Write ⟨0, 2, 2, 2⟩, Op.Seek 1 SEEK_SET,
          Op.Write ⟨1, 0, 2, 2⟩]) = some [1, 9, 9, 7, 7, 9, 4] ∧
    ((PlainBuffer.mk [7, 7, 7, 7, 7, 7, 7, 7] 0).run
        [store.Op.Write [1, 2], store.Op.Seek 5 SEEK_SET, store.Op.Write [3, 4],
          store.Op.Seek 1 SEEK_SET, store.Op.Write [9, 9]]).data.take 7 = [1, 9, 9, 7, 7, 3, 4] := by
  decide

end heap

/-- C7 (as stated, refuted): the round trip fails
* after `Truncate(2)`, `Seek(4, SEEK_SET)`, `Write("A")` over the base
  `"0123456789"` (a seek beyond the limit raises it: the layer delivers
  `"0123A"`, the plain buffer holds `"01\0\0A"`);
* after `Seek(3, SEEK_SET)`, `Write([1])` over an empty base (the layer fills
  the gap with `'@'`, the plain buffer with zero bytes);
* after `Write` of ten bytes, `Seek(8, SEEK_SET)`, `Write([66])` (the write ends
  strictly inside the stored interval and `Merge` appends the wrong tail);
* after `Write` of three bytes, `Truncate(1)`, `Truncate(-1)` (the negative size
  switches the limit off and the bytes cut off are back);
* after `Truncate(5)`, `Seek(3, SEEK_SET)`, `Write([1])` over an empty base (a
  `Truncate` beyond the end of the data does not extend it with zero bytes);
* after `Seek(-1, SEEK_SET)`, `Write([1])`, `Write([2])` over an empty base (the
  layer takes the negative position). -/
theorem overlay_round_trip_fails :
    ¬ RoundTrip [48, 49, 50, 51, 52, 53, 54, 55, 56, 57]
        [Op.Truncate 2, Op.Seek 4 SEEK_SET, Op.Write [65]]
      ∧ ((NewLayer ⟨[48, 49, 50, 51, 52, 53, 54, 55, 56, 57], 0⟩).run
          [Op.Truncate 2, Op.Seek 4 SEEK_SET, Op.Write [65]]).readBack
        = some [48, 49, 50, 51, 65]
      ∧ ((PlainBuffer.mk [48, 49, 50, 51, 52, 53, 54, 55, 56, 57] 0).run
          [Op.Truncate 2, Op.Seek 4 SEEK_SET, Op.Write [65]]).data = [48, 49, 0, 0, 65]
      ∧ ¬ RoundTrip [] [Op.Seek 3 SEEK_SET, Op.Write [1]]
      ∧ ((NewLayer ⟨[], 0⟩).run [Op.Seek 3 SEEK_SET, Op.Write [1]]).readBack
        = some [64, 64, 64, 1]
      ∧ ¬ RoundTrip [] [Op.Write [1, 2, 3, 4, 5, 6, 7, 8, 9, 10], Op.Seek 8 SEEK_SET, Op.Write [66]]
      ∧ ((NewLayer ⟨[], 0⟩).run
          [Op.Write [1, 2, 3, 4, 5, 6, 7, 8, 9, 10], Op.Seek 8 SEEK_SET, Op.Write [66]]).readBack
        = some [1, 2, 3, 4, 5, 6, 7, 8, 66, 1]
      ∧ ¬ RoundTrip [] [Op.Write [1, 2, 3], Op.Truncate 1, Op.Truncate (-1)]
      ∧ ¬ RoundTrip [] [Op.Truncate 5, Op.Seek 3 SEEK_SET, Op.Write [1]]
      ∧ ¬ RoundTrip [] [Op.Seek (-1) SEEK_SET, Op.Write [1], Op.Write [2]] := by
  decide

/-! ## The truncation limit and `Seek` -/

/-- One overlay step that does not panic keeps the length of the buffer and
leaves `n` between its old value and the length of the buffer, whatever the
chunk is. -/
theorem overlayChunk_bound (pos : Int) (buf : List Byte) (n : Int) (c : Modification)
    (out : List Byte × Int) (h : overlayChunk pos (buf, n) c = some out) :
    out.1.length = buf.length ∧ n ≤ out.2 ∧ out.2 ≤ Max.max n (buf.length : Int) := by
  have hov : ¬ (min c.Range.2 (pos + (buf.length : Int)) - max c.Range.1 pos < 0) := by
    intro hneg
    unfold overlayChunk at h
    simp only [if_pos hneg] at h
    exact Option.noConfusion h
  rw [max_eq, min_eq] at hov
  have h1 : pos ≤ c.Range.2 := by omega
  have h2 : c.Range.1 ≤ pos + (buf.length : Int) := by omega
  obtain ⟨buf1, hrun, hlen, -⟩ := overlayChunk_spec pos buf n c h1 h2
  rw [hrun] at h
  cases h
  refine ⟨hlen, ?_, ?_⟩
  · simp only; omega
  · simp only; omega

/-- The overlay loop, when it does not panic, keeps the length of the buffer and
leaves `n` between its old value and the length of the buffer. -/
theorem overlayChunks_bound (pos : Int) (chunks : List Modification) :
    ∀ (buf : List Byte) (n : Int) (out : List Byte × Int),
      overlayChunks pos chunks (buf, n) = some out →
      out.1.length = buf.length ∧ n ≤ out.2 ∧ out.2 ≤ Max.max n (buf.length : Int) := by
  induction chunks with
  | nil =>
    intro buf n out h
    simp only [overlayChunks] at h
    cases h
    exact ⟨rfl, le_refl _, le_max_left _ _⟩
  | cons c rest ih =>
    intro buf n out h
    simp only [overlayChunks] at h
    cases hc : overlayChunk pos (buf, n) c with
    | none => rw [hc] at h; exact Option.noConfusion h
    | some st1 =>
      rw [hc] at h
      obtain ⟨b1, n1⟩ := st1
      have h1 := overlayChunk_bound pos buf n c (b1, n1) hc
      have h2 := ih b1 n1 out h
      simp only at h1
      rw [h1.1] at h2
      refine ⟨h2.1, ?_, ?_⟩ <;> omega

/-- C11: with the truncation limit enabled (`limit ≥ 0`), `Read` at `pos ≥ limit`
returns 0 bytes and EOF and changes neither the layer nor the buffer.  At
`pos < limit` every result of `Read` (there is one whenever the index is sorted
and disjoint) has `0 ≤ n ≤ limit - pos`, so `pos` ends at or below the limit,
and the buffer is unchanged at every index whose offset `pos + j` is at or
beyond the limit: no byte at an offset `≥ limit` is delivered. -/
theorem Read_within_limit (l : Layer) (buf : List Byte) (hlim : 0 ≤ l.limit) :
    (l.limit ≤ l.pos → l.Read buf = some ⟨l, buf, 0, some IOError.EOF⟩) ∧
    (l.pos < l.limit →
      (l.index.Disjoint → ∃ res, l.Read buf = some res) ∧
      ∀ res, l.Read buf = some res →
        0 ≤ res.n ∧ res.n ≤ l.limit - l.pos ∧ res.n ≤ (buf.length : Int) ∧
        res.layer.pos = l.pos + res.n ∧ res.layer.pos ≤ l.limit ∧
        res.layer.limit = l.limit ∧
        res.buf.length = buf.length ∧
        ∀ j : Nat, l.limit ≤ l.pos + (j : Int) → res.buf[j]? = buf[j]?) := by
  constructor
  · intro h
    rw [Read_eq, if_pos ⟨hlim, by omega⟩]
  · intro h
    have hno : ¬ (l.limit ≥ 0 ∧ l.limit - l.pos ≤ 0) := by omega
    have hw := window_le l buf
    have hwl : (l.window buf : Int) ≤ l.limit - l.pos := by
      unfold Layer.window
      split <;> omega
    have hbl := baseFill_length l buf
    have hbn := Reader_Read_n l.r (buf.take (l.window buf))
    rw [List.length_take, Nat.min_eq_left hw] at hbn
    have htail : ∀ (win : List Byte), win.length = l.window buf →
        ∀ j : Nat, l.limit ≤ l.pos + (j : Int) →
          (win ++ buf.drop (l.window buf))[j]? = buf[j]? := by
      intro win hwin j hj
      rw [List.getElem?_append_right (by omega), List.getElem?_drop, hwin]
      congr 1
      omega
    have hlen : ∀ (win : List Byte), win.length = l.window buf →
        (win ++ buf.drop (l.window buf)).length = buf.length := by
      intro win hwin
      rw [List.length_append, List.length_drop, hwin]
      omega
    constructor
    · intro hd
      rw [Read_eq, if_neg hno]
      split
      · exact ⟨_, rfl⟩
      · obtain ⟨chunks, buf1, n1, hov, hrun, -⟩ :=
          index_overlay l.index hd l.pos (l.baseFill buf) (l.r.Read (buf.take (l.window buf))).2.2.1
        rw [hbl] at hov
        rw [hov]
        simp only [hrun]
        exact ⟨_, rfl⟩
    · intro res hres
      rw [Read_eq, if_neg hno] at hres
      split at hres
      · cases hres
        simp only
        refine ⟨le_refl _, by omega, by omega, by omega, by omega, trivial, hlen _ hbl, htail _ hbl⟩
      · split at hres
        · exact Option.noConfusion hres
        · split at hres
          · exact Option.noConfusion hres
          · rename_i out hout
            have hb := overlayChunks_bound l.pos _ _ _ out hout
            rw [hbl] at hb
            cases hres
            simp only
            refine ⟨by omega, by omega, by omega, trivial, by omega, trivial, hlen _ hb.1, htail _ hb.1⟩

/-- A layer truncated to 3 bytes: at `pos = 3` the read gives EOF, at `pos = 0`
a read into 5 bytes delivers at most 3. -/
theorem Read_within_limit_witness :
    (0 : Int) ≤ 3 ∧
    (Layer.mk ⟨[⟨1, [9, 9, 9, 9]⟩], 5⟩ ⟨[1, 2, 3, 4, 5, 6], 0⟩ 3 3).Read [0, 0]
      = some ⟨Layer.mk ⟨[⟨1, [9, 9, 9, 9]⟩], 5⟩ ⟨[1, 2, 3, 4, 5, 6], 0⟩ 3 3, [0, 0], 0,
          some IOError.EOF⟩ ∧
    ∃ res, (Layer.mk ⟨[⟨1, [9, 9, 9, 9]⟩], 5⟩ ⟨[1, 2, 3, 4, 5, 6], 0⟩ 0 3).Read [0, 0, 0, 0, 0]
        = some res ∧ res.n ≤ 3 ∧ res.layer.pos ≤ 3 ∧ res.buf[3]? = some 0 := by
  have h0 := Read_within_limit (Layer.mk ⟨[⟨1, [9, 9, 9, 9]⟩], 5⟩ ⟨[1, 2, 3, 4, 5, 6], 0⟩ 3 3)
    [0, 0] (by decide)
  have h := Read_within_limit (Layer.mk ⟨[⟨1, [9, 9, 9, 9]⟩], 5⟩ ⟨[1, 2, 3, 4, 5, 6], 0⟩ 0 3)
    [0, 0, 0, 0, 0] (by decide)
  obtain ⟨hex, hall⟩ := h.2 (by decide)
  obtain ⟨res, hres⟩ := hex (by decide)
  have hr := hall res hres
  exact ⟨by decide, h0.1 (by decide), res, hres, hr.2.1, hr.2.2.2.2.1,
    (hr.2.2.2.2.2.2.2 3 (by decide)).trans (by decide)⟩

/-- C12: the state transition of `Layer.Seek`.  For `SEEK_SET` the new `pos` is
`offset`, for `SEEK_CUR` it is `pos + offset`; in both cases the limit
afterwards is the new `pos` if `limit ≥ 0` and the new `pos` exceeds it, and is
unchanged otherwise.  For `SEEK_END` an error is returned and the layer (so
`pos` and `limit`) is left as it was. -/
theorem Seek_transition (l : Layer) (offset : Int) :
    (l.Seek offset SEEK_SET).1.pos = offset ∧
    (l.Seek offset SEEK_CUR).1.pos = l.pos + offset ∧
    (∀ whence, whence = SEEK_SET ∨ whence = SEEK_CUR →
      (l.Seek offset whence).1.limit
        = if l.limit ≥ 0 ∧ (l.Seek offset whence).1.pos > l.limit
          then (l.Seek offset whence).1.pos else l.limit) ∧
    (l.Seek offset SEEK_END).2.2 = some IOError.SeekEndUnsupported ∧
    (l.Seek offset SEEK_END).1 = l := by
  refine ⟨?_, ?_, ?_, ?_, ?_⟩
  · simp [Layer.Seek, SEEK_SET, SEEK_CUR, SEEK_END]
  · simp [Layer.Seek, SEEK_SET, SEEK_CUR, SEEK_END]
  · intro whence hw
    rcases hw with hw | hw <;> subst hw <;> simp [Layer.Seek, SEEK_SET, SEEK_CUR, SEEK_END]
  · simp [Layer.Seek]
  · simp [Layer.Seek]

/-! ## Position synchronisation and progress of `Read` -/

/-- `Seek` on a layer without stored intervals and without limit whose base
stream is at `pos`: if the new position is not negative, the base stream is at
the new position. -/
theorem Seek_synced (l : Layer) (offset whence : Int)
    (hi : l.index = IntervalIndex.empty) (hl : l.limit = -1) (hs : (l.r.i : Int) = l.pos)
    (ht : 0 ≤ (l.Seek offset whence).1.pos) :
    (l.Seek offset whence).1.index = IntervalIndex.empty ∧ (l.Seek offset whence).1.limit = -1 ∧
      ((l.Seek offset whence).1.r.i : Int) = (l.Seek offset whence).1.pos := by
  unfold Layer.Seek at ht ⊢
  by_cases hend : whence = SEEK_END
  · rw [if_pos hend]
    exact ⟨hi, hl, hs⟩
  · rw [if_neg hend] at ht ⊢
    simp only at ht ⊢
    refine ⟨hi, by rw [hl]; simp, ?_⟩
    unfold Reader.Seek
    by_cases hcur : whence = SEEK_CUR
    · subst hcur
      simp only [if_true] at ht ⊢
      have e1 : ¬ SEEK_CUR = SEEK_SET := by decide
      simp only [e1, false_or, true_or, if_true, if_false]
      rw [if_neg (by omega)]
      simp only
      omega
    · by_cases hset : whence = SEEK_SET
      · subst hset
        simp only [hcur, if_false, if_true] at ht ⊢
        simp only [true_or, if_true]
        rw [if_neg (by omega)]
        simp only
        omega
      · simp only [hcur, hset, hend, if_false, or_self]
        exact hs

/-- `Read` on a layer without stored intervals and without limit whose base
stream is at `pos`: no panic, and the base stream is at `pos` afterwards. -/
theorem Read_synced (l : Layer) (buf : List Byte)
    (hi : l.index = IntervalIndex.empty) (hl : l.limit = -1) (hs : (l.r.i : Int) = l.pos) :
    ∃ res, l.Read buf = some res ∧ res.layer.index = IntervalIndex.empty ∧
      res.layer.limit = -1 ∧ (res.layer.r.i : Int) = res.layer.pos := by
  have hw : l.window buf = buf.length := window_of_no_limit l buf (by rw [hl]; decide)
  have hext : l.extending buf = false := by
    unfold Layer.extending
    rw [hi]
    apply decide_eq_false
    intro h
    have : l.pos < 0 := h.2
    omega
  have hlim : ¬ (l.limit ≥ 0 ∧ l.limit - l.pos ≤ 0) := by
    rw [hl]
    intro h
    omega
  rw [Read_eq, if_neg hlim, hext]
  simp only [Bool.false_eq_true, if_false, hw, List.take_length]
  by_cases hdata : l.r.i < l.r.s.length
  · rw [Reader_Read_data l.r buf hdata]
    simp only
    rw [Overlays_isSome l.index (by omega)]
    simp only [hi, IntervalIndex.empty, List.take_nil, List.drop_nil, overlayChunks]
    refine ⟨_, rfl, rfl, hl, ?_⟩
    simp only
    omega
  · rw [Reader_Read_eof l.r buf (by omega)]
    exact ⟨_, rfl, hi, hl, hs⟩

/-- A sequence of `Seek` and `Read` calls that never seeks to a negative
position, started on a layer without stored intervals and without limit whose
base stream is at `pos`, runs without panic and leaves the base stream at
`pos`. -/
theorem calls_synced_from (calls : List Call) :
    ∀ l : Layer, l.index = IntervalIndex.empty → l.limit = -1 → (l.r.i : Int) = l.pos →
      l.seeksAndReads calls = true →
      ∃ l1, l.calls calls = some l1 ∧ (l1.r.i : Int) = l1.pos := by
  induction calls with
  | nil => intro l _ _ hs _; exact ⟨l, rfl, hs⟩
  | cons c rest ih =>
    intro l hi hl hs hc
    cases c with
    | Write buf => simp [Layer.seeksAndReads] at hc
    | Seek offset whence =>
      simp only [Layer.seeksAndReads, Bool.and_eq_true, decide_eq_true_eq] at hc
      obtain ⟨h1, h2, h3⟩ := Seek_synced l offset whence hi hl hs hc.1
      simp only [Layer.calls, Layer.call]
      exact ih _ h1 h2 h3 hc.2
    | Read buf =>
      obtain ⟨res, hres, h1, h2, h3⟩ := Read_synced l buf hi hl hs
      simp only [Layer.seeksAndReads, hres] at hc
      simp only [Layer.calls, Layer.call, hres, Option.map_some']
      exact ih _ h1 h2 h3 hc

/-- C34 (failing input): on a fresh layer over the base `[1, 2, 3]`,
`Write [9]` leaves `pos = 1` and the base stream at offset 0; the `Read` into
two bytes that follows delivers the base bytes of the offsets 0 and 1 (`[1, 2]`)
as the bytes at the offsets 1 and 2, and ends with the base stream at 2 and
`pos = 3`. -/
theorem Write_leaves_base_behind :
    (NewLayer ⟨[1, 2, 3], 0⟩).calls [Call.Write [9]]
      = some ⟨⟨[⟨0, [9]⟩], 1⟩, ⟨[1, 2, 3], 0⟩, 1, -1⟩ ∧
    ((Layer.mk ⟨[⟨0, [9]⟩], 1⟩ ⟨[1, 2, 3], 0⟩ 1 (-1)).Read [0, 0]).map
        (fun res => (res.buf, res.n, res.err, res.layer.r.i, res.layer.pos))
      = some ([1, 2], 2, none, 2, 3) := by
  decide

/-- What a `Read` that returns a nil error went through: the limit check
passed, the base stream delivered bytes or its EOF was forgotten, and the
overlay loop ran to its end. -/
theorem Read_ok_inv (l : Layer) (buf : List Byte) (res : ReadResult)
    (h : l.Read buf = some res) (herr : res.err = none) :
    ¬ (l.limit ≥ 0 ∧ l.limit - l.pos ≤ 0) ∧
    ((l.r.Read (buf.take (l.window buf))).2.2.2 = none ∨ l.extending buf = true) ∧
    (l.r.Read (buf.take (l.window buf))).2.2.1 ≤ res.n ∧
    res.layer = { l with r := (l.r.Read (buf.take (l.window buf))).1, pos := l.pos + res.n } := by
  rw [Read_eq] at h
  split at h
  · cases h
    exact absurd herr (by simp)
  · rename_i hlim
    split at h
    · cases h
      exact absurd herr (by simp)
    · rename_i hgo
      split at h
      · cases h
      · split at h
        · cases h
        · rename_i hout
          cases h
          refine ⟨hlim, ?_, (overlayChunks_bound _ _ _ _ _ hout).2.1, rfl⟩
          by_cases hext : l.extending buf = true
          · exact Or.inr hext
          · left
            rw [if_neg hext] at hgo
            exact hgo

/-- Past the limit check, the window of a non-empty buffer is not empty. -/
theorem window_pos (l : Layer) (buf : List Byte) (hbuf : buf ≠ [])
    (hlim : ¬ (l.limit ≥ 0 ∧ l.limit - l.pos ≤ 0)) : 1 ≤ l.window buf := by
  have hlen : 1 ≤ buf.length := by
    cases buf with
    | nil => exact absurd rfl hbuf
    | cons b rest => simp
  unfold Layer.window
  split <;> omega

/-- C35 (amended): for every layer and every non-empty buffer, a `Read` that
returns a nil error returned `n ≥ 0` bytes and advanced `pos` by `n`; `n ≥ 1`
whenever the base stream has bytes left at its read position; and `n = 0` leaves
the layer exactly as it was, so a reader looping on `Read` stays there for good.
With the index sorted and disjoint and the limit check passed, `Read` at a `pos`
inside a stored interval (that ends at or below `Max`) does return, with a nil
error and at least one byte. -/
theorem Read_progress (l : Layer) (buf : List Byte) (hbuf : buf ≠ []) :
    (∀ res, l.Read buf = some res → res.err = none →
      0 ≤ res.n ∧ res.layer.pos = l.pos + res.n ∧
      (l.r.i < l.r.s.length → 1 ≤ res.n) ∧
      (res.n = 0 → res.layer = l)) ∧
    (l.index.Disjoint → ¬ (l.limit ≥ 0 ∧ l.limit - l.pos ≤ 0) →
      ∀ o ∈ l.index.r, o.Range.1 ≤ l.pos → l.pos < o.Range.2 → o.Range.2 ≤ l.index.Max →
      ∃ res, l.Read buf = some res ∧ res.err = none ∧ 1 ≤ res.n ∧
        res.layer.pos = l.pos + res.n) := by
  constructor
  · intro res h herr
    obtain ⟨hlim, -, hn, hlayer⟩ := Read_ok_inv l buf res h herr
    have hwin := window_pos l buf hbuf hlim
    by_cases hdata : l.r.i < l.r.s.length
    · rw [Reader_Read_data l.r _ hdata] at hn
      simp only [List.length_take] at hn
      have hwl := window_le l buf
      have hpos : 1 ≤ res.n := by
        have : 1 ≤ Nat.min (Min.min (l.window buf) buf.length) (l.r.s.length - l.r.i) :=
          Nat.le_min.mpr ⟨le_min hwin (by omega), by omega⟩
        omega
      refine ⟨by omega, by rw [hlayer], fun _ => hpos, fun h0 => by omega⟩
    · rw [Reader_Read_eof l.r _ (by omega)] at hn hlayer
      simp only at hn
      refine ⟨hn, by rw [hlayer], fun h1 => absurd h1 hdata, fun h0 => ?_⟩
      rw [hlayer, h0]
      simp
  · intro hd hlim o ho hlo hhi hmax
    have hwin := window_pos l buf hbuf hlim
    have hgo : (l.r.Read (buf.take (l.window buf))).2.2.2 = none ∨ l.extending buf = true := by
      by_cases hdata : l.r.i < l.r.s.length
      · left
        rw [Reader_Read_data l.r _ hdata]
      · right
        unfold Layer.extending
        rw [Reader_Read_eof l.r _ (by omega)]
        simp only [decide_eq_true_eq, true_and]
        omega
    obtain ⟨res, win, hread, herr, hlayer, -, -, -, -, hall, -⟩ := Read_spec l buf hd hlim hgo
    have h1 := hall o ho (by omega) (by omega)
    refine ⟨res, hread, herr, ?_, by rw [hlayer]⟩
    rcases le_total o.Range.2 (l.pos + (l.window buf : Int)) with h | h
    · rw [min_eq_left h] at h1; omega
    · rw [min_eq_right h] at h1; omega

/-- The amended C35 at a concrete layer: base `[1, 2]` exhausted, the interval
`[2, 4)` stored, `pos = 3`. -/
theorem Read_progress_witness :
    ∃ res, (Layer.mk ⟨[⟨2, [7, 8]⟩], 4⟩ ⟨[1, 2], 2⟩ 3 (-1)).Read [0, 0] = some res ∧
      res.err = none ∧ 1 ≤ res.n ∧ res.layer.pos = 3 + res.n :=
  (Read_progress (Layer.mk ⟨[⟨2, [7, 8]⟩], 4⟩ ⟨[1, 2], 2⟩ 3 (-1)) [0, 0] (by decide)).2
    (by decide) (by decide) ⟨2, [7, 8]⟩ (by decide) (by decide) (by decide) (by decide)

/-- C35 (as stated, refuted): with an empty base, one byte written at offset 5
and `pos` back at 0, a `Read` into three bytes returns 0 bytes with a nil error
(the buffer is filled with `'@'`) and leaves the layer unchanged, although
`pos = 0 < MinSize() = 6`: a reader looping on `Read` with this buffer never
reaches `MinSize()`. -/
theorem Read_stalls_in_hole :
    (NewLayer ⟨[], 0⟩).run [Op.Seek 5 SEEK_SET, Op.Write [66], Op.Seek 0 SEEK_SET]
      = ⟨⟨[⟨5, [66]⟩], 6⟩, ⟨[], 0⟩, 0, -1⟩ ∧
    (Layer.mk ⟨[⟨5, [66]⟩], 6⟩ ⟨[], 0⟩ 0 (-1)).Read [0, 0, 0]
      = some ⟨⟨⟨[⟨5, [66]⟩], 6⟩, ⟨[], 0⟩, 0, -1⟩, [64, 64, 64], 0, none⟩ ∧
    (Layer.mk ⟨[⟨5, [66]⟩], 6⟩ ⟨[], 0⟩ 0 (-1)).MinSize = 6 := by
  decide

end store

namespace vcs

/-! ## Change masks -/

/-- A mask lacks the flag `2 ^ i` exactly when bit `i` is clear. -/
theorem and_flag_eq_zero (m i : Nat) : m &&& 2 ^ i = 0 ↔ m.testBit i = false := by
  rw [Nat.and_two_pow]
  cases h : m.testBit i <;> simp

/-- A mask contains the flag `2 ^ i` exactly when bit `i` is set. -/
theorem and_flag_ne_zero (m i : Nat) : m &&& 2 ^ i ≠ 0 ↔ m.testBit i = true := by
  rw [Ne, and_flag_eq_zero]
  cases m.testBit i <;> simp

/-- An OR of two masks is zero exactly when both are. -/
theorem lor_eq_zero (x y : Nat) : x ||| y = 0 ↔ x = 0 ∧ y = 0 := by
  constructor
  · intro h
    have hb : ∀ i, (x.testBit i || y.testBit i) = false := by
      intro i
      rw [← Nat.testBit_or, h, Nat.zero_testBit]
    constructor
    · apply Nat.zero_of_testBit_eq_false
      intro i
      have := hb i
      cases hx : x.testBit i <;> simp_all
    · apply Nat.zero_of_testBit_eq_false
      intro i
      have := hb i
      cases hy : y.testBit i <;> simp_all
  · rintro ⟨rfl, rfl⟩
    rfl

theorem ChangeTypeAdd_eq : ChangeTypeAdd = 2 ^ 1 := rfl
theorem ChangeTypeModify_eq : ChangeTypeModify = 2 ^ 2 := rfl
theorem ChangeTypeMove_eq : ChangeTypeMove = 2 ^ 3 := rfl
theorem ChangeTypeRemove_eq : ChangeTypeRemove = 2 ^ 4 := rfl

/-- The modify mask is zero in `m` exactly when both flags are absent. -/
theorem and_modifyMask (m : Nat) :
    m &&& (ChangeTypeAdd ||| ChangeTypeModify) = 0 ↔
      m &&& ChangeTypeAdd = 0 ∧ m &&& ChangeTypeModify = 0 := by
  rw [Nat.and_or_distrib_left, lor_eq_zero]

/-- C13: for all change masks `m1` and `m2`, `m1.IsCompatible(m2)` is true if and
only if at least one of the two contains neither the Added nor the Modified
flag. -/
theorem IsCompatible_iff (m1 m2 : ChangeType) :
    ChangeType.IsCompatible m1 m2 = true ↔
      (m1 &&& ChangeTypeAdd = 0 ∧ m1 &&& ChangeTypeModify = 0) ∨
      (m2 &&& ChangeTypeAdd = 0 ∧ m2 &&& ChangeTypeModify = 0) := by
  unfold ChangeType.IsCompatible
  simp only [Bool.or_eq_true, beq_iff_eq]
  rw [and_modifyMask, and_modifyMask]

/-- C14: what `IsCompatible` returns on the 16 pairs of single-flag masks, rows
(receiver) and columns (argument) in the order Added, Modified, Removed, Moved
of the table documented above the function.  The rows of Added and Modified
are no/no/yes/yes, where the table has no/no/no/yes: `Added.IsCompatible(Removed)`
and `Modified.IsCompatible(Removed)` are true.  The other 14 entries agree with
the table. -/
theorem IsCompatible_table :
    ([ChangeTypeAdd, ChangeTypeModify, ChangeTypeRemove, ChangeTypeMove].map (fun ct =>
      [ChangeTypeAdd, ChangeTypeModify, ChangeTypeRemove, ChangeTypeMove].map
        (fun ot => ChangeType.IsCompatible ct ot)))
      = [[false, false, true, true],
         [false, false, true, true],
         [true, true, true, true],
         [true, true, true, true]] ∧
    ChangeType.IsCompatible ChangeTypeAdd ChangeTypeRemove = true ∧
    ChangeType.IsCompatible ChangeTypeModify ChangeTypeRemove = true := by
  decide

/-- Bits of `^flag` for one of the flags (`k < 8`). -/
theorem testBit_complement (k i : Nat) :
    (complement (2 ^ k)).testBit i = (decide (i < 8) ^^ decide (k = i)) := by
  unfold complement
  have h255 : (255 : Nat) = 2 ^ 8 - 1 := rfl
  rw [Nat.testBit_xor, h255, Nat.testBit_two_pow_sub_one, Nat.testBit_two_pow]

theorem testBit_complement_Move (i : Nat) :
    (complement ChangeTypeMove).testBit i = (decide (i < 8) && !decide (3 = i)) := by
  rw [ChangeTypeMove_eq, testBit_complement]
  by_cases h1 : i < 8 <;> by_cases h2 : 3 = i <;> simp [h1, h2]
  omega

theorem testBit_complement_Remove (i : Nat) :
    (complement ChangeTypeRemove).testBit i = (decide (i < 8) && !decide (4 = i)) := by
  rw [ChangeTypeRemove_eq, testBit_complement]
  by_cases h1 : i < 8 <;> by_cases h2 : 4 = i <;> simp [h1, h2]
  omega

theorem and_Remove_beq (m : Nat) : (m &&& ChangeTypeRemove == 0) = !m.testBit 4 := by
  rw [ChangeTypeRemove_eq]
  cases hb : m.testBit 4
  · rw [(and_flag_eq_zero m 4).2 hb]; rfl
  · have := (and_flag_ne_zero m 4).2 hb
    rw [beq_eq_false_iff_ne.2 this]; rfl

/-- A bit of the OR of the masks is set exactly when an entry has it. -/
theorem testBit_foldl_or (i : Nat) (changes : List Change) :
    ∀ m0 : Nat, (changes.foldl (fun m change => m ||| change.Mask) m0).testBit i
      = (m0.testBit i || changes.any (fun c => c.Mask.testBit i)) := by
  induction changes with
  | nil => intro m0; simp
  | cons c rest ih =>
    intro m0
    rw [List.foldl_cons, ih, Nat.testBit_or, List.any_cons, Bool.or_assoc]

theorem testBit_orMask (i : Nat) (changes : List Change) :
    (orMask changes).testBit i = changes.any (fun c => c.Mask.testBit i) := by
  unfold orMask
  rw [testBit_foldl_or, Nat.zero_testBit, Bool.false_or]

/-! ## `CombineChanges` -/

/-- The result of `CombineChanges` on a non-empty list, with the loops written
as `orMask` and `scanBack`. -/
theorem CombineChanges_cons (first : Change) (rest : List Change) :
    CombineChanges (first :: rest) = some
      { Mask :=
          if first.Mask &&& ChangeTypeRemove == 0 && !(first.Curr.Type == NodeType.Ghost) then
            (if !(first.Curr.Path !=
                  ((first :: rest).getLast (List.cons_ne_nil first rest)).Curr.Path) &&
                !(first.Curr.Type == NodeType.Ghost)
              then orMask (first :: rest) &&& complement ChangeTypeMove
              else orMask (first :: rest)) &&& complement ChangeTypeRemove
          else
            (if !(first.Curr.Path !=
                  ((first :: rest).getLast (List.cons_ne_nil first rest)).Curr.Path) &&
                !(first.Curr.Type == NodeType.Ghost)
              then orMask (first :: rest) &&& complement ChangeTypeMove
              else orMask (first :: rest)),
        Head := first.Head, Next := first.Next, Curr := first.Curr,
        MovedTo :=
          if orMask (first :: rest) &&& ChangeTypeMove != 0
          then scanBack Change.MovedTo (first :: rest) (first :: rest).length else "",
        WasPreviouslyAt :=
          if orMask (first :: rest) &&& ChangeTypeMove != 0
          then scanBack Change.WasPreviouslyAt (first :: rest) (first :: rest).length else "" } :=
  rfl

/-- The bits of the mask `CombineChanges` returns: those of the OR of all
masks, less the Moved bit when the newest and the oldest path agree and the
newest `Curr` is not a Ghost, and less the Removed bit when the newest mask
lacks it and the newest `Curr` is not a Ghost (bits from 8 on do not exist in a
`uint8`). -/
theorem Combine_testBit (first : Change) (rest : List Change) (i : Nat) :
    ∃ comb, CombineChanges (first :: rest) = some comb ∧ comb.Curr = first.Curr ∧
      comb.Mask.testBit i =
        ((orMask (first :: rest)).testBit i &&
          (!(decide (first.Curr.Path =
                ((first :: rest).getLast (List.cons_ne_nil first rest)).Curr.Path) &&
              decide (first.Curr.Type ≠ NodeType.Ghost)) || (decide (i < 8) && !decide (3 = i))) &&
          (!(!first.Mask.testBit 4 && decide (first.Curr.Type ≠ NodeType.Ghost)) ||
            (decide (i < 8) && !decide (4 = i)))) := by
  refine ⟨_, CombineChanges_cons first rest, rfl, ?_⟩
  simp only [and_Remove_beq]
  by_cases hp : first.Curr.Path = ((first :: rest).getLast (List.cons_ne_nil first rest)).Curr.Path
    <;> by_cases hg : first.Curr.Type = NodeType.Ghost
    <;> cases hb : first.Mask.testBit 4
    <;> simp [hp, hg, Nat.testBit_and, testBit_complement_Move, testBit_complement_Remove,
      Bool.and_assoc]


/-- C15: for a non-empty newest-first list whose newest `Curr` is not a Ghost and
whose newest and oldest `Curr` have the same path, `CombineChanges` returns a
change without the Moved bit in its mask, with the `Curr` (and so the path) of
the newest entry, and with every other bit of the mask as it would be without
this clearing: the OR of all masks, less the Removed bit when the newest mask
lacks it. -/
theorem Combine_same_path (changes : List Change) (newest oldest : Change)
    (hn : changes.head? = some newest) (ho : changes.getLast? = some oldest)
    (hg : newest.Curr.Type ≠ NodeType.Ghost) (hp : newest.Curr.Path = oldest.Curr.Path) :
    ∃ comb, CombineChanges changes = some comb ∧
      comb.Mask &&& ChangeTypeMove = 0 ∧
      comb.Curr = newest.Curr ∧ comb.Curr.Path = newest.Curr.Path ∧
      ∀ i, i < 8 → i ≠ 3 →
        comb.Mask.testBit i =
          (if newest.Mask &&& ChangeTypeRemove = 0
            then orMask changes &&& complement ChangeTypeRemove
            else orMask changes).testBit i := by
  cases changes with
  | nil => simp at hn
  | cons first rest =>
    simp only [List.head?_cons, Option.some.injEq] at hn
    subst hn
    have hlast : (first :: rest).getLast (List.cons_ne_nil first rest) = oldest := by
      rw [List.getLast?_eq_getLast _ (List.cons_ne_nil first rest)] at ho
      exact Option.some.inj ho
    have hbits := fun i => Combine_testBit first rest i
    obtain ⟨comb, hcomb, hcurr, -⟩ := hbits 0
    have hmask : ∀ i, comb.Mask.testBit i =
        ((orMask (first :: rest)).testBit i && (decide (i < 8) && !decide (3 = i)) &&
          (!(!first.Mask.testBit 4) || (decide (i < 8) && !decide (4 = i)))) := by
      intro i
      obtain ⟨comb1, hcomb1, -, hb⟩ := hbits i
      rw [hcomb] at hcomb1
      cases hcomb1
      rw [hb, hlast]
      simp [hp, hg]
    refine ⟨comb, hcomb, ?_, hcurr, by rw [hcurr], ?_⟩
    · rw [ChangeTypeMove_eq, and_flag_eq_zero, hmask]
      simp
    · intro i hi h3
      rw [hmask]
      have h3 : ¬ (3 = i) := fun h => h3 h.symm
      cases hb : first.Mask.testBit 4
      · rw [if_pos (by rw [ChangeTypeRemove_eq]; exact (and_flag_eq_zero _ 4).2 hb)]
        simp [hi, h3, Nat.testBit_and, testBit_complement_Remove]
      · rw [if_neg (by rw [ChangeTypeRemove_eq]; exact (and_flag_ne_zero _ 4).2 hb)]
        simp [hi, h3]

/-- The list `[{Moved, File "/a", was "/a"}]`: the Moved bit is cleared, the path
stays `"/a"`. -/
theorem Combine_same_path_witness :
    ∃ comb, CombineChanges [⟨ChangeTypeMove, none, none, Node.File "/a" 1 3, "", "/a"⟩] = some comb ∧
      comb.Mask &&& ChangeTypeMove = 0 ∧ comb.Curr = Node.File "/a" 1 3 ∧
      comb.Curr.Path = "/a" :=
  (Combine_same_path [⟨ChangeTypeMove, none, none, Node.File "/a" 1 3, "", "/a"⟩]
    ⟨ChangeTypeMove, none, none, Node.File "/a" 1 3, "", "/a"⟩
    ⟨ChangeTypeMove, none, none, Node.File "/a" 1 3, "", "/a"⟩
    rfl rfl (by decide) rfl).imp fun _ h => ⟨h.1, h.2.1, h.2.2.1, h.2.2.2.1⟩

/-- C16: for every non-empty newest-first list, the Removed bit is set in the
mask `CombineChanges` returns if and only if some entry has Removed in its mask
and the newest entry has Removed in its mask or a Ghost as `Curr`. -/
theorem Combine_Remove_iff (changes : List Change) (newest : Change)
    (hn : changes.head? = some newest) :
    ∃ comb, CombineChanges changes = some comb ∧
      (comb.Mask &&& ChangeTypeRemove ≠ 0 ↔
        (∃ c ∈ changes, c.Mask &&& ChangeTypeRemove ≠ 0) ∧
          (newest.Mask &&& ChangeTypeRemove ≠ 0 ∨ newest.Curr.Type = NodeType.Ghost)) := by
  cases changes with
  | nil => simp at hn
  | cons first rest =>
    simp only [List.head?_cons, Option.some.injEq] at hn
    subst hn
    obtain ⟨comb, hcomb, -, hb⟩ := Combine_testBit first rest 4
    refine ⟨comb, hcomb, ?_⟩
    simp only [ChangeTypeRemove_eq, and_flag_ne_zero]
    rw [hb, testBit_orMask]
    simp only [Bool.and_eq_true, Bool.or_eq_true, List.any_eq_true, Bool.not_eq_true',
      decide_eq_true_eq, decide_eq_false_iff_not, Bool.and_eq_false_imp, Bool.not_eq_false']
    by_cases hg : first.Curr.Type = NodeType.Ghost <;> cases h4 : first.Mask.testBit 4 <;>
      simp [hg, h4]

/-- A file that was removed and added again: the newest entry neither has
Removed nor is a Ghost. -/
theorem Combine_Remove_iff_witness :
    ∃ comb, CombineChanges [⟨ChangeTypeAdd, none, none, Node.File "/a" 2 5, "", ""⟩,
          ⟨ChangeTypeRemove, none, none, Node.Ghost (Node.File "/a" 1 3) "/a", "", ""⟩] = some comb ∧
      (comb.Mask &&& ChangeTypeRemove ≠ 0 ↔
        (∃ c ∈ [(⟨ChangeTypeAdd, none, none, Node.File "/a" 2 5, "", ""⟩ : Change),
            ⟨ChangeTypeRemove, none, none, Node.Ghost (Node.File "/a" 1 3) "/a", "", ""⟩],
          c.Mask &&& ChangeTypeRemove ≠ 0) ∧
          ((⟨ChangeTypeAdd, none, none, Node.File "/a" 2 5, "", ""⟩ : Change).Mask
              &&& ChangeTypeRemove ≠ 0 ∨
            (⟨ChangeTypeAdd, none, none, Node.File "/a" 2 5, "", ""⟩ : Change).Curr.Type
              = NodeType.Ghost)) :=
  Combine_Remove_iff _ _ rfl
/-- The countdown loop from index `k - 1` gives the first non-empty value of
the first `k` entries, read backwards. -/
theorem scanBack_eq (field : Change → String) (changes : List Change) :
    ∀ k, k ≤ changes.length →
      scanBack field changes k
        = (((changes.take k).reverse.map field).find? (fun s => s ≠ "")).getD "" := by
  intro k
  induction k with
  | zero => intro _; simp [scanBack]
  | succ k ih =>
    intro hk
    have hlt : k < changes.length := hk
    have htake : changes.take (k + 1) = changes.take k ++ [changes[k]] := by
      rw [List.take_succ, List.getElem?_eq_getElem hlt]
      rfl
    rw [htake, List.reverse_append, List.reverse_singleton, List.singleton_append, List.map_cons,
      List.find?_cons]
    unfold scanBack
    rw [List.getElem?_eq_getElem hlt]
    simp only
    by_cases hf : field changes[k] = ""
    · rw [if_neg (by simpa using hf), ih (by omega)]
      simp [hf]
    · rw [if_pos hf]
      simp [hf]

theorem scanBack_length (field : Change → String) (changes : List Change) :
    scanBack field changes changes.length = oldestNonEmpty field changes := by
  rw [scanBack_eq field changes changes.length (le_refl _), List.take_length]
  rfl

/-- C17 (amended): for every non-empty newest-first list whose OR-ed mask
includes Moved, `MovedTo` of the result of `CombineChanges` is the first
non-empty `MovedTo` met when scanning the entries oldest first, that is the one
of the oldest entry having one (`""` when no entry has one), and
`WasPreviouslyAt` likewise. -/
theorem Combine_paths_oldest (changes : List Change) (hne : changes ≠ [])
    (hm : orMask changes &&& ChangeTypeMove ≠ 0) :
    ∃ comb, CombineChanges changes = some comb ∧
      comb.MovedTo = oldestNonEmpty Change.MovedTo changes ∧
      comb.WasPreviouslyAt = oldestNonEmpty Change.WasPreviouslyAt changes := by
  cases changes with
  | nil => exact absurd rfl hne
  | cons first rest =>
    refine ⟨_, CombineChanges_cons first rest, ?_, ?_⟩
    · simp only
      rw [if_pos (by simpa using hm), scanBack_length]
    · simp only
      rw [if_pos (by simpa using hm), scanBack_length]

/-- A file moved from `"/a"` to `"/b"` and on to `"/c"`: the result says it was
at `"/a"` before. -/
theorem Combine_paths_oldest_witness :
    ∃ comb, CombineChanges [⟨ChangeTypeMove, none, none, Node.File "/c" 1 3, "", "/b"⟩,
          ⟨ChangeTypeMove, none, none, Node.File "/b" 1 3, "", "/a"⟩] = some comb ∧
      comb.MovedTo = "" ∧ comb.WasPreviouslyAt = "/a" :=
  Combine_paths_oldest [⟨ChangeTypeMove, none, none, Node.File "/c" 1 3, "", "/b"⟩,
    ⟨ChangeTypeMove, none, none, Node.File "/b" 1 3, "", "/a"⟩] (by decide) (by decide)

/-- C17 (counterexample): a file moved from `"/a"` to `"/b"` and on to `"/c"`.
`CombineChanges` returns `WasPreviouslyAt = "/a"`, the value of the oldest
entry, where the newest entry having one says `"/b"`; with two tombstones of a
move the same happens to `MovedTo`. -/
theorem Combine_paths_not_newest :
    orMask [⟨ChangeTypeMove, none, none, Node.File "/c" 1 3, "", "/b"⟩,
        ⟨ChangeTypeMove, none, none, Node.File "/b" 1 3, "", "/a"⟩] &&& ChangeTypeMove ≠ 0 ∧
    (CombineChanges [⟨ChangeTypeMove, none, none, Node.File "/c" 1 3, "", "/b"⟩,
        ⟨ChangeTypeMove, none, none, Node.File "/b" 1 3, "", "/a"⟩]).map Change.WasPreviouslyAt
      = some "/a" ∧
    newestNonEmpty Change.WasPreviouslyAt
      [⟨ChangeTypeMove, none, none, Node.File "/c" 1 3, "", "/b"⟩,
        ⟨ChangeTypeMove, none, none, Node.File "/b" 1 3, "", "/a"⟩] = "/b" ∧
    (CombineChanges [⟨ChangeTypeMove, none, none, Node.Ghost (Node.File "/a" 1 3) "/a", "/c", ""⟩,
        ⟨ChangeTypeMove, none, none, Node.Ghost (Node.File "/a" 1 3) "/a", "/b", ""⟩]).map
        Change.MovedTo = some "/b" ∧
    newestNonEmpty Change.MovedTo
      [⟨ChangeTypeMove, none, none, Node.Ghost (Node.File "/a" 1 3) "/a", "/c", ""⟩,
        ⟨ChangeTypeMove, none, none, Node.Ghost (Node.File "/a" 1 3) "/a", "/b", ""⟩] = "/c" := by
  decide

/-- C18: the history of a file added at `"/a"`, moved to `"/b"` and moved back to
`"/a"`.  Every entry has empty `WasPreviouslyAt` and `MovedTo` unless its mask
contains Moved, but `CombineChanges` returns a change whose mask is Added,
without Moved, and whose `WasPreviouslyAt` is `"/a"`. -/
theorem Combine_leaves_paths :
    (∀ c ∈ [(⟨ChangeTypeMove, none, none, Node.File "/a" 1 3, "", "/b"⟩ : Change),
        ⟨ChangeTypeMove, none, none, Node.File "/b" 1 3, "", "/a"⟩,
        ⟨ChangeTypeAdd, none, none, Node.File "/a" 1 3, "", ""⟩],
      c.Mask &&& ChangeTypeMove = 0 → c.WasPreviouslyAt = "" ∧ c.MovedTo = "") ∧
    (CombineChanges [⟨ChangeTypeMove, none, none, Node.File "/a" 1 3, "", "/b"⟩,
        ⟨ChangeTypeMove, none, none, Node.File "/b" 1 3, "", "/a"⟩,
        ⟨ChangeTypeAdd, none, none, Node.File "/a" 1 3, "", ""⟩])
      = some ⟨ChangeTypeAdd, none, none, Node.File "/a" 1 3, "", "/a"⟩ ∧
    ChangeTypeAdd &&& ChangeTypeMove = 0 := by
  decide
/-- C19 (failing input): the one-entry history `[{Moved, File "/b", was "/a"}]`
on a graph with a file at `"/a"`.  Replaying the entry leaves a Ghost at `"/a"`;
`CombineChanges` clears the Moved bit, so replaying its result leaves the File
at `"/a"`. -/
theorem Combine_drops_single_move :
    (ReplayAll graphLinker [⟨ChangeTypeMove, none, none, Node.File "/b" 1 3, "", "/a"⟩]
        (Graph.empty.put "/a" (Entry.file 1 3))).variantAt "/a" = some (some NodeType.Ghost) ∧
    (CombineChanges [⟨ChangeTypeMove, none, none, Node.File "/b" 1 3, "", "/a"⟩]).map
        (fun comb => (Change.Replay graphLinker comb
          (Graph.empty.put "/a" (Entry.file 1 3))).variantAt "/a")
      = some (some (some NodeType.File)) := by
  decide

/-! ## Replay on the node graph -/

theorem put_put (g : Graph) (p : String) (e1 e2 : Entry) : (g.put p e1).put p e2 = g.put p e2 := by
  funext q
  unfold Graph.put
  split <;> rfl

theorem put_same (g : Graph) (p : String) (e : Entry) (h : g p = some e) : g.put p e = g := by
  funext q
  unfold Graph.put
  split
  · rename_i hq; rw [hq, h]
  · rfl

theorem put_self (g : Graph) (p : String) (e : Entry) : (g.put p e) p = some e := by
  unfold Graph.put
  rw [if_pos rfl]

/-- On the node graph, the first block of `Replay` for a change with Added or
Modified in its mask and a File or Directory as `Curr` succeeds and puts `Curr`
at its path. -/
theorem replayContent_graph (c : Change) (g : Graph)
    (hc : c.Mask &&& (ChangeTypeModify ||| ChangeTypeAdd) ≠ 0)
    (hg : c.Curr.Type ≠ NodeType.Ghost) :
    replayContent graphLinker c g = Result.ok (g.put c.Curr.Path c.Curr.toEntry) := by
  unfold replayContent
  rw [if_pos (by simpa using hc)]
  cases hcur : c.Curr with
  | Ghost old path => rw [hcur] at hg; exact absurd rfl hg
  | File path hash size =>
    simp only [graphLinker, Graph.lookup, Node.Path, Node.toEntry]
    cases hgp : g path with
    | none => simp [Graph.stage_file]
    | some entry =>
      cases entry with
      | file h s => simp [Entry.toNode, Node.Type, Graph.stage_file]
      | dir => simp [Entry.toNode, Node.Type, Graph.stage_file, Graph.remove, Node.Path, put_put]
      | ghost old => simp [Entry.toNode, Node.Type, Graph.stage_file, Graph.remove]
  | Directory path =>
    simp only [graphLinker, Graph.lookup, Node.Path, Node.toEntry]
    cases hgp : g path with
    | none => simp [Graph.mkdir, hgp]
    | some entry =>
      cases entry with
      | file h s =>
        simp [Entry.toNode, Node.Type, Graph.mkdir, Graph.remove, Node.Path, put_put, put_self]
      | dir => simp [Entry.toNode, Node.Type, Graph.mkdir, hgp, put_same]
      | ghost old => simp [Entry.toNode, Node.Type, Graph.mkdir, Graph.remove, hgp]

/-- A change without Moved and Removed in its mask only runs the first block
of `Replay`. -/
theorem Replay_content_only {G : Type} (lkr : Linker G) (c : Change) (g : G)
    (hmv : c.Mask &&& ChangeTypeMove = 0) (hrm : c.Mask &&& ChangeTypeRemove = 0) :
    Change.Replay lkr c g = replayContent lkr c g := by
  unfold Change.Replay
  cases replayContent lkr c g with
  | ok g1 => simp [Result.andThen, replayMove, replayMoveLive, replayRemove, hmv, hrm]
  | err e => rfl
  | panic => rfl

/-- A mask meets `Modify | Add` exactly when one of the two bits is set. -/
theorem content_iff (m : Nat) :
    m &&& (ChangeTypeModify ||| ChangeTypeAdd) ≠ 0 ↔ m.testBit 2 = true ∨ m.testBit 1 = true := by
  rw [Ne, Nat.and_or_distrib_left, lor_eq_zero, ChangeTypeModify_eq, ChangeTypeAdd_eq,
    and_flag_eq_zero, and_flag_eq_zero]
  cases m.testBit 2 <;> cases m.testBit 1 <;> simp

/-- Replaying, one after the other, changes that have neither Moved nor Removed
in their masks and a File or Directory at `path` as `Curr` succeeds and changes
the graph at most at `path`. -/
theorem foldl_Replay_content (path : String) (cs : List Change)
    (hmask : ∀ c ∈ cs, c.Mask &&& ChangeTypeMove = 0 ∧ c.Mask &&& ChangeTypeRemove = 0)
    (hcurr : ∀ c ∈ cs, c.Curr.Type ≠ NodeType.Ghost ∧ c.Curr.Path = path) :
    ∀ g : Graph, ∃ g1,
      cs.foldl (fun r ch => r.andThen (Change.Replay graphLinker ch)) (Result.ok g) = Result.ok g1 ∧
      ∀ e, g1.put path e = g.put path e := by
  induction cs with
  | nil => intro g; exact ⟨g, rfl, fun _ => rfl⟩
  | cons c cs ih =>
    intro g
    have hm := hmask c (List.mem_cons_self _ _)
    have hc := hcurr c (List.mem_cons_self _ _)
    have ih1 := ih (fun d hd => hmask d (List.mem_cons_of_mem _ hd))
      (fun d hd => hcurr d (List.mem_cons_of_mem _ hd))
    rw [List.foldl_cons]
    have hstep : ∃ g0, (Result.ok g).andThen (Change.Replay graphLinker c) = Result.ok g0 ∧
        ∀ e, g0.put path e = g.put path e := by
      show ∃ g0, Change.Replay graphLinker c g = Result.ok g0 ∧ _
      rw [Replay_content_only graphLinker c g hm.1 hm.2]
      by_cases hcont : c.Mask &&& (ChangeTypeModify ||| ChangeTypeAdd) ≠ 0
      · rw [replayContent_graph c g hcont hc.1, hc.2]
        exact ⟨_, rfl, fun e => put_put g path _ e⟩
      · unfold replayContent
        rw [if_neg (by simpa using hcont)]
        exact ⟨g, rfl, fun _ => rfl⟩
    obtain ⟨g0, h0, hput0⟩ := hstep
    rw [h0]
    obtain ⟨g1, h1, hput1⟩ := ih1 g0
    exact ⟨g1, h1, fun e => (hput1 e).trans (hput0 e)⟩

/-- Histories of content changes only: for a non-empty newest-first list of
changes in which no mask contains Moved or Removed, every `Curr` is a File or Directory at one common
path, and the newest mask contains Added or Modified, replaying the entries
oldest to newest on the node graph and replaying `CombineChanges(list)` once
on the same graph both succeed and give the same graph: the starting graph with
the newest `Curr` at that path. -/
theorem Combine_preserves_content (changes : List Change) (newest : Change) (path : String)
    (g : Graph) (hn : changes.head? = some newest)
    (hnew : newest.Mask &&& (ChangeTypeModify ||| ChangeTypeAdd) ≠ 0)
    (hmask : ∀ c ∈ changes, c.Mask &&& ChangeTypeMove = 0 ∧ c.Mask &&& ChangeTypeRemove = 0)
    (hcurr : ∀ c ∈ changes, c.Curr.Type ≠ NodeType.Ghost ∧ c.Curr.Path = path) :
    ∃ comb, CombineChanges changes = some comb ∧
      ReplayAll graphLinker changes g = Result.ok (g.put path newest.Curr.toEntry) ∧
      Change.Replay graphLinker comb g = Result.ok (g.put path newest.Curr.toEntry) := by
  cases changes with
  | nil => simp at hn
  | cons first rest =>
    simp only [List.head?_cons, Option.some.injEq] at hn
    subst hn
    have hm := hmask first (List.mem_cons_self _ _)
    have hc := hcurr first (List.mem_cons_self _ _)
    have hbits := fun i => Combine_testBit first rest i
    obtain ⟨comb, hcomb, hcurr1, -⟩ := hbits 0
    have hbit : ∀ i, comb.Mask.testBit i =
        ((orMask (first :: rest)).testBit i &&
          (!(decide (first.Curr.Path =
                ((first :: rest).getLast (List.cons_ne_nil first rest)).Curr.Path) &&
              decide (first.Curr.Type ≠ NodeType.Ghost)) || (decide (i < 8) && !decide (3 = i))) &&
          (!(!first.Mask.testBit 4 && decide (first.Curr.Type ≠ NodeType.Ghost)) ||
            (decide (i < 8) && !decide (4 = i)))) := by
      intro i
      obtain ⟨comb1, hcomb1, -, hb⟩ := hbits i
      rw [hcomb] at hcomb1
      cases hcomb1
      exact hb
    have hor : ∀ i, (∀ c ∈ first :: rest, c.Mask.testBit i = false) →
        (orMask (first :: rest)).testBit i = false := by
      intro i h
      rw [testBit_orMask]
      apply Bool.eq_false_iff.2
      intro hany
      obtain ⟨c, hcm, hcb⟩ := List.any_eq_true.1 hany
      rw [h c hcm] at hcb
      exact Bool.noConfusion hcb
    have hcmv : comb.Mask &&& ChangeTypeMove = 0 := by
      rw [ChangeTypeMove_eq, and_flag_eq_zero, hbit,
        hor 3 (fun c hcm => (and_flag_eq_zero _ 3).1 (hmask c hcm).1)]
      rfl
    have hcrm : comb.Mask &&& ChangeTypeRemove = 0 := by
      rw [ChangeTypeRemove_eq, and_flag_eq_zero, hbit,
        hor 4 (fun c hcm => (and_flag_eq_zero _ 4).1 (hmask c hcm).2)]
      rfl
    have hfirst : (orMask (first :: rest)).testBit 2 = true ∨
        (orMask (first :: rest)).testBit 1 = true := by
      rcases (content_iff first.Mask).1 hnew with h | h
      · left; rw [testBit_orMask]; exact List.any_eq_true.2 ⟨first, List.mem_cons_self _ _, h⟩
      · right; rw [testBit_orMask]; exact List.any_eq_true.2 ⟨first, List.mem_cons_self _ _, h⟩
    have hccont : comb.Mask &&& (ChangeTypeModify ||| ChangeTypeAdd) ≠ 0 := by
      rw [content_iff, hbit, hbit]
      rcases hfirst with h | h
      · left; rw [h]; simp
      · right; rw [h]; simp
    refine ⟨comb, hcomb, ?_, ?_⟩
    · unfold ReplayAll
      rw [List.reverse_cons, List.foldl_append]
      obtain ⟨g1, h1, hput⟩ := foldl_Replay_content path rest.reverse
        (fun c hcm => hmask c (List.mem_cons_of_mem _ (List.mem_reverse.1 hcm)))
        (fun c hcm => hcurr c (List.mem_cons_of_mem _ (List.mem_reverse.1 hcm))) g
      rw [h1]
      show Change.Replay graphLinker first g1 = _
      rw [Replay_content_only graphLinker first g1 hm.1 hm.2,
        replayContent_graph first g1 hnew hc.1, hc.2, hput]
    · rw [Replay_content_only graphLinker comb g hcmv hcrm,
        replayContent_graph comb g hccont (by rw [hcurr1]; exact hc.1), hcurr1, hc.2]

/-- A file added at `"/a"` and modified afterwards, replayed on the empty
graph. -/
theorem Combine_preserves_content_witness :
    ∃ comb, CombineChanges [⟨ChangeTypeModify, none, none, Node.File "/a" 2 5, "", ""⟩,
          ⟨ChangeTypeAdd, none, none, Node.File "/a" 1 3, "", ""⟩] = some comb ∧
      ReplayAll graphLinker [⟨ChangeTypeModify, none, none, Node.File "/a" 2 5, "", ""⟩,
          ⟨ChangeTypeAdd, none, none, Node.File "/a" 1 3, "", ""⟩] Graph.empty
        = Result.ok (Graph.empty.put "/a" (Entry.file 2 5)) ∧
      Change.Replay graphLinker comb Graph.empty
        = Result.ok (Graph.empty.put "/a" (Entry.file 2 5)) :=
  Combine_preserves_content [⟨ChangeTypeModify, none, none, Node.File "/a" 2 5, "", ""⟩,
      ⟨ChangeTypeAdd, none, none, Node.File "/a" 1 3, "", ""⟩]
    ⟨ChangeTypeModify, none, none, Node.File "/a" 2 5, "", ""⟩ "/a" Graph.empty rfl
    (by decide) (by decide) (by decide)

/-- For every linker: replaying a change whose mask is Moved, whose `Curr` is a
Ghost and whose `MovedTo` is set looks up the path of `Curr` and, whatever node
it finds there, hands it to `Move`; the outcome is that of `Move`.  There is no
check that the node found is not a Ghost. -/
theorem Replay_move_unguarded {G : Type} (lkr : Linker G) (old : Node) (src dst : String)
    (hdst : dst ≠ "") (g : G) :
    Change.Replay lkr ⟨ChangeTypeMove, none, none, Node.Ghost old src, dst, ""⟩ g =
      match lkr.LookupModNode g src with
      | Lookup.failed e => Result.err e
      | Lookup.noSuchFile => Result.ok g
      | Lookup.found nd =>
        match lkr.Move g nd dst with
        | Except.error e => Result.err e
        | Except.ok g2 => Result.ok g2 := by
  have hmv : (ChangeTypeMove &&& (ChangeTypeModify ||| ChangeTypeAdd) != 0) = false := by decide
  have hmm : (ChangeTypeMove &&& ChangeTypeMove != 0) = true := by decide
  have hmr : (ChangeTypeMove &&& ChangeTypeRemove != 0) = false := by decide
  unfold Change.Replay replayContent
  simp only [hmv, Bool.false_eq_true, if_false, Result.andThen, replayMove, hmm, if_true,
    Node.Path, ne_eq, not_true_eq_false, hdst, not_false_eq_true]
  cases lkr.LookupModNode g src with
  | failed e => rfl
  | noSuchFile =>
    simp [replayMoveLive, replayRemove, Node.Type, hmr]
  | found nd =>
    simp only []
    cases hmove : lkr.Move g nd dst with
    | error e => rfl
    | ok g2 => simp [replayMoveLive, replayRemove, Node.Type, hmr]

/-- Replaying twice a change without Moved and Removed in its mask, with Added
or Modified and a File or Directory as `Curr`, gives the graph of the first
replay. -/
theorem Replay_content_twice (c : Change) (g : Graph)
    (hc : c.Mask &&& (ChangeTypeModify ||| ChangeTypeAdd) ≠ 0)
    (hg : c.Curr.Type ≠ NodeType.Ghost)
    (hmv : c.Mask &&& ChangeTypeMove = 0) (hrm : c.Mask &&& ChangeTypeRemove = 0) :
    Change.Replay graphLinker c g = Result.ok (g.put c.Curr.Path c.Curr.toEntry) ∧
    Change.Replay graphLinker c (g.put c.Curr.Path c.Curr.toEntry)
      = Result.ok (g.put c.Curr.Path c.Curr.toEntry) := by
  rw [Replay_content_only graphLinker c _ hmv hrm, Replay_content_only graphLinker c _ hmv hrm,
    replayContent_graph c _ hc hg, replayContent_graph c _ hc hg, put_put]
  exact ⟨rfl, rfl⟩

/-- C20: the change `{Moved, Ghost of File "/a" at "/a", MovedTo "/b"}` on a graph
with a file at `"/a"`.  The first replay succeeds and leaves the File at `"/b"`
(and a Ghost at `"/a"`); the second replay finds the Ghost at `"/a"`, moves it
as well and so leaves a Ghost at `"/b"`. -/
theorem Replay_move_twice :
    (Change.Replay graphLinker
        ⟨ChangeTypeMove, none, none, Node.Ghost (Node.File "/a" 1 3) "/a", "/b", ""⟩
        (Graph.empty.put "/a" (Entry.file 1 3))).variantAt "/b" = some (some NodeType.File) ∧
    ((Change.Replay graphLinker
        ⟨ChangeTypeMove, none, none, Node.Ghost (Node.File "/a" 1 3) "/a", "/b", ""⟩
        (Graph.empty.put "/a" (Entry.file 1 3))).andThen
      (Change.Replay graphLinker
        ⟨ChangeTypeMove, none, none, Node.Ghost (Node.File "/a" 1 3) "/a", "/b", ""⟩)).variantAt "/b"
      = some (some NodeType.Ghost) := by
  decide

/-! ## Replay on a missing node, serialisation -/

/-- C21: for every linker and every change whose mask contains Moved and whose
`WasPreviouslyAt` is set, when the first block of `Replay` has succeeded and the
lookup of `WasPreviouslyAt` reports that there is no such file, the move step
calls `Type()` on the `nil` node: the step and with it `Replay` end in a panic
instead of going on. -/
theorem Replay_missing_source {G : Type} (lkr : Linker G) (c : Change) (g g1 : G)
    (hmv : c.Mask &&& ChangeTypeMove ≠ 0) (hwas : c.WasPreviouslyAt ≠ "")
    (h1 : replayContent lkr c g = Result.ok g1)
    (hlook : lkr.LookupModNode g1 c.WasPreviouslyAt = Lookup.noSuchFile) :
    replayMove lkr c g1 = Result.panic ∧ Change.Replay lkr c g = Result.panic := by
  have hm : replayMove lkr c g1 = Result.panic := by
    unfold replayMove
    rw [if_pos (by simpa using hmv), if_pos hwas]
    unfold removeLive
    rw [hlook]
  refine ⟨hm, ?_⟩
  unfold Change.Replay
  rw [h1]
  simp only [Result.andThen, hm]

/-- A linker that never finds a node and a change moved from `"/a"`. -/
theorem Replay_missing_source_witness :
    @Change.Replay Unit
      ⟨fun _ _ => Lookup.noSuchFile, fun g _ _ _ => Except.ok g, fun g _ => Except.ok g,
        fun g _ _ => Except.ok g, fun g _ _ => Except.ok g⟩
      ⟨ChangeTypeMove, none, none, Node.File "/b" 1 3, "", "/a"⟩ () = Result.panic :=
  (Replay_missing_source _ ⟨ChangeTypeMove, none, none, Node.File "/b" 1 3, "", "/a"⟩ () ()
    (by decide) (by decide) rfl rfl).2

/-- C22: for every change `c` (with a mask that fits its type, a `uint8`) and
a payload codec that round-trips, which is to say that decoding gives back
every node and every commit receiver it has encoded: decoding the message
produced by `ToCapnp(c)` with `FromCapnp` into any change succeeds and yields
the `Curr`, `Head`, `Next`, `MovedTo` and `Mask` of `c`; `WasPreviouslyAt` is
not part of the message and stays as it was. -/
theorem capnp_round_trip {Payload : Type} (codec : NodeCodec Payload) (c ch0 : Change)
    (msg : CapChange Payload)
    (hnode : ∀ nd p, codec.ToCapnpNode nd = Except.ok p →
      codec.CapNodeToNode p = Except.ok (AnyNode.mod nd))
    (hcommit : ∀ k p, codec.CommitToCapnpNode k = Except.ok p →
      (codec.CommitFromCapnpNode p).map some = Except.ok k)
    (hmask : c.Mask < 256)
    (hmsg : c.ToCapnp codec = Except.ok msg) :
    ∃ d, ch0.FromCapnp codec msg = Except.ok d ∧
      d.Curr = c.Curr ∧ d.Head = c.Head ∧ d.Next = c.Next ∧ d.MovedTo = c.MovedTo ∧
      d.Mask = c.Mask ∧ d.WasPreviouslyAt = ch0.WasPreviouslyAt := by
  have hdec : ∀ k p, codec.CommitToCapnpNode k = Except.ok p →
      ∃ k1, codec.CommitFromCapnpNode p = Except.ok k1 ∧ some k1 = k := by
    intro k p h
    have h1 := hcommit k p h
    cases hd : codec.CommitFromCapnpNode p with
    | error e => rw [hd] at h1; cases h1
    | ok k1 =>
      rw [hd] at h1
      simp only [Except.map, Except.ok.injEq] at h1
      exact ⟨k1, rfl, h1⟩
  unfold Change.ToCapnp Change.toCapnpChange at hmsg
  cases hc : codec.ToCapnpNode c.Curr with
  | error e => rw [hc] at hmsg; cases hmsg
  | ok pc =>
    rw [hc] at hmsg
    cases hhd : codec.CommitToCapnpNode c.Head with
    | error e => rw [hhd] at hmsg; cases hmsg
    | ok ph =>
      rw [hhd] at hmsg
      cases hnx : codec.CommitToCapnpNode c.Next with
      | error e => rw [hnx] at hmsg; cases hmsg
      | ok pn =>
        rw [hnx] at hmsg
        simp only [Except.ok.injEq] at hmsg
        subst hmsg
        obtain ⟨head, hh1, hh2⟩ := hdec c.Head ph hhd
        obtain ⟨next, hn1, hn2⟩ := hdec c.Next pn hnx
        unfold Change.FromCapnp Change.fromCapnpChange
        simp only [hh1, hn1, hnode c.Curr pc hc]
        exact ⟨_, rfl, rfl, hh2, hn2, rfl, Nat.mod_eq_of_lt hmask, rfl⟩

/-- The round trip of a move change with the example codec. -/
theorem capnp_round_trip_witness :
    ∃ d, (⟨0, none, none, Node.Directory "", "", "/old"⟩ : Change).FromCapnp exampleCodec
        ⟨AnyNode.mod (Node.File "/a" 1 3), AnyNode.commit ⟨7⟩, AnyNode.commit ⟨6⟩, "/b",
          ChangeTypeMove⟩ = Except.ok d ∧
      d.Curr = Node.File "/a" 1 3 ∧ d.Head = some ⟨7⟩ ∧ d.Next = some ⟨6⟩ ∧ d.MovedTo = "/b" ∧
      d.Mask = ChangeTypeMove ∧ d.WasPreviouslyAt = "/old" :=
  capnp_round_trip exampleCodec ⟨ChangeTypeMove, some ⟨7⟩, some ⟨6⟩, Node.File "/a" 1 3, "/b", "/x"⟩
    ⟨0, none, none, Node.Directory "", "", "/old"⟩ _
    (by intro nd p h; cases h; rfl)
    (by
      intro k p h
      cases k with
      | none => cases h
      | some k => cases h; rfl)
    (by decide) rfl

/-! ## Content flags under `CombineChanges` -/

/-- C33: for every non-empty list of changes `CombineChanges` returns a change
whose mask contains `Add` if and only if the mask of some entry contains `Add`,
and contains `Modify` if and only if the mask of some entry contains
`Modify`. -/
theorem Combine_keeps_content (first : Change) (rest : List Change) :
    ∃ comb, CombineChanges (first :: rest) = some comb ∧
      (comb.Mask &&& ChangeTypeAdd ≠ 0 ↔ ∃ c ∈ first :: rest, c.Mask &&& ChangeTypeAdd ≠ 0) ∧
      (comb.Mask &&& ChangeTypeModify ≠ 0 ↔
        ∃ c ∈ first :: rest, c.Mask &&& ChangeTypeModify ≠ 0) := by
  obtain ⟨comb, hcomb, -, hb1⟩ := Combine_testBit first rest 1
  obtain ⟨comb2, hcomb2, -, hb2⟩ := Combine_testBit first rest 2
  rw [hcomb] at hcomb2
  cases hcomb2
  refine ⟨comb, hcomb, ?_, ?_⟩
  · simp only [ChangeTypeAdd_eq, and_flag_ne_zero]
    rw [hb1, testBit_orMask]
    simp [List.any_eq_true]
  · simp only [ChangeTypeModify_eq, and_flag_ne_zero]
    rw [hb2, testBit_orMask]
    simp [List.any_eq_true]

end vcs

namespace bit

open store (Byte)

/-! ## The encoder -/

theorem maxPackSize_eq : maxPackSize = 4194304 := rfl

theorem copy_length (dst src : List Byte) : (copy dst src).length = dst.length := by
  unfold copy
  have h1 : Nat.min dst.length src.length ≤ dst.length := Nat.min_le_left _ _
  have h2 : Nat.min dst.length src.length ≤ src.length := Nat.min_le_right _ _
  simp only [List.length_append, List.length_take, List.length_drop]
  omega

theorem copy_copy (dst src : List Byte) : copy (copy dst src) src = copy dst src := by
  have hl := copy_length dst src
  have h2 : Nat.min dst.length src.length ≤ src.length := Nat.min_le_right _ _
  unfold copy at *
  rw [hl]
  congr 1
  rw [List.drop_append_eq_append_drop, List.drop_drop]
  simp only [List.length_take]
  rw [List.drop_eq_nil_of_le (by simp only [List.length_take]; omega), List.nil_append]
  congr 1
  omega

theorem PutUint32_length (b : List Byte) (v : Nat) (hb : b.length = 4) :
    (PutUint32 b v).length = 4 := by
  unfold PutUint32
  simp [hb]

theorem PutUint32_eq (b : List Byte) (v : Nat) (hb : b.length = 4) :
    PutUint32 b v = [v / 2 ^ 24 % 256, v / 2 ^ 16 % 256, v / 2 ^ 8 % 256, v % 256] := by
  unfold PutUint32
  rw [List.drop_eq_nil_of_le (by omega), List.append_nil]

theorem Uint32_PutUint32 (b : List Byte) (v : Nat) (hv : v < 2 ^ 32) :
    Uint32 (PutUint32 b v) = v := by
  simp only [PutUint32, Uint32, List.cons_append, List.getD_cons_zero, List.getD_cons_succ]
  omega

/-- `flushPack` when neither of its slices is out of range. -/
theorem flushPack_eq (P : Primitives) (w : AEADWriter) (chunkSize : Nat)
    (hc : chunkSize ≤ w.packBuf.length)
    (hN : P.NonceSize ≤ (P.Sum (w.Hasher ++ w.packBuf.take chunkSize)).length) :
    w.flushPack P chunkSize = some
      ({ Hasher := w.Hasher ++ w.packBuf.take chunkSize,
         nonce := copy w.nonce ((P.Sum (w.Hasher ++ w.packBuf.take chunkSize)).drop P.NonceSize),
         sizeBuf := PutUint32 w.sizeBuf
           ((P.Seal (copy w.nonce ((P.Sum (w.Hasher ++ w.packBuf.take chunkSize)).drop P.NonceSize))
             (w.packBuf.take chunkSize)).length % 2 ^ 32),
         Writer := w.Writer ++
           PutUint32 w.sizeBuf
             ((P.Seal (copy w.nonce ((P.Sum (w.Hasher ++ w.packBuf.take chunkSize)).drop P.NonceSize))
               (w.packBuf.take chunkSize)).length % 2 ^ 32) ++
           copy w.nonce ((P.Sum (w.Hasher ++ w.packBuf.take chunkSize)).drop P.NonceSize) ++
           P.Seal (copy w.nonce ((P.Sum (w.Hasher ++ w.packBuf.take chunkSize)).drop P.NonceSize))
             (w.packBuf.take chunkSize),
         packBuf := w.packBuf.drop chunkSize },
       (P.Seal (copy w.nonce ((P.Sum (w.Hasher ++ w.packBuf.take chunkSize)).drop P.NonceSize))
           (w.packBuf.take chunkSize)).length +
         (copy w.nonce ((P.Sum (w.Hasher ++ w.packBuf.take chunkSize)).drop P.NonceSize)).length +
         (PutUint32 w.sizeBuf
           ((P.Seal (copy w.nonce ((P.Sum (w.Hasher ++ w.packBuf.take chunkSize)).drop P.NonceSize))
             (w.packBuf.take chunkSize)).length % 2 ^ 32)).length) := by
  unfold AEADWriter.flushPack
  rw [if_neg (by omega)]
  simp only
  rw [if_neg (by omega)]

/-- C24 (amended): for every block the encoder flushes, with a digest of 20 bytes
and a nonce buffer of `N ≤ 20` bytes, the hasher has taken in the block, and the
nonce written into the frame and used for sealing is `copy(nonce, digest[N:])`:
its first `min(N, 20 - N)` bytes are the bytes of the running digest from index
`N` on, the rest of the buffer is left as it was.  For `N ≤ 10` the nonce is
`digest[N : 2N]`. -/
theorem flushPack_nonce (P : Primitives) (w : AEADWriter) (chunkSize : Nat)
    (hc : chunkSize ≤ w.packBuf.length)
    (hsum : (P.Sum (w.Hasher ++ w.packBuf.take chunkSize)).length = 20)
    (hN : P.NonceSize ≤ 20) (hn : w.nonce.length = P.NonceSize) :
    ∃ w1 n, w.flushPack P chunkSize = some (w1, n) ∧
      w1.Hasher = w.Hasher ++ w.packBuf.take chunkSize ∧
      w1.nonce = ((P.Sum w1.Hasher).drop P.NonceSize).take (Nat.min P.NonceSize (20 - P.NonceSize))
        ++ w.nonce.drop (Nat.min P.NonceSize (20 - P.NonceSize)) ∧
      (P.NonceSize ≤ 10 → w1.nonce = ((P.Sum w1.Hasher).drop P.NonceSize).take P.NonceSize) ∧
      w1.Writer = w.Writer ++ w1.sizeBuf ++ w1.nonce ++ P.Seal w1.nonce (w.packBuf.take chunkSize) := by
  refine ⟨_, _, flushPack_eq P w chunkSize hc (by omega), rfl, ?_, ?_, rfl⟩
  · simp only [copy, List.length_drop, hsum, hn]
  · intro h10
    simp only [copy, List.length_drop, hsum, hn]
    have : Nat.min P.NonceSize (20 - P.NonceSize) = P.NonceSize := Nat.min_eq_left (by omega)
    have hd : w.nonce.drop P.NonceSize = [] := List.drop_eq_nil_of_le (by omega)
    rw [this, hd, List.append_nil]

/-- The first block of three bytes with a nonce of 8 bytes. -/
theorem flushPack_nonce_witness :
    ∃ w1 n, (AEADWriter.mk [] (List.replicate 8 0) (List.replicate 4 0) [] [1, 2, 3]).flushPack
        (examplePrimitives 8) 3 = some (w1, n) ∧ w1.nonce = [11, 12, 13, 14, 15, 16, 17, 18] :=
  (flushPack_nonce (examplePrimitives 8)
    (AEADWriter.mk [] (List.replicate 8 0) (List.replicate 4 0) [] [1, 2, 3]) 3
    (by decide) (by decide) (by decide) (by decide)).imp fun _ h =>
      h.imp fun _ h => ⟨h.1, (h.2.2.2.1 (by decide)).trans (by rw [h.2.1]; decide)⟩

/-- C24 (counterexample): with the example digest `3, 4, ..., 22` of a block of
three bytes, the nonce of 8 bytes is `11, ..., 18`, the bytes 8 to 15 of the
digest, not its last 8 bytes `15, ..., 22`; a nonce of 12 bytes is the last 8
bytes of the digest followed by 4 zero bytes. -/
theorem flushPack_nonce_not_last :
    (((NewAEADWriter (examplePrimitives 8) []).Write (examplePrimitives 8) [1, 2, 3]).bind
        (fun w => w.1.Close (examplePrimitives 8))).map
      (fun w => (w.nonce, (examplePrimitives 8).Sum w.Hasher))
      = some ([11, 12, 13, 14, 15, 16, 17, 18],
          [3, 4, 5, 6, 7, 8, 9, 10, 11, 12, 13, 14, 15, 16, 17, 18, 19, 20, 21, 22]) ∧
    (((NewAEADWriter (examplePrimitives 12) []).Write (examplePrimitives 12) [1, 2, 3]).bind
        (fun w => w.1.Close (examplePrimitives 12))).map AEADWriter.nonce
      = some [15, 16, 17, 18, 19, 20, 21, 22, 0, 0, 0, 0] ∧
    ([3, 4, 5, 6, 7, 8, 9, 10, 11, 12, 13, 14, 15, 16, 17, 18, 19, 20, 21, 22] : List Nat).drop (20 - 8)
      = [15, 16, 17, 18, 19, 20, 21, 22] := by
  decide

/-! ## Seeking and closing -/

/-- C28: the plaintext `10, 20, 30` encrypted into one frame.  After
`Seek(1, SEEK_SET)` on a fresh decoder (which returns position 0) the next two
bytes read are `10, 20`, the bytes at offset 0, and not `20, 30`. -/
theorem Seek_lands_on_block_start :
    Encrypt (examplePrimitives 8) [[10, 20, 30]]
      = some [0, 0, 0, 19, 11, 12, 13, 14, 15, 16, 17, 18, 10, 20, 30,
          0, 0, 0, 0, 0, 0, 0, 0, 0, 0, 0, 0, 0, 0, 0, 0] ∧
    ((NewAEADReader (examplePrimitives 8) ⟨[0, 0, 0, 19, 11, 12, 13, 14, 15, 16, 17, 18, 10, 20, 30,
          0, 0, 0, 0, 0, 0, 0, 0, 0, 0, 0, 0, 0, 0, 0, 0], 0⟩).Seek
        (examplePrimitives 8) 1 store.SEEK_SET).map
      (fun r => (r.2, (r.1.Read (examplePrimitives 8) 2).data, (r.1.Read (examplePrimitives 8) 2).err))
      = some ((0, none), [10, 20], none) := by
  decide

/-- C29: for every AEAD, `seekPosCoord` of the plaintext offset `maxPackSize`
gives block 0 and the offset `maxPackSize` inside it, since it divides by the
frame stride `4 + Overhead + NonceSize + maxPackSize`; dividing by
`maxPackSize` gives block 1 and offset 0. -/
theorem seekPosCoord_divides_by_stride (P : Primitives) :
    seekPosCoord P (maxPackSize : Int)
      = (0, (maxPackSize : Int),
          ((padPackSize + P.Overhead + P.NonceSize : Nat) : Int) + (maxPackSize : Int)) ∧
    (maxPackSize : Int).tdiv (maxPackSize : Int) = 1 ∧
    (maxPackSize : Int).tmod (maxPackSize : Int) = 0 := by
  refine ⟨?_, by decide, by decide⟩
  unfold seekPosCoord
  have hpos : (0 : Int) ≤ (maxPackSize : Int) := Int.ofNat_nonneg _
  have hS : (0 : Int) ≤ ((padPackSize + P.Overhead + P.NonceSize : Nat) : Int) + (maxPackSize : Int) :=
    by omega
  have hlt : (maxPackSize : Int)
      < ((padPackSize + P.Overhead + P.NonceSize : Nat) : Int) + (maxPackSize : Int) := by
    have : padPackSize = 4 := rfl
    omega
  simp only [Int.tdiv_eq_ediv hpos hS, Int.tmod_eq_emod hpos hS, Int.ediv_eq_zero_of_lt hpos hlt,
    Int.emod_eq_of_lt hpos hlt]

/-- C26 (amended): every `Close` flushes one frame with what the buffer holds.
After a first `Close` the buffer is empty, and a second `Close` succeeds as
well and writes one more frame, that of the empty block: the size field, the
nonce and the sealed empty block, at least 4 further bytes.  The plaintext in
the buffer is written once. -/
theorem Close_twice (P : Primitives) (w w1 : AEADWriter) (h : w.Close P = some w1) :
    w1.packBuf = [] ∧
    ∃ w2, w1.Close P = some w2 ∧
      w2.Writer = w1.Writer ++ PutUint32 w1.sizeBuf ((P.Seal w1.nonce []).length % 2 ^ 32)
        ++ w1.nonce ++ P.Seal w1.nonce [] ∧
      w2.Writer.length = w1.Writer.length
        + ((PutUint32 w1.sizeBuf ((P.Seal w1.nonce []).length % 2 ^ 32)).length
          + w1.nonce.length + (P.Seal w1.nonce []).length) ∧
      w1.Writer.length + 4 ≤ w2.Writer.length ∧
      w2.Hasher = w1.Hasher ∧ w2.packBuf = [] := by
  unfold AEADWriter.Close at h
  have hN : P.NonceSize ≤ (P.Sum (w.Hasher ++ w.packBuf.take w.packBuf.length)).length := by
    by_contra hcon
    unfold AEADWriter.flushPack at h
    rw [if_neg (by omega)] at h
    simp only at h
    rw [if_pos (by omega)] at h
    cases h
  rw [flushPack_eq P w _ (le_refl _) hN] at h
  simp only [Option.map_some', Option.some.injEq] at h
  subst h
  simp only [List.drop_length, List.take_length]
  rw [List.take_length] at hN
  refine ⟨trivial, ?_⟩
  unfold AEADWriter.Close
  rw [flushPack_eq P _ _ (le_refl _) (by simpa using hN)]
  simp only [Option.map_some', List.length_nil, List.take_nil, List.append_nil, List.drop_nil,
    copy_copy]
  refine ⟨_, rfl, rfl, ?_, ?_, rfl, rfl⟩
  · simp only [List.length_append]
    omega
  · simp only [List.length_append, PutUint32, List.length_cons]
    omega

/-- `flushPack` appends the frame of the block to what has been written. -/
theorem flushPack_frame (P : Primitives) (w : AEADWriter) (chunkSize : Nat)
    (hc : chunkSize ≤ w.packBuf.length)
    (hN : ∀ d, P.NonceSize ≤ (P.Sum d).length) (hs : w.sizeBuf.length = 4) :
    ∃ w1 n, w.flushPack P chunkSize = some (w1, n) ∧
      w1.Hasher = w.Hasher ++ w.packBuf.take chunkSize ∧
      w1.nonce = blockNonce P w.nonce (w.Hasher ++ w.packBuf.take chunkSize) ∧
      w1.sizeBuf.length = 4 ∧
      w1.Writer = w.Writer ++ frame P w1.nonce (w.packBuf.take chunkSize) ∧
      w1.packBuf = w.packBuf.drop chunkSize := by
  refine ⟨_, _, flushPack_eq P w chunkSize hc (hN _), rfl, rfl, PutUint32_length _ _ hs, ?_, rfl⟩
  simp only [frame, blockNonce, PutUint32, List.drop_eq_nil_of_le (le_of_eq hs), List.drop_nil,
    List.append_assoc]

/-- The encoder writes the frames of the blocks `blocksOf` lists: for a writer in
any state, the transfer of `chunks` followed by `Close`. -/
theorem securedTransfer_Close (P : Primitives) (hN : ∀ d, P.NonceSize ≤ (P.Sum d).length)
    (chunks : List (List Byte)) :
    ∀ w : AEADWriter, w.sizeBuf.length = 4 →
      ∃ w1 w2, securedTransfer P w chunks = some w1 ∧ w1.Close P = some w2 ∧
        w2.Writer = w.Writer ++ frames P w.nonce w.Hasher (blocksOf w.packBuf chunks) := by
  induction chunks with
  | nil =>
    intro w hs
    obtain ⟨w1, n, hf, hh, hn, -, hw, -⟩ := flushPack_frame P w w.packBuf.length (le_refl _) hN hs
    refine ⟨w, w1, rfl, ?_, ?_⟩
    · unfold AEADWriter.Close; rw [hf]; rfl
    · rw [hw, hn, List.take_length]
      simp only [blocksOf, frames, List.append_nil]
  | cons chunk rest ih =>
    intro w hs
    unfold securedTransfer blocksOf
    by_cases h0 : chunk.length = 0
    · rw [if_pos h0, if_pos h0]
      exact ih w hs
    · rw [if_neg h0, if_neg h0]
      unfold AEADWriter.Write
      simp only
      by_cases hlt : (w.packBuf ++ chunk).length < maxPackSize
      · rw [if_pos hlt, if_pos hlt]
        exact ih { w with packBuf := w.packBuf ++ chunk } hs
      · rw [if_neg hlt, if_neg hlt]
        obtain ⟨w1, n, hf, hh, hn, hs1, hw, hp⟩ :=
          flushPack_frame P { w with packBuf := w.packBuf ++ chunk } maxPackSize
            (by simp only; omega) hN hs
        rw [hf]
        simp only
        obtain ⟨w2, w3, ht, hcl, hw3⟩ := ih w1 hs1
        refine ⟨w2, w3, ht, hcl, ?_⟩
        rw [hw3, hw, hn, hh, hp]
        simp only [frames, List.append_assoc]

/-- The bytes `Encrypt` writes. -/
theorem Encrypt_eq_frames (P : Primitives) (hN : ∀ d, P.NonceSize ≤ (P.Sum d).length)
    (chunks : List (List Byte)) :
    Encrypt P chunks
      = some (frames P (List.replicate P.NonceSize 0) [] (blocksOf [] chunks)) := by
  obtain ⟨w1, w2, ht, hcl, hw⟩ := securedTransfer_Close P hN chunks (NewAEADWriter P []) rfl
  unfold Encrypt
  rw [ht]
  simp only [hcl, Option.map_some', hw]
  rfl

/-- The blocks hold the bytes of the buffer and of the chunks, in order. -/
theorem blocksOf_flatten (chunks : List (List Byte)) :
    ∀ buf, (blocksOf buf chunks).flatten = buf ++ chunks.flatten := by
  induction chunks with
  | nil => intro buf; simp [blocksOf]
  | cons chunk rest ih =>
    intro buf
    unfold blocksOf
    by_cases h0 : chunk.length = 0
    · rw [if_pos h0, ih, List.length_eq_zero.1 h0]
      simp
    · rw [if_neg h0]
      by_cases hlt : (buf ++ chunk).length < maxPackSize
      · rw [if_pos hlt, ih]; simp
      · rw [if_neg hlt, List.flatten_cons, ih, ← List.append_assoc, List.take_append_drop]
        simp


/-! ## The decoder -/

/-- A read from the underlying reader into a buffer as long as the bytes `front`
that come next. -/
theorem Reader_Read_front (s : List Byte) (i : Nat) (b front rest : List Byte)
    (hs : s.drop i = front ++ rest) (hb : b.length = front.length) (hpos : 0 < front.length) :
    store.Reader.Read ⟨s, i⟩ b = (⟨s, i + front.length⟩, front, (front.length : Int), none) := by
  have hlen : s.length - i = front.length + rest.length := by
    rw [← List.length_drop, hs, List.length_append]
  have hmin : Nat.min b.length (s.length - i) = front.length := by
    rw [hb, hlen]; exact Nat.min_eq_left (by omega)
  rw [store.Reader_Read_data ⟨s, i⟩ b (by show i < s.length; omega)]
  simp only [hmin, hs]
  rw [List.take_left' rfl, List.drop_eq_nil_of_le (by omega), List.append_nil]

theorem drop_add_of_drop (s : List Byte) (i : Nat) (front rest : List Byte)
    (hs : s.drop i = front ++ rest) : s.drop (i + front.length) = rest := by
  have : s.drop (i + front.length) = (s.drop i).drop front.length := by
    simp [List.drop_drop, Nat.add_comm]
  rw [this, hs, List.drop_left' rfl]

/-- `Read` with an empty backlog, when the three reads from the underlying
reader succeed, the size passes the check and the block opens. -/
theorem Read_of_reads (P : Primitives) (r : AEADReader) (destLen : Nat)
    (R1 R2 R3 : store.Reader) (sb nn pk dec : List Byte) (k1 k3 : Int)
    (hb : r.backlog = [])
    (h1 : r.Reader.Read r.sizeBuf = (R1, sb, k1, none))
    (hchk : ¬ Uint32 sb > (maxPackSize + P.Overhead % 2 ^ 32) % 2 ^ 32)
    (h2 : R1.Read r.nonce = (R2, nn, (P.NonceSize : Int), none))
    (h3 : R2.Read (List.replicate (Uint32 sb) 0) = (R3, pk, k3, none))
    (hopen : P.Open nn (pk.take k3.toNat) = some dec)
    (hdest : destLen > dec.length) :
    r.Read P destLen
      = ⟨{ Hasher := r.Hasher ++ dec, nonce := nn, sizeBuf := sb, Reader := R3, backlog := [] },
          dec, none⟩ := by
  unfold AEADReader.Read
  rw [if_neg (by rw [hb]; exact Nat.lt_irrefl 0)]
  simp only [h1, if_neg hchk, h2, h3, hopen, if_pos hdest, ne_eq, not_true_eq_false, if_false, hb]

/-- `Read` with an empty backlog when the size field exceeds the limit. -/
theorem Read_of_oversize (P : Primitives) (r : AEADReader) (destLen : Nat)
    (R1 : store.Reader) (sb : List Byte) (k1 : Int)
    (hb : r.backlog = [])
    (h1 : r.Reader.Read r.sizeBuf = (R1, sb, k1, none))
    (hchk : Uint32 sb > (maxPackSize + P.Overhead % 2 ^ 32) % 2 ^ 32) :
    r.Read P destLen = ⟨{ r with Reader := R1, sizeBuf := sb }, [], some Err.PackSize⟩ := by
  unfold AEADReader.Read
  rw [if_neg (by rw [hb]; exact Nat.lt_irrefl 0)]
  simp only [h1, if_pos hchk]

/-- `Read` at the end of the underlying stream. -/
theorem Read_at_end (P : Primitives) (r : AEADReader) (destLen : Nat)
    (hb : r.backlog = []) (hend : r.Reader.s.length ≤ r.Reader.i) :
    r.Read P destLen = ⟨r, [], some (Err.Reader store.IOError.EOF)⟩ := by
  unfold AEADReader.Read
  rw [if_neg (by rw [hb]; exact Nat.lt_irrefl 0)]
  simp only [store.Reader_Read_eof r.Reader r.sizeBuf hend]

theorem frame_length (P : Primitives) (nonce block : List Byte) :
    (frame P nonce block).length = 4 + nonce.length + (P.Seal nonce block).length := by
  simp only [frame, PutUint32, List.length_append, List.length_cons, List.length_nil,
    List.drop_nil]

/-- `Read` at the start of a frame whose block has at most `maxPackSize` bytes,
into a destination that holds the block. -/
theorem Read_frame (P : Primitives) (hP : P.Lawful) (r : AEADReader) (destLen : Nat)
    (s : List Byte) (i : Nat) (nonce block rest : List Byte)
    (hb : r.backlog = []) (hsb : r.sizeBuf.length = 4) (hrn : r.nonce.length = P.NonceSize)
    (hr : r.Reader = ⟨s, i⟩) (hs : s.drop i = frame P nonce block ++ rest)
    (hn : nonce.length = P.NonceSize) (hblk : block.length ≤ maxPackSize)
    (hdest : destLen > block.length) :
    r.Read P destLen
      = ⟨{ Hasher := r.Hasher ++ block, nonce := nonce,
           sizeBuf := PutUint32 [] ((P.Seal nonce block).length % 2 ^ 32),
           Reader := ⟨s, i + (frame P nonce block).length⟩, backlog := [] }, block, none⟩ := by
  have hseal := hP.seal_length nonce block
  have hov := hP.overhead_le
  have hovp := hP.overhead_pos
  have hnp := hP.nonce_pos
  have hmax := maxPackSize_eq
  have hv : (P.Seal nonce block).length % 2 ^ 32 = (P.Seal nonce block).length :=
    Nat.mod_eq_of_lt (by omega)
  have hsz : (PutUint32 [] ((P.Seal nonce block).length % 2 ^ 32)).length = 4 := rfl
  have hu : Uint32 (PutUint32 [] ((P.Seal nonce block).length % 2 ^ 32))
      = (P.Seal nonce block).length := by
    rw [hv]; exact Uint32_PutUint32 [] _ (by omega)
  have hs1 : s.drop i = PutUint32 [] ((P.Seal nonce block).length % 2 ^ 32)
      ++ (nonce ++ (P.Seal nonce block ++ rest)) := by
    rw [hs]; simp only [frame, List.append_assoc]
  have hs2 := drop_add_of_drop s i _ _ hs1
  have hs3 := drop_add_of_drop s _ _ _ hs2
  have e1 := Reader_Read_front s i r.sizeBuf _ _ hs1 (by rw [hsb, hsz]) (by rw [hsz]; omega)
  have e2 := Reader_Read_front s _ r.nonce _ _ hs2 (by rw [hrn, hn]) (by omega)
  have e3 := Reader_Read_front s _ (List.replicate (P.Seal nonce block).length 0) _ _ hs3
    (by rw [List.length_replicate]) (by omega)
  rw [hn] at e2 e3
  have := Read_of_reads P r destLen _ _ _ _ _ (P.Seal nonce block) block _
    ((P.Seal nonce block).length : Int) hb (by rw [hr]; exact e1)
    (by rw [hu]; omega) e2 (by rw [hu]; exact e3)
    (by rw [Int.toNat_ofNat, List.take_length]; exact hP.open_seal nonce block) hdest
  rw [this, frame_length, hsz, hn]
  congr 3
  omega

/-- `Read` at the start of a frame whose block has more than `maxPackSize`
bytes. -/
theorem Read_frame_oversize (P : Primitives) (hP : P.Lawful) (r : AEADReader) (destLen : Nat)
    (s : List Byte) (i : Nat) (nonce block rest : List Byte)
    (hb : r.backlog = []) (hsb : r.sizeBuf.length = 4)
    (hr : r.Reader = ⟨s, i⟩) (hs : s.drop i = frame P nonce block ++ rest)
    (hblk : maxPackSize < block.length) (hlt : block.length + P.Overhead < 2 ^ 32) :
    (r.Read P destLen).data = [] ∧ (r.Read P destLen).err = some Err.PackSize := by
  have hseal := hP.seal_length nonce block
  have hov := hP.overhead_le
  have hmax := maxPackSize_eq
  have hv : (P.Seal nonce block).length % 2 ^ 32 = (P.Seal nonce block).length :=
    Nat.mod_eq_of_lt (by omega)
  have hsz : (PutUint32 [] ((P.Seal nonce block).length % 2 ^ 32)).length = 4 := rfl
  have hu : Uint32 (PutUint32 [] ((P.Seal nonce block).length % 2 ^ 32))
      = (P.Seal nonce block).length := by
    rw [hv]; exact Uint32_PutUint32 [] _ (by omega)
  have hs1 : s.drop i = PutUint32 [] ((P.Seal nonce block).length % 2 ^ 32)
      ++ (nonce ++ (P.Seal nonce block ++ rest)) := by
    rw [hs]; simp only [frame, List.append_assoc]
  have e1 := Reader_Read_front s i r.sizeBuf _ _ hs1 (by rw [hsb, hsz]) (by rw [hsz]; omega)
  rw [Read_of_oversize P r destLen _ _ _ hb (by rw [hr]; exact e1) (by rw [hu]; omega)]
  exact ⟨rfl, rfl⟩


theorem blockNonce_length (P : Primitives) (nonce hashed : List Byte) :
    (blockNonce P nonce hashed).length = nonce.length :=
  copy_length _ _

theorem frames_length_ge (P : Primitives) (blocks : List (List Byte)) :
    ∀ nonce hashed, blocks.length ≤ (frames P nonce hashed blocks).length := by
  induction blocks with
  | nil => intro _ _; exact Nat.zero_le _
  | cons block rest ih =>
    intro nonce hashed
    have := ih (blockNonce P nonce (hashed ++ block)) (hashed ++ block)
    simp only [frames, List.length_append, frame_length, List.length_cons]
    omega

/-- The transfer loop of `Decrypt` over a stream of frames: the blocks are
delivered in order up to the first block with more than `maxPackSize` bytes,
where the loop ends with the pack size error; without such a block it ends at
the end of the stream without error. -/
theorem securedTransferFrom_frames (P : Primitives) (hP : P.Lawful) (s : List Byte)
    (blocks : List (List Byte)) :
    ∀ (nonce hashed : List Byte) (r : AEADReader) (i : Nat) (out : List Byte) (fuel : Nat),
      r.backlog = [] → r.sizeBuf.length = 4 → r.nonce.length = P.NonceSize →
      nonce.length = P.NonceSize → r.Reader = ⟨s, i⟩ →
      s.drop i = frames P nonce hashed blocks →
      (∀ b ∈ blocks, b.length + P.Overhead < 2 ^ 32) → blocks.length + 1 ≤ fuel →
      securedTransferFrom P fuel r out
        = some (out ++ (blocks.takeWhile (fun b => decide (b.length ≤ maxPackSize))).flatten,
            if blocks.all (fun b => decide (b.length ≤ maxPackSize)) then none
            else some Err.PackSize) := by
  induction blocks with
  | nil =>
    intro nonce hashed r i out fuel hb _ _ _ hr hs _ hfuel
    obtain ⟨f, rfl⟩ : ∃ f, fuel = f + 1 := ⟨fuel - 1, by omega⟩
    have hend : r.Reader.s.length ≤ r.Reader.i := by
      rw [hr]
      simp only [frames] at hs
      exact List.drop_eq_nil_iff.1 hs
    unfold securedTransferFrom
    simp only [Read_at_end P r goodBufSize hb hend, List.length_nil, if_true]
    simp
  | cons block rest ih =>
    intro nonce hashed r i out fuel hb hsb hrn hn hr hs hlt hfuel
    obtain ⟨f, rfl⟩ : ∃ f, fuel = f + 1 := ⟨fuel - 1, by simp only [List.length_cons] at hfuel; omega⟩
    simp only [List.length_cons] at hfuel
    simp only [frames] at hs
    have hn1 : (blockNonce P nonce (hashed ++ block)).length = P.NonceSize := by
      rw [blockNonce_length, hn]
    by_cases hgood : block.length ≤ maxPackSize
    · have hread := Read_frame P hP r goodBufSize s i _ block _ hb hsb hrn hr hs hn1 hgood
        (by unfold goodBufSize; omega)
      have hnext := ih (blockNonce P nonce (hashed ++ block)) (hashed ++ block)
        { Hasher := r.Hasher ++ block, nonce := blockNonce P nonce (hashed ++ block),
          sizeBuf := PutUint32 []
            ((P.Seal (blockNonce P nonce (hashed ++ block)) block).length % 2 ^ 32),
          Reader := ⟨s, i + (frame P (blockNonce P nonce (hashed ++ block)) block).length⟩,
          backlog := [] }
        (i + (frame P (blockNonce P nonce (hashed ++ block)) block).length)
      unfold securedTransferFrom
      rw [hread]
      simp only [List.takeWhile_cons, decide_eq_true hgood, if_true, List.all_cons, Bool.true_and,
        List.flatten_cons]
      by_cases h0 : block.length = 0
      · rw [if_pos h0]
        rw [hnext out f rfl rfl hn1 hn1 rfl (drop_add_of_drop s i _ _ hs)
          (fun b hb => hlt b (List.mem_cons_of_mem _ hb)) (by omega)]
        rw [List.length_eq_zero.1 h0, List.nil_append]
      · rw [if_neg h0]
        rw [hnext (out ++ block) f rfl rfl hn1 hn1 rfl (drop_add_of_drop s i _ _ hs)
          (fun b hb => hlt b (List.mem_cons_of_mem _ hb)) (by omega)]
        rw [List.append_assoc]
    · have hread := Read_frame_oversize P hP r goodBufSize s i _ block _ hb hsb hr hs
        (by omega) (hlt block (List.mem_cons_self _ _))
      unfold securedTransferFrom
      simp only [hread.1, hread.2, List.length_nil, if_true, List.takeWhile_cons,
        decide_eq_false hgood, List.all_cons, Bool.false_and]
      simp

/-- `Decrypt` over the frames of a sequence of blocks. -/
theorem Decrypt_frames (P : Primitives) (hP : P.Lawful) (blocks : List (List Byte))
    (hlt : ∀ b ∈ blocks, b.length + P.Overhead < 2 ^ 32) :
    Decrypt P (frames P (List.replicate P.NonceSize 0) [] blocks)
      = some ((blocks.takeWhile (fun b => decide (b.length ≤ maxPackSize))).flatten,
          if blocks.all (fun b => decide (b.length ≤ maxPackSize)) then none
          else some Err.PackSize) := by
  have := securedTransferFrom_frames P hP (frames P (List.replicate P.NonceSize 0) [] blocks)
    blocks (List.replicate P.NonceSize 0) []
    (NewAEADReader P ⟨frames P (List.replicate P.NonceSize 0) [] blocks, 0⟩) 0 []
    ((frames P (List.replicate P.NonceSize 0) [] blocks).length + 1) rfl rfl
    (List.length_replicate _ _) (List.length_replicate _ _) rfl rfl hlt
    (by have := frames_length_ge P blocks (List.replicate P.NonceSize 0) []; omega)
  rw [List.nil_append] at this
  exact this


/-! ## Round trip -/

theorem frames_length (P : Primitives) (hP : P.Lawful) (blocks : List (List Byte)) :
    ∀ nonce hashed, nonce.length = P.NonceSize →
      (frames P nonce hashed blocks).length
        = blocks.length * (4 + P.NonceSize + P.Overhead) + blocks.flatten.length := by
  induction blocks with
  | nil => intro _ _ _; simp [frames]
  | cons block rest ih =>
    intro nonce hashed hn
    have hn1 : (blockNonce P nonce (hashed ++ block)).length = P.NonceSize := by
      rw [blockNonce_length, hn]
    simp only [frames, List.length_append, frame_length, hn1, hP.seal_length, ih _ _ hn1,
      List.length_cons, List.flatten_cons, Nat.add_mul, Nat.one_mul]
    omega

/-- With chunks of at most `maxPackSize` bytes no block is longer than that. -/
theorem blocksOf_le (chunks : List (List Byte)) (h : ∀ c ∈ chunks, c.length ≤ maxPackSize) :
    ∀ buf, buf.length < maxPackSize → ∀ b ∈ blocksOf buf chunks, b.length ≤ maxPackSize := by
  induction chunks with
  | nil =>
    intro buf hbuf b hb
    simp only [blocksOf, List.mem_singleton] at hb
    rw [hb]; omega
  | cons chunk rest ih =>
    intro buf hbuf b hb
    have hc := h chunk (List.mem_cons_self _ _)
    have ih1 := ih (fun c hc => h c (List.mem_cons_of_mem _ hc))
    unfold blocksOf at hb
    by_cases h0 : chunk.length = 0
    · rw [if_pos h0] at hb
      exact ih1 buf hbuf b hb
    · rw [if_neg h0] at hb
      by_cases hlt : (buf ++ chunk).length < maxPackSize
      · rw [if_pos hlt] at hb
        exact ih1 _ hlt b hb
      · rw [if_neg hlt] at hb
        rcases List.mem_cons.1 hb with hb | hb
        · rw [hb, List.length_take]
          exact Nat.min_le_left _ _
        · refine ih1 _ ?_ b hb
          rw [List.length_drop, List.length_append]
          omega

/-- The round trip holds whenever no block the encoder flushes is longer than
`maxPackSize`. -/
theorem Decrypt_Encrypt_of_blocks (P : Primitives) (hP : P.Lawful) (chunks : List (List Byte))
    (h : ∀ b ∈ blocksOf [] chunks, b.length ≤ maxPackSize) :
    ∃ ct, Encrypt P chunks = some ct ∧ Decrypt P ct = some (chunks.flatten, none) := by
  have hN : ∀ d, P.NonceSize ≤ (P.Sum d).length := fun d => by
    rw [hP.sum_length]; exact hP.nonce_le
  refine ⟨_, Encrypt_eq_frames P hN chunks, ?_⟩
  have hov := hP.overhead_le
  have hmax := maxPackSize_eq
  rw [Decrypt_frames P hP _ (fun b hb => by have := h b hb; omega)]
  have hall : (blocksOf [] chunks).all (fun b => decide (b.length ≤ maxPackSize)) = true :=
    List.all_eq_true.2 (fun b hb => decide_eq_true (h b hb))
  have htw : (blocksOf [] chunks).takeWhile (fun b => decide (b.length ≤ maxPackSize))
      = blocksOf [] chunks :=
    List.takeWhile_eq_self_iff.2 (fun b hb => decide_eq_true (h b hb))
  rw [hall, htw, blocksOf_flatten, List.nil_append]
  rfl

/-- The round trip for a source that delivers chunks of at most `maxPackSize`
bytes. -/
theorem Decrypt_Encrypt (P : Primitives) (hP : P.Lawful) (chunks : List (List Byte))
    (h : ∀ c ∈ chunks, c.length ≤ maxPackSize) :
    ∃ ct, Encrypt P chunks = some ct ∧ Decrypt P ct = some (chunks.flatten, none) :=
  Decrypt_Encrypt_of_blocks P hP chunks
    (blocksOf_le chunks h [] (by rw [maxPackSize_eq]; exact Nat.succ_pos _))

theorem examplePrimitives_lawful (n : Nat) (h0 : 0 < n) (h20 : n ≤ 20) :
    (examplePrimitives n).Lawful where
  sum_length := fun d => by simp [examplePrimitives]
  nonce_le := h20
  nonce_pos := h0
  overhead_pos := by simp [examplePrimitives]
  overhead_le := by simp [examplePrimitives]
  seal_length := fun nonce plain => by simp [examplePrimitives]
  open_seal := fun nonce plain => by simp [examplePrimitives]

/-- The blocks for a chunk one byte short of `maxPackSize` followed by a chunk of
`goodBufSize` bytes: the second `Write` flushes one block and leaves
`maxPackSize + 31` bytes for `Close`. -/
theorem blocksOf_short_then_full (a b : List Byte) (ha : a.length = maxPackSize - 1)
    (hb : b.length = maxPackSize + 32) :
    blocksOf [] [a, b] = [(a ++ b).take maxPackSize, (a ++ b).drop maxPackSize] ∧
      ((a ++ b).take maxPackSize).length = maxPackSize ∧
      ((a ++ b).drop maxPackSize).length = maxPackSize + 31 := by
  have hmax := maxPackSize_eq
  refine ⟨?_, ?_, ?_⟩
  · unfold blocksOf
    rw [if_neg (by omega), if_pos (by rw [List.nil_append]; omega)]
    unfold blocksOf
    rw [if_neg (by omega), if_neg (by simp only [List.nil_append, List.length_append]; omega)]
    simp only [blocksOf, List.nil_append]
  · rw [List.length_take, List.length_append]
    exact Nat.min_eq_left (by omega)
  · rw [List.length_drop, List.length_append]
    omega

/-- C23: a source that delivers a chunk of `maxPackSize - 1` bytes and then a
chunk of `maxPackSize + 32 = goodBufSize` bytes.  `Encrypt` succeeds, and
`Decrypt` of its output delivers the first `maxPackSize` bytes of the plaintext
and then fails with the pack size error. -/
theorem Decrypt_rejects_Encrypt (P : Primitives) (hP : P.Lawful) (a b : List Byte)
    (ha : a.length = maxPackSize - 1) (hb : b.length = maxPackSize + 32) :
    a.length ≤ goodBufSize ∧ b.length ≤ goodBufSize ∧
    ∃ ct, Encrypt P [a, b] = some ct ∧
      Decrypt P ct = some ((a ++ b).take maxPackSize, some Err.PackSize) := by
  have hN : ∀ d, P.NonceSize ≤ (P.Sum d).length := fun d => by
    rw [hP.sum_length]; exact hP.nonce_le
  have hov := hP.overhead_le
  have hmax := maxPackSize_eq
  obtain ⟨hblocks, hl1, hl2⟩ := blocksOf_short_then_full a b ha hb
  refine ⟨by unfold goodBufSize; omega, by unfold goodBufSize; omega, _,
    Encrypt_eq_frames P hN [a, b], ?_⟩
  rw [hblocks, Decrypt_frames P hP _ (by
    intro x hx
    simp only [List.mem_cons, List.mem_singleton, List.not_mem_nil, or_false] at hx
    rcases hx with hx | hx <;> rw [hx] <;> omega)]
  have h1 : decide (((a ++ b).take maxPackSize).length ≤ maxPackSize) = true :=
    decide_eq_true (by omega)
  have h2 : decide (((a ++ b).drop maxPackSize).length ≤ maxPackSize) = false :=
    decide_eq_false (by omega)
  simp only [List.takeWhile_cons, List.all_cons, h1, h2, if_true, Bool.true_and, Bool.false_and,
    Bool.false_eq_true, if_false, List.flatten_cons, List.flatten_nil, List.append_nil]

/-- Chunks of zero bytes with the example primitives. -/
theorem Decrypt_rejects_Encrypt_witness :
    ∃ ct, Encrypt (examplePrimitives 8)
        [List.replicate (maxPackSize - 1) 0, List.replicate (maxPackSize + 32) 0] = some ct ∧
      Decrypt (examplePrimitives 8) ct
        = some ((List.replicate (maxPackSize - 1) 0 ++ List.replicate (maxPackSize + 32) 0).take
            maxPackSize, some Err.PackSize) :=
  (Decrypt_rejects_Encrypt (examplePrimitives 8) (examplePrimitives_lawful 8 (by decide) (by decide))
    (List.replicate (maxPackSize - 1) 0) (List.replicate (maxPackSize + 32) 0)
    (List.length_replicate _ _) (List.length_replicate _ _)).2.2

/-- C25: `Write` of `maxPackSize - 1` bytes, `Write` of `maxPackSize + 32` bytes and
`Close` emit two frames; the last one carries `maxPackSize + 31` bytes of
plaintext, and its size field `maxPackSize + 31 + Overhead` is above the limit
of the size check in `AEADReader.Read`. -/
theorem Close_flushes_long_tail (P : Primitives) (hP : P.Lawful) (a b : List Byte)
    (ha : a.length = maxPackSize - 1) (hb : b.length = maxPackSize + 32) :
    ∃ w1 w2, securedTransfer P (NewAEADWriter P []) [a, b] = some w1 ∧ w1.Close P = some w2 ∧
      w2.Writer = frames P (List.replicate P.NonceSize 0) []
        [(a ++ b).take maxPackSize, (a ++ b).drop maxPackSize] ∧
      ((a ++ b).drop maxPackSize).length = maxPackSize + 31 ∧
      ∀ nonce, Uint32 ((frame P nonce ((a ++ b).drop maxPackSize)).take 4)
          = maxPackSize + 31 + P.Overhead ∧
        maxPackSize + 31 + P.Overhead > (maxPackSize + P.Overhead % 2 ^ 32) % 2 ^ 32 := by
  have hN : ∀ d, P.NonceSize ≤ (P.Sum d).length := fun d => by
    rw [hP.sum_length]; exact hP.nonce_le
  have hov := hP.overhead_le
  have hmax := maxPackSize_eq
  obtain ⟨hblocks, hl1, hl2⟩ := blocksOf_short_then_full a b ha hb
  obtain ⟨w1, w2, ht, hc, hw⟩ := securedTransfer_Close P hN [a, b] (NewAEADWriter P []) rfl
  refine ⟨w1, w2, ht, hc, ?_, hl2, ?_⟩
  · rw [hw, ← hblocks]; rfl
  · intro nonce
    have hseal := hP.seal_length nonce ((a ++ b).drop maxPackSize)
    have htake : (frame P nonce ((a ++ b).drop maxPackSize)).take 4
        = PutUint32 [] ((P.Seal nonce ((a ++ b).drop maxPackSize)).length % 2 ^ 32) := by
      unfold frame
      rw [List.append_assoc]
      exact List.take_left' rfl
    rw [htake, Nat.mod_eq_of_lt (by omega), Uint32_PutUint32 [] _ (by omega), hseal, hl2]
    refine ⟨rfl, ?_⟩
    rw [Nat.mod_eq_of_lt (by omega : P.Overhead < 2 ^ 32), Nat.mod_eq_of_lt (by omega)]
    omega

/-- Two writes of zero bytes with the example primitives. -/
theorem Close_flushes_long_tail_witness :
    ∃ w1 w2, securedTransfer (examplePrimitives 8) (NewAEADWriter (examplePrimitives 8) [])
        [List.replicate (maxPackSize - 1) 0, List.replicate (maxPackSize + 32) 0] = some w1 ∧
      w1.Close (examplePrimitives 8) = some w2 ∧
      ((List.replicate (maxPackSize - 1) 0 ++ List.replicate (maxPackSize + 32) 0).drop
        maxPackSize).length = maxPackSize + 31 :=
  (Close_flushes_long_tail (examplePrimitives 8)
    (examplePrimitives_lawful 8 (by decide) (by decide))
    (List.replicate (maxPackSize - 1) 0) (List.replicate (maxPackSize + 32) 0)
    (List.length_replicate _ _) (List.length_replicate _ _)).imp fun _ h =>
      h.imp fun _ h => ⟨h.1, h.2.1, h.2.2.2.1⟩

/-- C27: the same plaintext of `2 * maxPackSize + 31` bytes written as chunks of
`maxPackSize - 1` and `maxPackSize + 32` bytes, or as chunks of `maxPackSize`
and `maxPackSize + 31` bytes: the second stream is longer by one frame header
and tag, so the two ciphertexts differ. -/
theorem Encrypt_depends_on_chunks (P : Primitives) (hP : P.Lawful) (a b : List Byte)
    (ha : a.length = maxPackSize - 1) (hb : b.length = maxPackSize + 32) :
    [a, b].flatten = [(a ++ b).take maxPackSize, (a ++ b).drop maxPackSize].flatten ∧
    ∃ c1 c2, Encrypt P [a, b] = some c1 ∧
      Encrypt P [(a ++ b).take maxPackSize, (a ++ b).drop maxPackSize] = some c2 ∧
      c2.length = c1.length + (4 + P.NonceSize + P.Overhead) ∧ c1 ≠ c2 := by
  have hN : ∀ d, P.NonceSize ≤ (P.Sum d).length := fun d => by
    rw [hP.sum_length]; exact hP.nonce_le
  have hmax := maxPackSize_eq
  obtain ⟨hblocks, hl1, hl2⟩ := blocksOf_short_then_full a b ha hb
  have hblocks2 : blocksOf [] [(a ++ b).take maxPackSize, (a ++ b).drop maxPackSize]
      = [(a ++ b).take maxPackSize, ((a ++ b).drop maxPackSize).take maxPackSize,
          ((a ++ b).drop maxPackSize).drop maxPackSize] := by
    unfold blocksOf
    rw [if_neg (by omega), if_neg (by rw [List.nil_append]; omega)]
    unfold blocksOf
    rw [if_neg (by omega), if_neg (by
      simp only [List.nil_append, List.length_append, List.length_drop, List.length_take]
      omega)]
    simp only [blocksOf, List.nil_append]
    rw [List.take_of_length_le (le_of_eq hl1), List.drop_of_length_le (le_of_eq hl1),
      List.nil_append]
  have hlen : ∀ blocks, (frames P (List.replicate P.NonceSize 0) [] blocks).length
      = blocks.length * (4 + P.NonceSize + P.Overhead) + blocks.flatten.length :=
    fun blocks => frames_length P hP blocks _ _ (List.length_replicate _ _)
  have hdiff : (frames P (List.replicate P.NonceSize 0) []
        (blocksOf [] [(a ++ b).take maxPackSize, (a ++ b).drop maxPackSize])).length
      = (frames P (List.replicate P.NonceSize 0) [] (blocksOf [] [a, b])).length
        + (4 + P.NonceSize + P.Overhead) := by
    rw [hlen, hlen, blocksOf_flatten, blocksOf_flatten, hblocks, hblocks2]
    simp only [List.flatten_cons, List.flatten_nil, List.append_nil, List.nil_append,
      List.length_cons, List.length_nil, List.take_append_drop]
    ring
  refine ⟨by simp, _, _, Encrypt_eq_frames P hN _, Encrypt_eq_frames P hN _, hdiff, ?_⟩
  intro heq
  rw [← heq] at hdiff
  omega

/-- Two ways to write the same zero bytes with the example primitives. -/
theorem Encrypt_depends_on_chunks_witness :
    ∃ c1 c2, Encrypt (examplePrimitives 8)
        [List.replicate (maxPackSize - 1) 0, List.replicate (maxPackSize + 32) 0] = some c1 ∧
      Encrypt (examplePrimitives 8)
        [(List.replicate (maxPackSize - 1) 0 ++ List.replicate (maxPackSize + 32) 0).take maxPackSize,
          (List.replicate (maxPackSize - 1) 0 ++ List.replicate (maxPackSize + 32) 0).drop
            maxPackSize] = some c2 ∧
      c2.length = c1.length + (4 + (examplePrimitives 8).NonceSize + (examplePrimitives 8).Overhead) ∧
      c1 ≠ c2 :=
  (Encrypt_depends_on_chunks (examplePrimitives 8)
    (examplePrimitives_lawful 8 (by decide) (by decide))
    (List.replicate (maxPackSize - 1) 0) (List.replicate (maxPackSize + 32) 0)
    (List.length_replicate _ _) (List.length_replicate _ _)).2

/-- C26 (counterexample): three bytes are written and the writer is closed twice.
After the first `Close` 31 bytes have been written, after the second 59. -/
theorem Close_writes_again :
    (((NewAEADWriter (examplePrimitives 8) []).Write (examplePrimitives 8) [1, 2, 3]).bind
        (fun w => (w.1.Close (examplePrimitives 8)).bind
          (fun w1 => (w1.Close (examplePrimitives 8)).map
            (fun w2 => (w1.Writer.length, w2.Writer.length)))))
      = some (31, 59) := by
  decide

/-- A writer with three bytes in its buffer, closed twice. -/
theorem Close_twice_witness :
    ∃ w2, (AEADWriter.mk [1, 2, 3] [11, 12, 13, 14, 15, 16, 17, 18] [0, 0, 0, 19]
          [0, 0, 0, 19, 11, 12, 13, 14, 15, 16, 17, 18, 1, 2, 3,
            0, 0, 0, 0, 0, 0, 0, 0, 0, 0, 0, 0, 0, 0, 0, 0] []).Close (examplePrimitives 8)
        = some w2 ∧
      w2.Writer.length = 59 :=
  (Close_twice (examplePrimitives 8)
    (AEADWriter.mk [] (List.replicate 8 0) (List.replicate 4 0) [] [1, 2, 3])
    (AEADWriter.mk [1, 2, 3] [11, 12, 13, 14, 15, 16, 17, 18] [0, 0, 0, 19]
      [0, 0, 0, 19, 11, 12, 13, 14, 15, 16, 17, 18, 1, 2, 3,
        0, 0, 0, 0, 0, 0, 0, 0, 0, 0, 0, 0, 0, 0, 0, 0] [])
    (by decide)).2.imp fun _ h => ⟨h.1, h.2.2.1.trans (by decide)⟩

end bit

namespace net

open store (Byte)

theorem PutUint64_length (v : Nat) : (PutUint64 v).length = 8 := rfl

theorem ReadFull_append (a rest : List Byte) :
    ReadFull (a ++ rest) a.length = (Except.ok a, rest) := by
  unfold ReadFull
  rw [if_pos (by simp), List.take_left', List.drop_left']
  · rfl
  · rfl

theorem Uint64_PutUint64_self (v : Nat) : Uint64 (PutUint64 v) = v % 2 ^ 64 := by
  simp only [PutUint64, Uint64, List.getD_cons_zero, List.getD_cons_succ]
  omega

/-- `readSizePack` in one piece. -/
theorem readSizePack_eq (r : List Byte) :
    readSizePack r =
      if 8 ≤ r.length then
        (if Uint64 (r.take 8) > 4096 then (Except.error (Err.Oversized (Uint64 (r.take 8))), r.drop 8)
         else ReadFull (r.drop 8) (Uint64 (r.take 8)))
      else if r.length = 0 then (Except.error Err.EOF, [])
      else (Except.error Err.UnexpectedEOF, []) := by
  unfold readSizePack
  by_cases h8 : 8 ≤ r.length
  · rw [if_pos h8]
    have : ReadFull r 8 = (Except.ok (r.take 8), r.drop 8) := by
      unfold ReadFull; rw [if_pos h8]
    rw [this]
  · rw [if_neg h8]
    by_cases h0 : r.length = 0
    · have : ReadFull r 8 = (Except.error Err.EOF, []) := by
        unfold ReadFull; rw [if_neg h8, if_pos h0]
      rw [this, if_pos h0]
    · have : ReadFull r 8 = (Except.error Err.UnexpectedEOF, []) := by
        unfold ReadFull; rw [if_neg h8, if_neg h0]
      rw [this, if_neg h0]

/-- C30: for every byte string `d` (its length fits a `uint64`), `writeSizePack`
emits the 8-byte little-endian length followed by `d`, and `readSizePack` on
these bytes (followed by anything) returns `d` and leaves the rest when
`len(d) ≤ 4096`, and otherwise fails with the oversize error without reading
any of the data.  On every stream, `readSizePack` fails with the oversize error
exactly when there are 8 bytes of length and the length declared exceeds
4096. -/
theorem sizePack_round_trip (w d rest : List Byte) (hlen : d.length < 2 ^ 64) :
    (writeSizePack w d).1 = w ++ (PutUint64 d.length ++ d) ∧
    readSizePack (PutUint64 d.length ++ d ++ rest)
      = (if d.length ≤ 4096 then (Except.ok d, rest)
         else (Except.error (Err.Oversized d.length), d ++ rest)) ∧
    ∀ r : List Byte, (∃ size, (readSizePack r).1 = Except.error (Err.Oversized size)) ↔
      (8 ≤ r.length ∧ 4096 < Uint64 (r.take 8)) := by
  refine ⟨?_, ?_, ?_⟩
  · unfold writeSizePack
    rw [Nat.mod_eq_of_lt hlen]
  · have htake : (PutUint64 d.length ++ d ++ rest).take 8 = PutUint64 d.length := by
      rw [List.append_assoc]
      exact List.take_left' (PutUint64_length _)
    have hdrop : (PutUint64 d.length ++ d ++ rest).drop 8 = d ++ rest := by
      rw [List.append_assoc]
      exact List.drop_left' (PutUint64_length _)
    rw [readSizePack_eq, if_pos (by simp [PutUint64_length]), htake, hdrop,
      Uint64_PutUint64_self, Nat.mod_eq_of_lt hlen]
    by_cases h : d.length ≤ 4096
    · rw [if_neg (by omega), if_pos h]
      exact ReadFull_append d rest
    · rw [if_pos (by omega), if_neg h]
  · intro r
    rw [readSizePack_eq]
    by_cases h8 : 8 ≤ r.length
    · rw [if_pos h8]
      by_cases hs : Uint64 (r.take 8) > 4096
      · rw [if_pos hs]
        exact ⟨fun _ => ⟨h8, hs⟩, fun _ => ⟨_, rfl⟩⟩
      · rw [if_neg hs]
        constructor
        · rintro ⟨size, hsize⟩
          unfold ReadFull at hsize
          split at hsize
          · cases hsize
          · split at hsize <;> cases hsize
        · intro h; exact absurd h.2 hs
    · rw [if_neg h8]
      constructor
      · rintro ⟨size, hsize⟩
        split at hsize <;> cases hsize
      · intro h; exact absurd h.1 h8

/-- The pack of three bytes. -/
theorem sizePack_round_trip_witness :
    (writeSizePack [] [1, 2, 3]).1 = [3, 0, 0, 0, 0, 0, 0, 0, 1, 2, 3] ∧
    readSizePack [3, 0, 0, 0, 0, 0, 0, 0, 1, 2, 3, 9] = (Except.ok [1, 2, 3], [9]) :=
  ⟨(sizePack_round_trip [] [1, 2, 3] [9] (by decide)).1,
    (sizePack_round_trip [] [1, 2, 3] [9] (by decide)).2.1⟩

/-! ## Key agreement of the handshake -/

/-- The key source does not depend on which nonce is the own one. -/
theorem keySource_comm (a b : List Byte) : keySource a b = keySource b a := by
  unfold keySource
  apply List.map_congr_left
  intro i _
  exact Nat.xor_comm _ _

/-- The key source has `nonceSize` bytes. -/
theorem keySource_length (a b : List Byte) : (keySource a b).length = nonceSize := by
  simp [keySource]

/-- C31: when each side of the handshake holds an own nonce of 62 bytes and
receives the nonce of the other side together with the right hash of its own
nonce, both sides compute the same key source, the byte-wise XOR of the two
nonces (62 bytes), and both runs succeed with the same pair of the key
`DeriveKey(keySource, keySource[:31], 32)` and the IV
`DeriveKey(keySource, keySource[31:], 16)`, whatever the hash and the key
derivation function are. -/
theorem runAuth_key_agreement (Sum512 : List Byte → List Byte)
    (DeriveKey : List Byte → List Byte → Nat → List Byte) (rA rB : List Byte)
    (hA : rA.length = nonceSize) (hB : rB.length = nonceSize) :
    keySource rB rA = keySource rA rB ∧
    (keySource rB rA).length = 62 ∧
    (∀ i, i < 62 → (keySource rB rA)[i]? = some (rA.getD i 0 ^^^ rB.getD i 0)) ∧
    runAuthKeys Sum512 DeriveKey rA rB (Sum512 rA)
      = Except.ok (DeriveKey (keySource rB rA) ((keySource rB rA).take 31) 32,
          DeriveKey (keySource rB rA) ((keySource rB rA).drop 31) 16) ∧
    runAuthKeys Sum512 DeriveKey rB rA (Sum512 rB)
      = runAuthKeys Sum512 DeriveKey rA rB (Sum512 rA) := by
  have hk : ∀ a b : List Byte, a.length = nonceSize → b.length = nonceSize →
      runAuthKeys Sum512 DeriveKey a b (Sum512 a)
        = Except.ok (DeriveKey (keySource b a) ((keySource b a).take 31) 32,
            DeriveKey (keySource b a) ((keySource b a).drop 31) 16) := by
    intro a b _ hb
    unfold runAuthKeys
    rw [if_neg (by rw [hb]; exact fun h => h rfl), if_neg (fun h => h rfl)]
    rfl
  refine ⟨keySource_comm rB rA, keySource_length rB rA, ?_, hk rA rB hA hB, ?_⟩
  · intro i hi
    unfold keySource
    rw [List.getElem?_map, List.getElem?_range (by unfold nonceSize; omega)]
    simp only [Option.map_some']
    rw [Nat.xor_comm]
  · rw [hk rA rB hA hB, hk rB rA hB hA, keySource_comm rA rB]

/-- C31 at two concrete nonces, with list reversal in the place of the hash
and a prefix of `secret ++ salt` in the place of the key derivation. -/
theorem runAuth_key_agreement_witness :
    ∃ key inv,
      runAuthKeys (fun d => d.reverse) (fun s salt n => (s ++ salt).take n)
          (List.replicate 62 1) (List.replicate 62 3) ((List.replicate 62 1).reverse)
        = Except.ok (key, inv) ∧
      runAuthKeys (fun d => d.reverse) (fun s salt n => (s ++ salt).take n)
          (List.replicate 62 3) (List.replicate 62 1) ((List.replicate 62 3).reverse)
        = Except.ok (key, inv) ∧
      key.length = 32 ∧ inv.length = 16 :=
  ⟨_, _,
    (runAuth_key_agreement (fun d => d.reverse) (fun s salt n => (s ++ salt).take n)
      (List.replicate 62 1) (List.replicate 62 3) (by decide) (by decide)).2.2.2.1,
    ((runAuth_key_agreement (fun d => d.reverse) (fun s salt n => (s ++ salt).take n)
      (List.replicate 62 1) (List.replicate 62 3) (by decide) (by decide)).2.2.2.2).trans
    (runAuth_key_agreement (fun d => d.reverse) (fun s salt n => (s ++ salt).take n)
      (List.replicate 62 1) (List.replicate 62 3) (by decide) (by decide)).2.2.2.1,
    by decide, by decide⟩

end net

namespace config

/-- C32: for all bounds `min` and `max`, the validator of
`IntRangeValidator(min, max)` returns no error if and only if the value is an
`int64` `i` with `min ≤ i ≤ max`, both boundaries included; every value of
another type is rejected. -/
theorem IntRangeValidator_iff (min max : Int) (val : Value) :
    IntRangeValidator min max val = none ↔ ∃ i, val = Value.int64 i ∧ min ≤ i ∧ i ≤ max := by
  cases val with
  | int64 i =>
    simp only [IntRangeValidator, Value.int64.injEq, exists_eq_left']
    by_cases h1 : i < min
    · simp [h1]
    · by_cases h2 : i > max
      · simp [h1, h2]
      · simp [h1, h2]; omega
  | int i => simp [IntRangeValidator]
  | float64 t => simp [IntRangeValidator]
  | string s => simp [IntRangeValidator]
  | bool b => simp [IntRangeValidator]
  | nil => simp [IntRangeValidator]

end config

namespace endpoints

/-- C36 (failing input): with the allowed folder `/allowed`, `validatePath`
accepts the request path `/allowed/..`, because `path.Dir` of the uncleaned
path is `/allowed`; the lexically cleaned form of the path is `/`, which is
neither equal to nor below `/allowed`, and `RemoveHandler.ServeHTTP` passes the
path on to the removal. -/
theorem validatePath_accepts_parent :
    validatePath (some ["/allowed"]) "/allowed/.." = some true ∧
    Clean "/allowed/.." = "/" ∧
    withinFolders ["/allowed"] (Clean "/allowed/..") = false ∧
    RemoveHandler.ServeHTTP (some ["/allowed"]) ["/allowed/.."] = some ["/allowed/.."] := by
  decide

end endpoints
